import Mathlib

/-!
Dimmable light: the thyristor registry and the zero-cross handler.

A shallow embedding of `src/thyristor.h` and `src/thyristor.cpp`.

* C++ objects live in a heap `objs`; the address of an object is its index in
  that list.  A pointer is an `Option Nat`, `none` being `nullptr`.
* The static members of `Thyristor` and the file-level statics of
  `thyristor.cpp` are the fields of `State`.
* Every operation returns `Option State`; `none` stands for undefined
  behaviour of the C++ code: an out-of-bounds array access, a null or dangling
  pointer dereference.
* Calls to the external collaborators (`digitalWrite`, `pinMode`,
  `hw_timer_set_func`, `hw_timer_arm`) are appended to the log `out`.
* `for` loops whose bounds are not changed by their body take the number of
  remaining iterations as their first, structurally decreasing, argument.
* The text written to `Serial` is not modelled, but the reads made to build it
  are (`serialDump`).
-/

set_option linter.unusedVariables false

/-- Fields of a `Thyristor` object (`thyristor.h`, lines 165-176). -/
structure Thyristor where
  /-- Field `uint8_t pin`. -/
  pin : Nat
  /-- Field `uint8_t posIntoArray`. -/
  posIntoArray : Nat
  /-- Field `uint16_t delay`. -/
  delay : Nat
deriving DecidableEq

/-- Entry of the published schedule, `struct PinDelay` (`thyristor.cpp`, lines 5-8). -/
structure PinDelay where
  /-- Field `uint8_t pin`. -/
  pin : Nat
  /-- Field `uint16_t delay`. -/
  delay : Nat
deriving DecidableEq

/-- Logic level of a `digitalWrite`. -/
inductive Level where
  | LOW
  | HIGH
deriving DecidableEq

/-- Functions that can be installed with `hw_timer_set_func`. -/
inductive Callback where
  | activateThyristors
deriving DecidableEq

/-- Calls to the external collaborators (digital I/O and timer driver). -/
inductive Event where
  | pinMode (pin : Nat)
  | digitalWrite (pin : Nat) (level : Level)
  | hw_timer_set_func (f : Option Callback)
  | hw_timer_arm (val : Nat)
deriving DecidableEq

/-- Whole program state: heap of objects, static members of `Thyristor`,
file-level statics of `thyristor.cpp` and the log of collaborator calls. -/
structure State where
  /-- Heap of `Thyristor` objects, addressed by index. -/
  objs : List Thyristor
  /-- Static `Thyristor* thyristors[N]`. -/
  thyristors : List (Option Nat)
  /-- Static `uint8_t nThyristors`. -/
  nThyristors : Nat
  /-- Static `bool newDelayValues` (the dirty flag). -/
  newDelayValues : Bool
  /-- Static `bool updatingStruct` (the busy flag). -/
  updatingStruct : Bool
  /-- File-level `static struct PinDelay pinDelay[N]` (the published schedule). -/
  pinDelay : List PinDelay
  /-- File-level `static uint8_t thyristorManaged` (the cursor). -/
  thyristorManaged : Nat
  /-- Log of collaborator calls, oldest first. -/
  out : List Event
deriving DecidableEq

namespace Thyristor

/-- Constant `static const uint8_t N = 8` (`thyristor.h`, line 91). -/
def N : Nat := 8

/-- State at program start: statics are zero-initialised
(`thyristor.cpp`, lines 13, 18, 254-257). -/
def init : State :=
  { objs := []
    thyristors := List.replicate N none
    nThyristors := 0
    newDelayValues := false
    updatingStruct := false
    pinDelay := List.replicate N ⟨0, 0⟩
    thyristorManaged := 0
    out := [] }

/-- Pointer stored in `thyristors[i]`; `none` when `i` is outside the array. -/
def slot (s : State) (i : Nat) : Option (Option Nat) := s.thyristors[i]?

/-- Address held by `thyristors[i]`; `none` when out of bounds or `nullptr`. -/
def addrAt (s : State) (i : Nat) : Option Nat := (s.thyristors[i]?).bind id

/-- Object reached through `thyristors[i]->`. -/
def deref (s : State) (i : Nat) : Option Thyristor :=
  (addrAt s i).bind fun a => s.objs[a]?

/-- Assignment `thyristors[i] = p`; undefined outside the array. -/
def writeSlot (s : State) (i : Nat) (p : Option Nat) : Option State :=
  if i < s.thyristors.length then
    some { s with thyristors := s.thyristors.set i p }
  else none

/-- Assignment `p->posIntoArray = v` for the object at address `a`
(the field is a `uint8_t`). -/
def writePos (s : State) (a : Nat) (v : Nat) : Option State :=
  (s.objs[a]?).map fun o =>
    { s with objs := s.objs.set a { o with posIntoArray := v % 256 } }

/-- Loop `for(int i=0;i<nThyristors;i++){ Serial.print(... thyristors[i]->...) }`
(`thyristor.cpp`, lines 108-112 and 193-197): only the reads are modelled.
First argument: remaining iterations; second: `i`. -/
def serialDump (s : State) : Nat → Nat → Option Unit
  | 0, _ => some ()
  | k + 1, i => (deref s i).bind fun _ => serialDump s k (i + 1)

/-- Loop `while(i<nThyristors && !done)` of `setDelay` (`thyristor.cpp`,
lines 127-133).  First argument: `nThyristors - i`; second: `i`.
Returns the final `i`. -/
def scanUp (s : State) (newDelay : Nat) : Nat → Nat → Option Nat
  | 0, i => some i
  | k + 1, i =>
    (deref s i).bind fun t =>
      if newDelay ≤ t.delay then some i else scanUp s newDelay k (i + 1)

/-- Loop `while(i>=0 && !done)` of `setDelay` (`thyristor.cpp`, lines 160-166).
The argument is `i + 1` (so `0` stands for `i = -1`).
Returns the final `i` and `done`. -/
def scanDown (s : State) (newDelay : Nat) : Nat → Option (Int × Bool)
  | 0 => some (-1, false)
  | i + 1 =>
    (deref s i).bind fun t =>
      if newDelay ≥ t.delay then some ((i : Int), true) else scanDown s newDelay i

/-- Body of the shift loop of the increasing branch (`thyristor.cpp`, lines 150-151):
`thyristors[i]=thyristors[i+1]; thyristors[i]->posIntoArray=i;`. -/
def shiftLeftStep (s : State) (i : Nat) : Option State :=
  (slot s (i + 1)).bind fun p =>
  (writeSlot s i p).bind fun s1 =>
  (addrAt s1 i).bind fun a =>
  writePos s1 a i

/-- Loop `for(int i=posIntoArray;i<target;i++)` (`thyristor.cpp`, lines 149-152).
First argument: `target - i`; second: `i`. -/
def shiftLeft : Nat → Nat → State → Option State
  | 0, _, s => some s
  | k + 1, i, s => (shiftLeftStep s i).bind fun s1 => shiftLeft k (i + 1) s1

/-- Body of the shift loop of the decreasing branch (`thyristor.cpp`, lines 180-181):
`thyristors[i]=thyristors[i-1]; thyristors[i]->posIntoArray=i;`.
The loop only runs with `i > target >= 0`; `i = 0` would read `thyristors[-1]`. -/
def shiftRightStep (s : State) (i : Nat) : Option State :=
  if i = 0 then none else
  (slot s (i - 1)).bind fun p =>
  (writeSlot s i p).bind fun s1 =>
  (addrAt s1 i).bind fun a =>
  writePos s1 a i

/-- Loop `for(int i=posIntoArray;i>target;i--)` (`thyristor.cpp`, lines 179-182).
First argument: `i - target`; second: `i`. -/
def shiftRight : Nat → Nat → State → Option State
  | 0, _, s => some s
  | k + 1, i, s => (shiftRightStep s i).bind fun s1 => shiftRight k (i - 1) s1

/-- Statements `thyristors[target]=this; this->posIntoArray=target;`
(`thyristor.cpp`, lines 153-154 and 183-184). -/
def place (s : State) (target : Nat) (this : Nat) : Option State :=
  (writeSlot s target (some this)).bind fun s1 => writePos s1 this target

/-- Increasing branch of `setDelay`, `if(newDelay>delay){...}`
(`thyristor.cpp`, lines 121-155). -/
def moveUp (s : State) (this : Nat) (me : Thyristor) (newDelay : Nat) : Option State :=
  (scanUp s newDelay (s.nThyristors - (me.posIntoArray + 1)) (me.posIntoArray + 1)).bind fun i =>
    if me.posIntoArray + 1 = i then some s
    else
      let target := if i = s.nThyristors then s.nThyristors - 1 else i - 1
      (shiftLeft (target - me.posIntoArray) me.posIntoArray s).bind fun s1 =>
        place s1 target this

/-- Decreasing branch of `setDelay`, `else if(newDelay<delay){...}`
(`thyristor.cpp`, lines 156-185). -/
def moveDown (s : State) (this : Nat) (me : Thyristor) (newDelay : Nat) : Option State :=
  (scanDown s newDelay me.posIntoArray).bind fun r =>
    if (me.posIntoArray : Int) - 1 = r.1 then some s
    else
      let target : Nat := if !r.2 then 0 else (r.1 + 1).toNat
      (shiftRight (me.posIntoArray - target) me.posIntoArray s).bind fun s1 =>
        place s1 target this

/-- Method `void Thyristor::setDelay(uint16_t newDelay)` called on the object at
address `this` (`thyristor.cpp`, lines 107-200). -/
def setDelay (s : State) (this : Nat) (newDelay : Nat) : Option State :=
  (serialDump s s.nThyristors 0).bind fun _ =>
  let s0 := { s with updatingStruct := true }
  (s0.objs[this]?).bind fun me =>
  (if newDelay > me.delay then moveUp s0 this me newDelay
   else if newDelay < me.delay then moveDown s0 this me newDelay
   else some s0).bind fun s1 =>
  (s1.objs[this]?).bind fun me1 =>
  let s2 := { s1 with
    objs := s1.objs.set this { me1 with delay := newDelay }
    newDelayValues := true
    updatingStruct := false }
  (serialDump s2 s2.nThyristors 0).bind fun _ => some s2

/-- Method `uint16_t getDelay()` (`thyristor.h`, lines 58-60). -/
def getDelay (s : State) (this : Nat) : Option Nat :=
  (s.objs[this]?).map fun o => o.delay

/-- Method `void turnOff()` (`thyristor.h`, lines 65-67): `setDelay(0)`. -/
def turnOff (s : State) (this : Nat) : Option State :=
  setDelay s this 0

/-- Static method `getThyristorNumber()` (`thyristor.h`, lines 80-82). -/
def getThyristorNumber (s : State) : Nat := s.nThyristors

/-- Exchange of `thyristors[i]` and `thyristors[j]` through `temp`
(`thyristor.cpp`, lines 222-224). -/
def swapSlots (s : State) (i j : Nat) : Option State :=
  (slot s i).bind fun temp =>
  (slot s j).bind fun pj =>
  (writeSlot s i pj).bind fun s1 =>
  writeSlot s1 j temp

/-- Inner loop `for(int j=i+1;j<nThyristors-1;j++)` of the constructor
(`thyristor.cpp`, lines 220-226).  First argument: `nThyristors-1-j`. -/
def sortInner (i : Nat) : Nat → Nat → State → Option State
  | 0, _, s => some s
  | k + 1, j, s =>
    (deref s i).bind fun a =>
    (deref s j).bind fun b =>
    (if a.delay > b.delay then swapSlots s i j else some s).bind fun s1 =>
    sortInner i k (j + 1) s1

/-- Outer loop `for(int i=0;i<nThyristors;i++)` of the constructor
(`thyristor.cpp`, lines 219-227).  First argument: `nThyristors-i`. -/
def sortOuter : Nat → Nat → State → Option State
  | 0, _, s => some s
  | k + 1, i, s =>
    (sortInner i (s.nThyristors - 1 - (i + 1)) (i + 1) s).bind fun s1 =>
    sortOuter k (i + 1) s1

/-- Loop `for(int i=0;i<nThyristors;i++) thyristors[i]->posIntoArray=i;`
(`thyristor.cpp`, lines 229-231).  First argument: `nThyristors-i`. -/
def renumber : Nat → Nat → State → Option State
  | 0, _, s => some s
  | k + 1, i, s =>
    (addrAt s i).bind fun a =>
    (writePos s a i).bind fun s1 =>
    renumber k (i + 1) s1

/-- Constructor `Thyristor::Thyristor(int pin)` (`thyristor.cpp`, lines 207-243).
The new object is allocated at the fresh address `s.objs.length`.
`posIntoArray` has no initialiser: `junk` is the value the field holds when the
constructor does not assign it.  The pin is logged as the `uint8_t` that
`pinMode` receives.  The destructor does not release the object in this model:
its fields stay readable. -/
def ctor (s : State) (pin : Int) (junk : Nat) : Option State :=
  let this := s.objs.length
  let me : Thyristor := { pin := (pin % 256).toNat, posIntoArray := junk % 256, delay := 10000 }
  let s0 := { s with objs := s.objs ++ [me] }
  if s0.nThyristors < N - 1 then
    let s1 := { s0 with out := s0.out ++ [Event.pinMode (pin % 256).toNat], updatingStruct := true }
    (writePos s1 this s1.nThyristors).bind fun s2 =>
    let s3 := { s2 with nThyristors := (s2.nThyristors + 1) % 256 }
    (s3.objs[this]?).bind fun me3 =>
    (writeSlot s3 me3.posIntoArray (some this)).bind fun s4 =>
    (sortOuter s4.nThyristors 0 s4).bind fun s5 =>
    (renumber s5.nThyristors 0 s5).bind fun s6 =>
    some { s6 with newDelayValues := true, updatingStruct := false }
  else
    some s0

/-- Destructor `Thyristor::~Thyristor()` called on the object at address `this`
(`thyristor.cpp`, lines 245-252).  `nThyristors` is a `uint8_t`, so the
decrement wraps around at zero. -/
def dtor (s : State) (this : Nat) : Option State :=
  let s1 := { s with updatingStruct := true }
  let s2 := { s1 with nThyristors := (s1.nThyristors + 255) % 256 }
  some { s2 with updatingStruct := false }

end Thyristor

open Thyristor

/-- Loop `for(int i=0;i<nThyristors;i++) digitalWrite(pinDelay[i].pin,LOW);`
(`thyristor.cpp`, lines 54-56).  First argument: `nThyristors-i`. -/
def lowLoop : Nat → Nat → State → Option State
  | 0, _, s => some s
  | k + 1, i, s =>
    (s.pinDelay[i]?).bind fun e =>
    lowLoop k (i + 1) { s with out := s.out ++ [Event.digitalWrite e.pin Level.LOW] }

/-- Loop copying the registry into `pinDelay` (`thyristor.cpp`, lines 62-65).
First argument: `nThyristors-i`. -/
def copyLoop : Nat → Nat → State → Option State
  | 0, _, s => some s
  | k + 1, i, s =>
    (deref s i).bind fun t =>
    if i < s.pinDelay.length then
      copyLoop k (i + 1) { s with pinDelay := s.pinDelay.set i ⟨t.pin, t.delay⟩ }
    else none

/-- Loop `for(int thyristorManaged=0;pinDelay[thyristorManaged].delay<30;thyristorManaged++)`
(`thyristor.cpp`, lines 77-80), run over the entries of `pinDelay` from the
current index on.  Its counter is a local variable of the loop; the static
`thyristorManaged` is not touched.  Reading past the end of the array is
undefined. -/
def immediateLoop : List PinDelay → State → Option State
  | [], _ => none
  | e :: rest, s =>
    if e.delay < 30 then
      immediateLoop rest { s with out := s.out ++ [Event.digitalWrite e.pin Level.HIGH] }
    else some s

/-- Block `if(newDelayValues && !updatingStruct){...}` of `zero_cross_int`
(`thyristor.cpp`, lines 58-72). -/
def publish (s : State) : Option State :=
  if s.newDelayValues && !s.updatingStruct then
    copyLoop s.nThyristors 0 { s with newDelayValues := false }
  else some s

/-- Final block of `zero_cross_int` (`thyristor.cpp`, lines 91-96): arm the
timer or deregister the callback. -/
def armOrDisarm (s : State) : Option State :=
  if s.thyristorManaged < s.nThyristors then
    (s.pinDelay[s.thyristorManaged]?).bind fun e =>
      if e.delay < 9950 then
        some { s with out := s.out ++
          [Event.hw_timer_set_func (some Callback.activateThyristors),
           Event.hw_timer_arm e.delay] }
      else some { s with out := s.out ++ [Event.hw_timer_set_func none] }
  else some { s with out := s.out ++ [Event.hw_timer_set_func none] }

/-- Interrupt routine `void zero_cross_int()` (`thyristor.cpp`, lines 50-97). -/
def zero_cross_int (s : State) : Option State :=
  (lowLoop s.nThyristors 0 s).bind fun s1 =>
  (publish s1).bind fun s2 =>
  let s3 := { s2 with thyristorManaged := 0 }
  (immediateLoop s3.pinDelay s3).bind fun s4 =>
  armOrDisarm s4

namespace Thyristor

/-- Slot `j` of the registry holds the address of an object whose
`posIntoArray` is `j`. -/
def Linked (s : State) (j : Nat) : Prop :=
  ∃ a o, s.thyristors[j]? = some (some a) ∧ s.objs[a]? = some o ∧ o.posIntoArray = j

/-- Index, before the move, of the load found at index `j` once the load at
index `p` has been moved to index `t`. -/
def src (p t j : Nat) : Nat :=
  if j = t then p
  else if p ≤ j ∧ j < t then j + 1
  else if t < j ∧ j ≤ p then j - 1
  else j

/-- Index, after the move, of the load found at index `i` before the load at
index `p` is moved to index `t`. -/
def dst (p t i : Nat) : Nat :=
  if i = p then t
  else if p < i ∧ i ≤ t then i - 1
  else if t ≤ i ∧ i < p then i + 1
  else i

/-- Raw effect of a move on the registry array and on the heap. -/
def RawMoved (s s1 : State) (h : Nat) (me : Thyristor) (p t : Nat) : Prop :=
  s1 = { s with thyristors := s1.thyristors, objs := s1.objs } ∧
  (∀ j, s1.thyristors[j]? = s.thyristors[src p t j]?) ∧
  (∀ a, s1.objs[a]? =
    if a = h then some { me with posIntoArray := t }
    else (s.objs[a]?).map fun (o : Thyristor) =>
      if s.thyristors[o.posIntoArray]? = some (some a)
      then { o with posIntoArray := dst p t o.posIntoArray } else o)

/-- Every registered load records its own index: `thyristors[i]->posIntoArray == i`
for all `i < nThyristors`. -/
def Positioned (s : State) : Prop :=
  ∀ i, i < s.nThyristors → (deref s i).map (fun o => o.posIntoArray) = some i

/-- The registered loads are ascending by delay:
`thyristors[i]->delay <= thyristors[i+1]->delay`. -/
def Ascending (s : State) : Prop :=
  ∀ i, i < s.nThyristors - 1 →
    ∀ a ∈ deref s i, ∀ b ∈ deref s (i + 1), a.delay ≤ b.delay

/-- Registry invariant: the array has `N` slots, its first `nThyristors` entries
point to objects that record their own index, and they are ascending by delay. -/
def Valid (s : State) : Prop :=
  s.thyristors.length = N ∧ Positioned s ∧ Ascending s

/-- The object at address `h` is a registered load: its `posIntoArray` is below
`nThyristors` and that slot of the registry points back to it. -/
def Registered (s : State) (h : Nat) : Prop :=
  ∃ o ∈ s.objs[h]?, o.posIntoArray < s.nThyristors ∧
    s.thyristors[o.posIntoArray]? = some (some h)

instance (s : State) : Decidable (Positioned s) := by
  unfold Positioned; infer_instance

instance (s : State) : Decidable (Ascending s) := by
  unfold Ascending; infer_instance

instance (s : State) : Decidable (Valid s) := by
  unfold Valid; infer_instance

instance (s : State) (h : Nat) : Decidable (Registered s h) := by
  unfold Registered; infer_instance

/-- Effect of a completed `setDelay` on the first `nThyristors` entries: the
entry at new index `j` is the old entry at `src p t j`, with its position
rewritten and, for the moved load, its delay replaced. -/
def Moved (s s' : State) (p t d : Nat) : Prop :=
  s' = { s with thyristors := s'.thyristors, objs := s'.objs,
                newDelayValues := true, updatingStruct := false } ∧
  s'.thyristors.length = s.thyristors.length ∧
  (∀ j, j < s.nThyristors → addrAt s' j = addrAt s (src p t j)) ∧
  (∀ j, j < s.nThyristors → deref s' j = (deref s (src p t j)).map fun (o : Thyristor) =>
    { o with posIntoArray := j, delay := if j = t then d else o.delay })

/-- After the move, the loads before index `t` have a delay at most `d` and
the loads after it a delay at least `d`. -/
def Fits (s : State) (p t d : Nat) : Prop :=
  ∀ j o, j < s.nThyristors → deref s (src p t j) = some o →
    (j < t → o.delay ≤ d) ∧ (t < j → d ≤ o.delay)


/-- Delay of the load in slot `i` of the registry. -/
def delayAt (s : State) (i : Nat) : Option Nat := (deref s i).map fun o => o.delay

/-- Address, pin and delay of the load in slot `i` of the registry. -/
def entry (s : State) (i : Nat) : Option (Nat × Nat × Nat) :=
  (addrAt s i).bind fun a => (s.objs[a]?).map fun o => (a, o.pin, o.delay)

/-- The first `nThyristors` entries of the registry, in array order. -/
def loads (s : State) : List (Option (Nat × Nat × Nat)) :=
  (List.range s.nThyristors).map (entry s)

/-- The registry with the load at address `h` taken out. -/
def others (s : State) (h : Nat) : List (Option (Nat × Nat × Nat)) :=
  (loads s).filter fun e => decide (e.map (fun x => x.1) ≠ some h)

end Thyristor

/-- Calls a client can make, plus the zero-cross interrupt. `create pin junk` is
the constructor, `remove h` the destructor of the object at address `h`. -/
inductive Op where
  | create (pin : Int) (junk : Nat)
  | setDelay (h : Nat) (newDelay : Nat)
  | turnOff (h : Nat)
  | remove (h : Nat)
  | zeroCross
deriving DecidableEq

/-- One call applied to a state. -/
def step (s : State) : Op → Option State
  | Op.create pin junk => Thyristor.ctor s pin junk
  | Op.setDelay h d => Thyristor.setDelay s h d
  | Op.turnOff h => Thyristor.turnOff s h
  | Op.remove h => Thyristor.dtor s h
  | Op.zeroCross => zero_cross_int s

/-- A sequence of calls applied in order. -/
def run : List Op → State → Option State
  | [], s => some s
  | op :: rest, s => (step s op).bind (run rest)

namespace Thyristor

/-- Value of `posIntoArray` of the object at address `h`. -/
def posOf (s : State) (h : Nat) : Option Nat := (s.objs[h]?).map fun o => o.posIntoArray

end Thyristor

/-- Three registered loads A, B, C (addresses 0, 1, 2) on pins 4, 5, 6 with
delays 100, 500 and 900, as left by the first zero-cross interrupt after they
were set up: the schedule is published, dirty and busy are clear. -/
def demo3 : State :=
  { objs := [⟨4, 0, 100⟩, ⟨5, 1, 500⟩, ⟨6, 2, 900⟩]
    thyristors := [some 0, some 1, some 2, none, none, none, none, none]
    nThyristors := 3
    newDelayValues := false
    updatingStruct := false
    pinDelay := [⟨4, 100⟩, ⟨5, 500⟩, ⟨6, 900⟩, ⟨0, 0⟩, ⟨0, 0⟩, ⟨0, 0⟩, ⟨0, 0⟩, ⟨0, 0⟩]
    thyristorManaged := 0
    out := [Event.pinMode 4, Event.pinMode 5, Event.pinMode 6,
            Event.digitalWrite 0 Level.LOW, Event.digitalWrite 0 Level.LOW,
            Event.digitalWrite 0 Level.LOW,
            Event.hw_timer_set_func (some Callback.activateThyristors),
            Event.hw_timer_arm 100] }

/-- Calls that lead from the initial state to `demo3`. -/
def demo3Calls : List Op :=
  [Op.create 4 0, Op.create 5 0, Op.create 6 0,
   Op.setDelay 2 900, Op.setDelay 1 500, Op.setDelay 0 100, Op.zeroCross]

/-- State `demo3` with the dirty flag (`newDelayValues`) set. -/
def demo3Dirty : State := { demo3 with newDelayValues := true }

/-- Modelled from the spec: `hw_timer.h` is not among the sources.  The timer
driver's `arm(microseconds)` takes an unsigned 32-bit count, so the `int` value
of a difference of two delays is converted modulo 2^32 when it is passed. -/
def toU32 (x : Int) : Nat := (x % 4294967296).toNat

/-- Loop `for(; thyristorManaged<nThyristors-1 &&
pinDelay[thyristorManaged+1].delay-pinDelay[thyristorManaged].delay<150; thyristorManaged++)`
of `activateThyristors` (`thyristor.cpp`, lines 30-35).  The comparison and the
subtraction are `int` arithmetic.  First argument:
`nThyristors-1-thyristorManaged`. -/
def coalesceLoop : Nat → State → Option State
  | 0, s => some s
  | k + 1, s =>
    (s.pinDelay[s.thyristorManaged + 1]?).bind fun a =>
    (s.pinDelay[s.thyristorManaged]?).bind fun b =>
    if (a.delay : Int) - (b.delay : Int) < 150 then
      coalesceLoop k { s with
        out := s.out ++ [Event.digitalWrite b.pin Level.HIGH]
        thyristorManaged := (s.thyristorManaged + 1) % 256 }
    else some s

/-- Timer routine `void activateThyristors()` (`thyristor.cpp`, lines 23-43).
`thyristorManaged` is a `uint8_t`; `pinDelay[thyristorManaged-1]` with
`thyristorManaged == 0` would read `pinDelay[-1]`. -/
def activateThyristors (s : State) : Option State :=
  (coalesceLoop (s.nThyristors - 1 - s.thyristorManaged) s).bind fun s1 =>
  (s1.pinDelay[s1.thyristorManaged]?).bind fun e =>
  let s2 := { s1 with
    out := s1.out ++ [Event.digitalWrite e.pin Level.HIGH]
    thyristorManaged := (s1.thyristorManaged + 1) % 256 }
  if s2.thyristorManaged < s2.nThyristors then
    (s2.pinDelay[s2.thyristorManaged]?).bind fun a =>
    if s2.thyristorManaged = 0 then none else
    (s2.pinDelay[s2.thyristorManaged - 1]?).bind fun b =>
    some { s2 with out := s2.out ++ [Event.hw_timer_arm (toU32 ((a.delay : Int) - (b.delay : Int)))] }
  else some s2

/-- Step 2 of the Timer Cascade Handler as the specification words it: while
Cursor < count and `schedule[Cursor].delay − schedule[Cursor−1].delay` is below
the coalescing threshold 150, drive that pin high and advance Cursor.
First argument: `count - Cursor`. -/
def specCoalesce : Nat → State → Option State
  | 0, s => some s
  | k + 1, s =>
    (s.pinDelay[s.thyristorManaged]?).bind fun a =>
    (s.pinDelay[s.thyristorManaged - 1]?).bind fun b =>
    if (a.delay : Int) - (b.delay : Int) < 150 then
      specCoalesce k { s with
        out := s.out ++ [Event.digitalWrite a.pin Level.HIGH]
        thyristorManaged := s.thyristorManaged + 1 }
    else some s

/-- Timer Cascade Handler as the specification words it (section 4.4):
drive `schedule[Cursor].pin` high and advance Cursor; coalesce; then re-arm the
timer for `schedule[Cursor].delay − schedule[Cursor−1].delay` if Cursor < count. -/
def specCascade (s : State) : Option State :=
  (s.pinDelay[s.thyristorManaged]?).bind fun e =>
  let s1 := { s with
    out := s.out ++ [Event.digitalWrite e.pin Level.HIGH]
    thyristorManaged := s.thyristorManaged + 1 }
  (specCoalesce (s1.nThyristors - s1.thyristorManaged) s1).bind fun s2 =>
  if s2.thyristorManaged < s2.nThyristors then
    (s2.pinDelay[s2.thyristorManaged]?).bind fun a =>
    (s2.pinDelay[s2.thyristorManaged - 1]?).bind fun b =>
    some { s2 with out := s2.out ++ [Event.hw_timer_arm ((a.delay : Int) - (b.delay : Int)).toNat] }
  else some s2

/-- Delay of entry `i` of a schedule (`0` outside the list). -/
def delayOf (pd : List PinDelay) (i : Nat) : Nat := ((pd[i]?).map fun e => e.delay).getD 0

/-- Events `digitalWrite(pin, HIGH)` for the entries `c, ..., e` of a schedule. -/
def fires (pd : List PinDelay) (c e : Nat) : List Event :=
  ((pd.drop c).take (e + 1 - c)).map fun x => Event.digitalWrite x.pin Level.HIGH

/-- Callback installed by the last `hw_timer_set_func` of a log. -/
def installed (out : List Event) : Option Callback :=
  out.foldl (fun cb ev => match ev with
    | Event.hw_timer_set_func f => f
    | _ => cb) none

/-- Interval of the armed, not yet expired, one-shot timer: the log ends with
a call of `hw_timer_arm`. -/
def pendingArm (out : List Event) : Option Nat :=
  match out.getLast? with
  | some (Event.hw_timer_arm v) => some v
  | _ => none

/-- A timer expiry: time since the zero-cross edge, Cursor when the timer
routine starts, Cursor when it returns. -/
structure Expiry where
  /-- Time elapsed since the zero-cross edge. -/
  time : Nat
  /-- Value of `thyristorManaged` on entry of the timer routine. -/
  cursor : Nat
  /-- Value of `thyristorManaged` when the timer routine returns. -/
  next : Nat
deriving DecidableEq

/-- Timer expiries that follow a zero-cross edge, at most as many as the first
argument says.  While the timer is armed and `activateThyristors` is the
installed callback, the timer expires its armed interval after it was armed
and the callback runs.  Returns the expiries and the final state. -/
def timerSteps : Nat → State → Nat → Option (List Expiry × State)
  | 0, s, _ => some ([], s)
  | k + 1, s, t =>
    match pendingArm s.out, installed s.out with
    | some v, some Callback.activateThyristors =>
      (activateThyristors s).bind fun s' =>
        (timerSteps k s' (t + v)).map fun r =>
          (⟨t + v, s.thyristorManaged, s'.thyristorManaged⟩ :: r.1, r.2)
    | _, _ => some ([], s)

/-- One half-cycle: the zero-cross interrupt at time 0 followed by at most `k`
timer expiries. -/
def halfCycle (k : Nat) (s : State) : Option (List Expiry × State) :=
  (zero_cross_int s).bind fun s1 => timerSteps k s1 0

/-- Coalescing advance of a timer step: delay of the last entry it fired minus
delay of the first. -/
def advance (pd : List PinDelay) (r : Expiry) : Nat :=
  delayOf pd (r.next - 1) - delayOf pd r.cursor

/-- Difference `pinDelay[j+1].delay - pinDelay[j].delay` as the `int` the
timer routine computes. -/
def gapI (pd : List PinDelay) (j : Nat) : Int := (delayOf pd (j + 1) : Int) - (delayOf pd j : Int)

/-- Events `digitalWrite(pin, HIGH)` for `m` entries of a schedule from index `c` on. -/
def firesN (pd : List PinDelay) (c m : Nat) : List Event :=
  ((pd.drop c).take m).map fun x => Event.digitalWrite x.pin Level.HIGH


namespace Thyristor

/-- Number of registered loads other than the one at address `h` whose delay
satisfies `P`. -/
def countOthers (s : State) (h : Nat) (P : Nat → Bool) : Nat :=
  (others s h).countP fun e => (e.map fun x => P x.2.2).getD false

end Thyristor


namespace Thyristor

/-- The first `nThyristors` pointers of the registry array. -/
def registry (s : State) : List (Option Nat) := s.thyristors.take s.nThyristors

/-- Delay of the load in slot `k` of the registry (`0` if the slot cannot be read). -/
def delayD (s : State) (k : Nat) : Nat := ((deref s k).map fun o => o.delay).getD 0

/-- An arrangement of registered loads, ascending or not: the array has `N`
slots, its first `nThyristors` entries point to pairwise different objects, and
their delays lie in the delay domain `[0, 10000]`. -/
def Loaded (s : State) : Prop :=
  s.thyristors.length = N ∧ (registry s).Nodup ∧
  ∀ i, i < s.nThyristors → ∃ o ∈ deref s i, o.delay ≤ 10000

instance (s : State) : Decidable (Loaded s) := by
  unfold Loaded; infer_instance

/-- Postcondition of the inner loop of the sort, run at `i` from `j` up to `m`. -/
def InnerPost (s s' : State) (i j m : Nat) : Prop :=
  s' = { s with thyristors := s'.thyristors } ∧
  s'.thyristors.Perm s.thyristors ∧
  (∀ k, k ≠ i → ¬ (j ≤ k ∧ k < m) → s'.thyristors[k]? = s.thyristors[k]?) ∧
  (∀ k, (k = i ∨ (j ≤ k ∧ k < m)) →
    ∃ k', (k' = i ∨ (j ≤ k' ∧ k' < m)) ∧ s'.thyristors[k]? = s.thyristors[k']?) ∧
  (∀ k, j ≤ k → k < m → delayD s' i ≤ delayD s' k) ∧
  delayD s' i ≤ delayD s i


/-- Postcondition of the whole sort over the slots below `m`. -/
def OuterPost (s s' : State) (m : Nat) : Prop :=
  s' = { s with thyristors := s'.thyristors } ∧
  s'.thyristors.Perm s.thyristors ∧
  (∀ k, m ≤ k → s'.thyristors[k]? = s.thyristors[k]?) ∧
  (∀ k, k < m → ∃ k', k' < m ∧ s'.thyristors[k]? = s.thyristors[k']?) ∧
  (∀ a b, a < b → b < m → delayD s' a ≤ delayD s' b)

end Thyristor


/-- Every delay of a schedule fits the `uint16_t` field of `struct PinDelay`. -/
def Word16 (pd : List PinDelay) : Prop := ∀ x ∈ pd, x.delay < 65536

/-- The first `n` entries of a schedule are ascending by delay. -/
def Ascends (pd : List PinDelay) (n : Nat) : Prop :=
  ∀ j, j < n - 1 → delayOf pd j ≤ delayOf pd (j + 1)

instance (pd : List PinDelay) : Decidable (Word16 pd) := by
  unfold Word16; infer_instance

instance (pd : List PinDelay) (n : Nat) : Decidable (Ascends pd n) := by
  unfold Ascends; infer_instance



/-- Two registered loads on pins 4 and 5 with delays 1000 and 1100, as left by
the zero-cross interrupt that published them: Cursor 0, timer armed with 1000. -/
def demoPair : State :=
  { objs := [⟨4, 0, 1000⟩, ⟨5, 1, 1100⟩]
    thyristors := [some 0, some 1, none, none, none, none, none, none]
    nThyristors := 2
    newDelayValues := false
    updatingStruct := false
    pinDelay := [⟨4, 1000⟩, ⟨5, 1100⟩, ⟨0, 0⟩, ⟨0, 0⟩, ⟨0, 0⟩, ⟨0, 0⟩, ⟨0, 0⟩, ⟨0, 0⟩]
    thyristorManaged := 0
    out := [Event.pinMode 4, Event.pinMode 5,
            Event.digitalWrite 0 Level.LOW, Event.digitalWrite 0 Level.LOW,
            Event.hw_timer_set_func (some Callback.activateThyristors),
            Event.hw_timer_arm 1000] }

/-- Calls that lead from the initial state to `demoPair`. -/
def demoPairCalls : List Op :=
  [Op.create 4 0, Op.create 5 0, Op.setDelay 1 1100, Op.setDelay 0 1000, Op.zeroCross]

/-- Three registered loads on pins 4, 5, 6 with delays 1000, 1100 and 2000, as
left by the zero-cross interrupt that published them. -/
def demoDrift : State :=
  { objs := [⟨4, 0, 1000⟩, ⟨5, 1, 1100⟩, ⟨6, 2, 2000⟩]
    thyristors := [some 0, some 1, some 2, none, none, none, none, none]
    nThyristors := 3
    newDelayValues := false
    updatingStruct := false
    pinDelay := [⟨4, 1000⟩, ⟨5, 1100⟩, ⟨6, 2000⟩, ⟨0, 0⟩, ⟨0, 0⟩, ⟨0, 0⟩, ⟨0, 0⟩, ⟨0, 0⟩]
    thyristorManaged := 0
    out := [Event.pinMode 4, Event.pinMode 5, Event.pinMode 6,
            Event.digitalWrite 0 Level.LOW, Event.digitalWrite 0 Level.LOW,
            Event.digitalWrite 0 Level.LOW,
            Event.hw_timer_set_func (some Callback.activateThyristors),
            Event.hw_timer_arm 1000] }

/-- Calls that lead from the initial state to `demoDrift`. -/
def demoDriftCalls : List Op :=
  [Op.create 4 0, Op.create 5 0, Op.create 6 0,
   Op.setDelay 2 2000, Op.setDelay 1 1100, Op.setDelay 0 1000, Op.zeroCross]

/-- A single registered load on pin 4 with delay 9980, as left by the
zero-cross interrupt that published it. -/
def demoSafe : State :=
  { objs := [⟨4, 0, 9980⟩]
    thyristors := [some 0, none, none, none, none, none, none, none]
    nThyristors := 1
    newDelayValues := false
    updatingStruct := false
    pinDelay := [⟨4, 9980⟩, ⟨0, 0⟩, ⟨0, 0⟩, ⟨0, 0⟩, ⟨0, 0⟩, ⟨0, 0⟩, ⟨0, 0⟩, ⟨0, 0⟩]
    thyristorManaged := 0
    out := [Event.pinMode 4, Event.digitalWrite 0 Level.LOW, Event.hw_timer_set_func none] }

/-- Calls that lead from the initial state to `demoSafe`. -/
def demoSafeCalls : List Op :=
  [Op.create 4 0, Op.setDelay 0 9980, Op.zeroCross]

/-- Eight constructor calls, with pins 0 to 7. -/
def eightCreates : List Op :=
  [Op.create 0 0, Op.create 1 0, Op.create 2 0, Op.create 3 0,
   Op.create 4 0, Op.create 5 0, Op.create 6 0, Op.create 7 0]


/-- Effect of one collaborator call on the level of the pin `pin`. -/
def pinStep (pin : Nat) (lv : Option Level) : Event → Option Level
  | Event.digitalWrite p l => if p = pin then some l else lv
  | _ => lv

/-- Level the pin `pin` was last driven to according to the log; `none` when
the log holds no `digitalWrite` for it. -/
def pinLevel (out : List Event) (pin : Nat) : Option Level :=
  out.foldl (pinStep pin) none

/-- Loads A (pin 4) and B (pin 5) with delays 100 and 200 run one half-cycle,
in which both pins are driven high.  Then `A.setDelay(9980)`, the destructor of
A, and `B.setDelay(9990)`: the state at the next zero-cross edge. -/
def stuckHigh : Option State :=
  (run [Op.create 4 0, Op.create 5 0, Op.setDelay 0 100, Op.setDelay 1 200] init).bind fun s =>
  (halfCycle 3 s).bind fun r =>
  run [Op.setDelay 0 9980, Op.remove 0, Op.setDelay 1 9990] r.2

/-! ## Loop lemmas and the effect of `setDelay` -/

namespace Thyristor

theorem lt_length_of_getElem? {α : Type} {l : List α} {i : Nat} {x : α}
    (h : l[i]? = some x) : i < l.length := by
  rcases List.getElem?_eq_some.mp h with ⟨hi, _⟩
  exact hi

theorem shiftLeftStep_eq (s : State) (p a : Nat) (o : Thyristor)
    (h1 : s.thyristors[p + 1]? = some (some a)) (h2 : s.objs[a]? = some o) :
    shiftLeftStep s p = some { s with
      thyristors := s.thyristors.set p (some a)
      objs := s.objs.set a { o with posIntoArray := p % 256 } } := by
  have hlen : p < s.thyristors.length := by
    have := lt_length_of_getElem? h1
    omega
  simp [shiftLeftStep, slot, writeSlot, addrAt, writePos, h1, h2, hlen]

theorem shiftLeft_spec : ∀ (f p : Nat) (s : State), p + f < 256 →
    (∀ j, p < j → j ≤ p + f → Linked s j) →
    ∃ s', shiftLeft f p s = some s' ∧
      s' = { s with thyristors := s'.thyristors, objs := s'.objs } ∧
      (∀ j, s'.thyristors[j]? =
        if p ≤ j ∧ j < p + f then s.thyristors[j + 1]? else s.thyristors[j]?) ∧
      (∀ a, s'.objs[a]? = (s.objs[a]?).map fun (o : Thyristor) =>
        if p < o.posIntoArray ∧ o.posIntoArray ≤ p + f ∧
            s.thyristors[o.posIntoArray]? = some (some a)
        then { o with posIntoArray := o.posIntoArray - 1 } else o) := by
  intro f
  induction f with
  | zero =>
    intro p s _ _
    refine ⟨s, rfl, rfl, ?_, ?_⟩
    · intro j
      have : ¬ (p ≤ j ∧ j < p + 0) := by omega
      rw [if_neg this]
    · intro a
      cases h : s.objs[a]? with
      | none => rfl
      | some o =>
        have : ¬ (p < o.posIntoArray ∧ o.posIntoArray ≤ p + 0 ∧
            s.thyristors[o.posIntoArray]? = some (some a)) := by
          rintro ⟨h1, h2, _⟩; omega
        simp only [Option.map_some', if_neg this]
  | succ f ih =>
    intro p s hb hl
    obtain ⟨a1, o1, ha1, ho1, hp1⟩ := hl (p + 1) (by omega) (by omega)
    have hplen : p < s.thyristors.length := by
      have := lt_length_of_getElem? ha1
      omega
    have ha1len : a1 < s.objs.length := lt_length_of_getElem? ho1
    have hstep := shiftLeftStep_eq s p a1 o1 ha1 ho1
    have hpm : p % 256 = p := Nat.mod_eq_of_lt (by omega)
    rw [hpm] at hstep
    set s2 : State := { s with
      thyristors := s.thyristors.set p (some a1)
      objs := s.objs.set a1 { o1 with posIntoArray := p } } with hs2
    have hl2 : ∀ j, p + 1 < j → j ≤ p + 1 + f → Linked s2 j := by
      intro j hj1 hj2
      obtain ⟨a, o, ha, ho, hp⟩ := hl j (by omega) (by omega)
      have hne : a1 ≠ a := by
        intro e
        subst e
        rw [ho1] at ho
        cases ho
        omega
      refine ⟨a, o, ?_, ?_, hp⟩
      · simp only [hs2]
        rw [List.getElem?_set_ne (by omega)]
        exact ha
      · simp only [hs2]
        rw [List.getElem?_set_ne hne]
        exact ho
    obtain ⟨s', hrun, hframe, hthy, hobj⟩ := ih (p + 1) s2 (by omega) hl2
    refine ⟨s', ?_, ?_, ?_, ?_⟩
    · simp only [shiftLeft, hstep, Option.some_bind]
      exact hrun
    · rw [hframe]
    · intro j
      rw [hthy j]
      by_cases hj : j = p
      · subst hj
        have c1 : ¬ (j + 1 ≤ j ∧ j < j + 1 + f) := by omega
        have c2 : (j ≤ j ∧ j < j + (f + 1)) := by omega
        simp only [c1, c2, if_false, if_true, and_self, hs2]
        rw [List.getElem?_set_self hplen, ha1]
      · by_cases hr : p + 1 ≤ j ∧ j < p + 1 + f
        · have c2 : (p ≤ j ∧ j < p + (f + 1)) := by omega
          simp only [hr, c2, if_true, and_self, hs2]
          rw [List.getElem?_set_ne (by omega)]
        · have c2 : ¬ (p ≤ j ∧ j < p + (f + 1)) := by omega
          simp only [hr, c2, if_false, hs2]
          rw [List.getElem?_set_ne (by omega)]
    · intro a
      rw [hobj a]
      by_cases hA : a = a1
      · subst hA
        have e1 : s2.objs[a]? = some { o1 with posIntoArray := p } := by
          simp only [hs2]
          rw [List.getElem?_set_self ha1len]
        rw [e1, ho1]
        simp only [Option.map_some']
        have c1 : ¬ (p + 1 < p ∧ p ≤ p + 1 + f ∧
            s2.thyristors[p]? = some (some a)) := by
          rintro ⟨h, _⟩; omega
        have c2 : (p < o1.posIntoArray ∧ o1.posIntoArray ≤ p + (f + 1) ∧
            s.thyristors[o1.posIntoArray]? = some (some a)) := by
          rw [hp1]
          exact ⟨by omega, by omega, ha1⟩
        rw [if_neg c1, if_pos c2, hp1]
        rfl
      · have e1 : s2.objs[a]? = s.objs[a]? := by
          simp only [hs2]
          rw [List.getElem?_set_ne (Ne.symm hA)]
        rw [e1]
        cases ho : s.objs[a]? with
        | none => rfl
        | some o =>
          simp only [Option.map_some']
          congr 1
          by_cases hq : o.posIntoArray = p + 1
          · have c1 : ¬ (p + 1 < o.posIntoArray ∧ o.posIntoArray ≤ p + 1 + f ∧
                s2.thyristors[o.posIntoArray]? = some (some a)) := by
              rintro ⟨h, _⟩; omega
            have c2 : ¬ (p < o.posIntoArray ∧ o.posIntoArray ≤ p + (f + 1) ∧
                s.thyristors[o.posIntoArray]? = some (some a)) := by
              rintro ⟨_, _, h⟩
              rw [hq, ha1] at h
              cases h
              exact hA rfl
            rw [if_neg c1, if_neg c2]
          · by_cases hq2 : o.posIntoArray = p
            · have c1 : ¬ (p + 1 < o.posIntoArray ∧ o.posIntoArray ≤ p + 1 + f ∧
                  s2.thyristors[o.posIntoArray]? = some (some a)) := by
                rintro ⟨h, _⟩; omega
              have c2 : ¬ (p < o.posIntoArray ∧ o.posIntoArray ≤ p + (f + 1) ∧
                  s.thyristors[o.posIntoArray]? = some (some a)) := by
                rintro ⟨h, _⟩; omega
              rw [if_neg c1, if_neg c2]
            · have e2 : s2.thyristors[o.posIntoArray]? = s.thyristors[o.posIntoArray]? := by
                simp only [hs2]
                rw [List.getElem?_set_ne (Ne.symm hq2)]
              rw [e2]
              have : (p + 1 < o.posIntoArray ∧ o.posIntoArray ≤ p + 1 + f ∧
                  s.thyristors[o.posIntoArray]? = some (some a)) ↔
                  (p < o.posIntoArray ∧ o.posIntoArray ≤ p + (f + 1) ∧
                  s.thyristors[o.posIntoArray]? = some (some a)) := by
                constructor
                · rintro ⟨h1, h2, h3⟩; exact ⟨by omega, by omega, h3⟩
                · rintro ⟨h1, h2, h3⟩; exact ⟨by omega, by omega, h3⟩
              simp only [this]


theorem shiftRightStep_eq (s : State) (p a : Nat) (o : Thyristor)
    (hlen : p + 1 < s.thyristors.length)
    (h1 : s.thyristors[p]? = some (some a)) (h2 : s.objs[a]? = some o) :
    shiftRightStep s (p + 1) = some { s with
      thyristors := s.thyristors.set (p + 1) (some a)
      objs := s.objs.set a { o with posIntoArray := (p + 1) % 256 } } := by
  simp [shiftRightStep, slot, writeSlot, addrAt, writePos, h1, h2, hlen]

theorem shiftRight_spec : ∀ (f q : Nat) (s : State), q + f < 256 →
    q + f < s.thyristors.length →
    (∀ j, q ≤ j → j < q + f → Linked s j) →
    ∃ s', shiftRight f (q + f) s = some s' ∧
      s' = { s with thyristors := s'.thyristors, objs := s'.objs } ∧
      (∀ j, s'.thyristors[j]? =
        if q < j ∧ j ≤ q + f then s.thyristors[j - 1]? else s.thyristors[j]?) ∧
      (∀ a, s'.objs[a]? = (s.objs[a]?).map fun (o : Thyristor) =>
        if q ≤ o.posIntoArray ∧ o.posIntoArray < q + f ∧
            s.thyristors[o.posIntoArray]? = some (some a)
        then { o with posIntoArray := o.posIntoArray + 1 } else o) := by
  intro f
  induction f with
  | zero =>
    intro q s _ _ _
    refine ⟨s, rfl, rfl, ?_, ?_⟩
    · intro j
      have : ¬ (q < j ∧ j ≤ q + 0) := by omega
      rw [if_neg this]
    · intro a
      cases h : s.objs[a]? with
      | none => rfl
      | some o =>
        have : ¬ (q ≤ o.posIntoArray ∧ o.posIntoArray < q + 0 ∧
            s.thyristors[o.posIntoArray]? = some (some a)) := by
          rintro ⟨h1, h2, _⟩; omega
        simp only [Option.map_some', if_neg this]
  | succ f ih =>
    intro q s hb hlen hl
    obtain ⟨a1, o1, ha1, ho1, hp1⟩ := hl (q + f) (by omega) (by omega)
    have ha1len : a1 < s.objs.length := lt_length_of_getElem? ho1
    have hstep := shiftRightStep_eq s (q + f) a1 o1 hlen ha1 ho1
    have hpm : (q + f + 1) % 256 = q + f + 1 := Nat.mod_eq_of_lt (by omega)
    rw [hpm] at hstep
    set s2 : State := { s with
      thyristors := s.thyristors.set (q + f + 1) (some a1)
      objs := s.objs.set a1 { o1 with posIntoArray := q + f + 1 } } with hs2
    have hl2 : ∀ j, q ≤ j → j < q + f → Linked s2 j := by
      intro j hj1 hj2
      obtain ⟨a, o, ha, ho, hp⟩ := hl j (by omega) (by omega)
      have hne : a1 ≠ a := by
        intro e
        subst e
        rw [ho1] at ho
        cases ho
        omega
      refine ⟨a, o, ?_, ?_, hp⟩
      · simp only [hs2]
        rw [List.getElem?_set_ne (by omega)]
        exact ha
      · simp only [hs2]
        rw [List.getElem?_set_ne hne]
        exact ho
    have hlen2 : q + f < s2.thyristors.length := by
      simp only [hs2, List.length_set]
      omega
    obtain ⟨s', hrun, hframe, hthy, hobj⟩ := ih q s2 (by omega) hlen2 hl2
    refine ⟨s', ?_, ?_, ?_, ?_⟩
    · have e : q + (f + 1) = (q + f) + 1 := by omega
      rw [e]
      simp only [shiftRight, hstep, Option.some_bind, Nat.add_sub_cancel]
      exact hrun
    · rw [hframe]
    · intro j
      rw [hthy j]
      by_cases hj : j = q + f + 1
      · subst hj
        have c1 : ¬ (q < q + f + 1 ∧ q + f + 1 ≤ q + f) := by omega
        have c2 : (q < q + f + 1 ∧ q + f + 1 ≤ q + (f + 1)) := by omega
        rw [if_neg c1, if_pos c2]
        simp only [hs2, Nat.add_sub_cancel]
        rw [List.getElem?_set_self (by omega), ha1]
      · by_cases hr : q < j ∧ j ≤ q + f
        · have c2 : (q < j ∧ j ≤ q + (f + 1)) := by omega
          rw [if_pos hr, if_pos c2]
          simp only [hs2]
          rw [List.getElem?_set_ne (by omega)]
        · have c2 : ¬ (q < j ∧ j ≤ q + (f + 1)) := by omega
          rw [if_neg hr, if_neg c2]
          simp only [hs2]
          rw [List.getElem?_set_ne (by omega)]
    · intro a
      rw [hobj a]
      by_cases hA : a = a1
      · subst hA
        have e1 : s2.objs[a]? = some { o1 with posIntoArray := q + f + 1 } := by
          simp only [hs2]
          rw [List.getElem?_set_self ha1len]
        rw [e1, ho1]
        simp only [Option.map_some']
        have c1 : ¬ (q ≤ q + f + 1 ∧ q + f + 1 < q + f ∧
            s2.thyristors[q + f + 1]? = some (some a)) := by
          rintro ⟨_, h, _⟩; omega
        have c2 : (q ≤ o1.posIntoArray ∧ o1.posIntoArray < q + (f + 1) ∧
            s.thyristors[o1.posIntoArray]? = some (some a)) := by
          rw [hp1]
          exact ⟨by omega, by omega, ha1⟩
        rw [if_neg c1, if_pos c2, hp1]
      · have e1 : s2.objs[a]? = s.objs[a]? := by
          simp only [hs2]
          rw [List.getElem?_set_ne (Ne.symm hA)]
        rw [e1]
        cases ho : s.objs[a]? with
        | none => rfl
        | some o =>
          simp only [Option.map_some']
          congr 1
          by_cases hq : o.posIntoArray = q + f
          · have c1 : ¬ (q ≤ o.posIntoArray ∧ o.posIntoArray < q + f ∧
                s2.thyristors[o.posIntoArray]? = some (some a)) := by
              rintro ⟨_, h, _⟩; omega
            have c2 : ¬ (q ≤ o.posIntoArray ∧ o.posIntoArray < q + (f + 1) ∧
                s.thyristors[o.posIntoArray]? = some (some a)) := by
              rintro ⟨_, _, h⟩
              rw [hq, ha1] at h
              cases h
              exact hA rfl
            rw [if_neg c1, if_neg c2]
          · by_cases hq2 : o.posIntoArray = q + f + 1
            · have c1 : ¬ (q ≤ o.posIntoArray ∧ o.posIntoArray < q + f ∧
                  s2.thyristors[o.posIntoArray]? = some (some a)) := by
                rintro ⟨_, h, _⟩; omega
              have c2 : ¬ (q ≤ o.posIntoArray ∧ o.posIntoArray < q + (f + 1) ∧
                  s.thyristors[o.posIntoArray]? = some (some a)) := by
                rintro ⟨_, h, _⟩; omega
              rw [if_neg c1, if_neg c2]
            · have e2 : s2.thyristors[o.posIntoArray]? = s.thyristors[o.posIntoArray]? := by
                simp only [hs2]
                rw [List.getElem?_set_ne (Ne.symm hq2)]
              rw [e2]
              have : (q ≤ o.posIntoArray ∧ o.posIntoArray < q + f ∧
                  s.thyristors[o.posIntoArray]? = some (some a)) ↔
                  (q ≤ o.posIntoArray ∧ o.posIntoArray < q + (f + 1) ∧
                  s.thyristors[o.posIntoArray]? = some (some a)) := by
                constructor
                · rintro ⟨h1, h2, h3⟩; exact ⟨by omega, by omega, h3⟩
                · rintro ⟨h1, h2, h3⟩; exact ⟨by omega, by omega, h3⟩
              simp only [this]

theorem serialDump_ok (s : State) : ∀ (k i : Nat),
    (∀ j, i ≤ j → j < i + k → ∃ o, deref s j = some o) →
    serialDump s k i = some () := by
  intro k
  induction k with
  | zero => intro i _; rfl
  | succ k ih =>
    intro i h
    obtain ⟨o, ho⟩ := h i (by omega) (by omega)
    simp only [serialDump, ho, Option.some_bind]
    exact ih (i + 1) (fun j h1 h2 => h j (by omega) (by omega))

theorem scanUp_spec (s : State) (d : Nat) : ∀ (k i : Nat),
    (∀ j, i ≤ j → j < i + k → ∃ o, deref s j = some o) →
    ∃ r, scanUp s d k i = some r ∧ i ≤ r ∧ r ≤ i + k ∧
      (∀ j o, i ≤ j → j < r → deref s j = some o → o.delay < d) ∧
      (r < i + k → ∀ o, deref s r = some o → d ≤ o.delay) := by
  intro k
  induction k with
  | zero =>
    intro i _
    exact ⟨i, rfl, by omega, by omega, fun j o h1 h2 => by omega, fun h => by omega⟩
  | succ k ih =>
    intro i h
    obtain ⟨o, ho⟩ := h i (by omega) (by omega)
    by_cases hd : d ≤ o.delay
    · refine ⟨i, ?_, by omega, by omega, fun j o h1 h2 => by omega, ?_⟩
      · simp only [scanUp, ho, Option.some_bind, if_pos hd]
      · intro _ o' ho'
        rw [ho] at ho'
        cases ho'
        exact hd
    · obtain ⟨r, hr, h1, h2, h3, h4⟩ := ih (i + 1) (fun j h1 h2 => h j (by omega) (by omega))
      refine ⟨r, ?_, by omega, by omega, ?_, ?_⟩
      · simp only [scanUp, ho, Option.some_bind, if_neg hd]
        exact hr
      · intro j o' hj1 hj2 ho'
        by_cases e : j = i
        · subst e
          rw [ho] at ho'
          cases ho'
          omega
        · exact h3 j o' (by omega) hj2 ho'
      · intro hlt
        exact h4 (by omega)

theorem scanDown_spec (s : State) (d : Nat) : ∀ (m : Nat),
    (∀ j, j < m → ∃ o, deref s j = some o) →
    ∃ (r : Int) (dn : Bool), scanDown s d m = some (r, dn) ∧ -1 ≤ r ∧ r < m ∧
      (dn = true ↔ 0 ≤ r) ∧
      (∀ (j : Nat) (o : Thyristor), r < (j : Int) → j < m → deref s j = some o → d < o.delay) ∧
      (0 ≤ r → ∀ o, deref s r.toNat = some o → o.delay ≤ d) := by
  intro m
  induction m with
  | zero =>
    intro _
    refine ⟨-1, false, rfl, by omega, by omega, by simp, fun j o h1 h2 => by omega,
      fun h => by omega⟩
  | succ m ih =>
    intro h
    obtain ⟨o, ho⟩ := h m (by omega)
    by_cases hd : d ≥ o.delay
    · refine ⟨(m : Int), true, ?_, by omega, by omega, by simp, fun j o h1 h2 => by omega, ?_⟩
      · simp only [scanDown, ho, Option.some_bind, if_pos hd]
      · intro _ o' ho'
        simp only [Int.toNat_ofNat] at ho'
        rw [ho] at ho'
        cases ho'
        exact hd
    · obtain ⟨r, dn, hr, h1, h2, h3, h4, h5⟩ := ih (fun j hj => h j (by omega))
      refine ⟨r, dn, ?_, h1, by omega, h3, ?_, h5⟩
      · simp only [scanDown, ho, Option.some_bind, if_neg hd]
        exact hr
      · intro j o' hj1 hj2 ho'
        by_cases e : j = m
        · subst e
          rw [ho] at ho'
          cases ho'
          omega
        · exact h4 j o' hj1 (by omega) ho'


theorem dst_src (p t j : Nat) : dst p t (src p t j) = j := by
  unfold dst src
  split_ifs <;> omega

theorem src_lt (p t j n : Nat) (hp : p < n) (ht : t < n) (hj : j < n) : src p t j < n := by
  unfold src
  split_ifs <;> omega

theorem src_eq_iff (p t j : Nat) : src p t j = p ↔ j = t := by
  unfold src
  split_ifs <;> omega

theorem rawMoved_self (s : State) (h : Nat) (me : Thyristor) (p : Nat)
    (hme : s.objs[h]? = some me) (hp : me.posIntoArray = p) :
    RawMoved s s h me p p := by
  refine ⟨rfl, ?_, ?_⟩
  · intro j
    have : src p p j = j := by unfold src; split_ifs <;> omega
    rw [this]
  · intro a
    by_cases ha : a = h
    · subst ha
      rw [if_pos rfl, hme, ← hp]
    · rw [if_neg ha]
      cases ho : s.objs[a]? with
      | none => rfl
      | some o =>
        have : dst p p o.posIntoArray = o.posIntoArray := by
          unfold dst; split_ifs <;> omega
        simp only [Option.map_some', this, ite_self]

theorem linked_deref {s : State} {j : Nat} (h : Linked s j) :
    ∃ o, deref s j = some o ∧ o.posIntoArray = j := by
  obtain ⟨a, o, ha, ho, hp⟩ := h
  exact ⟨o, by simp [deref, addrAt, ha, ho], hp⟩

theorem moveUp_spec (s : State) (h : Nat) (me : Thyristor) (d p : Nat)
    (hL : ∀ j, j < s.nThyristors → Linked s j) (hn : s.nThyristors < 256)
    (hme : s.objs[h]? = some me) (hp : me.posIntoArray = p) (hpn : p < s.nThyristors)
    (hslot : s.thyristors[p]? = some (some h)) :
    ∃ s1 t, moveUp s h me d = some s1 ∧ RawMoved s s1 h me p t ∧
      p ≤ t ∧ t < s.nThyristors ∧
      (∀ j o, p < j → j ≤ t → deref s j = some o → o.delay < d) ∧
      (t + 1 < s.nThyristors → ∀ o, deref s (t + 1) = some o → d ≤ o.delay) := by
  have hD : ∀ j, p + 1 ≤ j → j < p + 1 + (s.nThyristors - (p + 1)) →
      ∃ o, deref s j = some o := by
    intro j _ hj
    obtain ⟨o, ho, _⟩ := linked_deref (hL j (by omega))
    exact ⟨o, ho⟩
  obtain ⟨r, hr, hr1, hr2, hr3, hr4⟩ := scanUp_spec s d (s.nThyristors - (p + 1)) (p + 1) hD
  by_cases hcase : p + 1 = r
  · refine ⟨s, p, ?_, rawMoved_self s h me p hme hp, le_refl _, hpn, ?_, ?_⟩
    · simp only [moveUp, hp, hr, Option.some_bind, if_pos hcase]
    · intro j o h1 h2
      omega
    · intro hlt o ho
      subst hcase
      exact hr4 (by omega) o ho
  · have htgt : (if r = s.nThyristors then s.nThyristors - 1 else r - 1) = r - 1 := by
      split_ifs with e
      · rw [e]
      · rfl
    have hf : p + (r - 1 - p) = r - 1 := by omega
    have hL' : ∀ j, p < j → j ≤ p + (r - 1 - p) → Linked s j := by
      intro j h1 h2
      exact hL j (by omega)
    obtain ⟨s1, hrun, hframe, hthy, hobj⟩ := shiftLeft_spec (r - 1 - p) p s (by omega) hL'
    rw [hf] at hthy hobj
    have htlen : r - 1 < s1.thyristors.length := by
      obtain ⟨a, o, ha, _, _⟩ := hL (r - 1) (by omega)
      have h1 := hthy (r - 1)
      have c : ¬ (p ≤ r - 1 ∧ r - 1 < r - 1) := by omega
      rw [if_neg c, ha] at h1
      exact lt_length_of_getElem? h1
    have hme1 : s1.objs[h]? = some me := by
      rw [hobj h, hme]
      have c : ¬ (p < me.posIntoArray ∧ me.posIntoArray ≤ r - 1 ∧
          s.thyristors[me.posIntoArray]? = some (some h)) := by
        rintro ⟨h1, _⟩; omega
      simp only [Option.map_some', if_neg c]
    have hhlen : h < s1.objs.length := lt_length_of_getElem? hme1
    have hmod : (r - 1) % 256 = r - 1 := Nat.mod_eq_of_lt (by omega)
    refine ⟨{ s1 with thyristors := s1.thyristors.set (r - 1) (some h),
                      objs := s1.objs.set h { me with posIntoArray := r - 1 } },
      r - 1, ?_, ⟨?_, ?_, ?_⟩, by omega, by omega, ?_, ?_⟩
    · simp only [moveUp, hp, hr, Option.some_bind, if_neg hcase, htgt, hrun, place,
        writeSlot, if_pos htlen, writePos, List.getElem?_set_self, hme1, Option.map_some', hmod]
    · rw [hframe]
    · intro j
      simp only []
      by_cases hj : j = r - 1
      · subst hj
        rw [List.getElem?_set_self htlen]
        have : src p (r - 1) (r - 1) = p := by unfold src; simp
        rw [this, hslot]
      · rw [List.getElem?_set_ne (Ne.symm hj), hthy j]
        unfold src
        rw [if_neg hj]
        by_cases c : p ≤ j ∧ j < r - 1
        · rw [if_pos c, if_pos c]
        · rw [if_neg c, if_neg c]
          have c2 : ¬ (r - 1 < j ∧ j ≤ p) := by omega
          rw [if_neg c2]
    · intro a
      simp only []
      by_cases ha : a = h
      · subst ha
        rw [List.getElem?_set_self hhlen, if_pos rfl]
      · rw [List.getElem?_set_ne (Ne.symm ha), if_neg ha, hobj a]
        cases ho : s.objs[a]? with
        | none => rfl
        | some o =>
          simp only [Option.map_some']
          congr 1
          by_cases hs : s.thyristors[o.posIntoArray]? = some (some a)
          · rw [if_pos hs]
            have hne : o.posIntoArray ≠ p := by
              intro e
              rw [e, hslot] at hs
              cases hs
              exact ha rfl
            by_cases c : p < o.posIntoArray ∧ o.posIntoArray ≤ r - 1
            · have c' : p < o.posIntoArray ∧ o.posIntoArray ≤ r - 1 ∧
                  s.thyristors[o.posIntoArray]? = some (some a) := ⟨c.1, c.2, hs⟩
              rw [if_pos c']
              have : dst p (r - 1) o.posIntoArray = o.posIntoArray - 1 := by
                unfold dst; rw [if_neg hne, if_pos c]
              rw [this]
            · have c' : ¬ (p < o.posIntoArray ∧ o.posIntoArray ≤ r - 1 ∧
                  s.thyristors[o.posIntoArray]? = some (some a)) := by
                rintro ⟨h1, h2, _⟩; exact c ⟨h1, h2⟩
              rw [if_neg c']
              have : dst p (r - 1) o.posIntoArray = o.posIntoArray := by
                unfold dst; rw [if_neg hne, if_neg c]
                split_ifs <;> omega
              rw [this]
          · rw [if_neg hs]
            have c' : ¬ (p < o.posIntoArray ∧ o.posIntoArray ≤ r - 1 ∧
                s.thyristors[o.posIntoArray]? = some (some a)) := by
              rintro ⟨_, _, h3⟩; exact hs h3
            rw [if_neg c']
    · intro j o h1 h2 ho
      exact hr3 j o (by omega) (by omega) ho
    · intro hlt o ho
      have e : r - 1 + 1 = r := by omega
      rw [e] at ho
      exact hr4 (by omega) o ho


theorem moveDown_spec (s : State) (h : Nat) (me : Thyristor) (d p : Nat)
    (hL : ∀ j, j < s.nThyristors → Linked s j) (hn : s.nThyristors < 256)
    (hme : s.objs[h]? = some me) (hp : me.posIntoArray = p) (hpn : p < s.nThyristors)
    (hslot : s.thyristors[p]? = some (some h)) :
    ∃ s1 t, moveDown s h me d = some s1 ∧ RawMoved s s1 h me p t ∧
      t ≤ p ∧
      (∀ j o, t ≤ j → j < p → deref s j = some o → d < o.delay) ∧
      (0 < t → ∀ o, deref s (t - 1) = some o → o.delay ≤ d) := by
  have hD : ∀ j, j < p → ∃ o, deref s j = some o := by
    intro j hj
    obtain ⟨o, ho, _⟩ := linked_deref (hL j (by omega))
    exact ⟨o, ho⟩
  obtain ⟨r, dn, hr, hr1, hr2, hr3, hr4, hr5⟩ := scanDown_spec s d p hD
  by_cases hcase : (p : Int) - 1 = r
  · refine ⟨s, p, ?_, rawMoved_self s h me p hme hp, le_refl _, ?_, ?_⟩
    · simp only [moveDown, hp, hr, Option.some_bind, if_pos hcase]
    · intro j o h1 h2
      omega
    · intro hlt o ho
      have e : r.toNat = p - 1 := by omega
      rw [← e] at ho
      exact hr5 (by omega) o ho
  · have htgt : (if (!dn) = true then 0 else (r + 1).toNat) = (r + 1).toNat := by
      cases dn with
      | true => simp
      | false =>
        have : ¬ (0 ≤ r) := by
          intro h0
          have := hr3.mpr h0
          cases this
        have e : (r + 1).toNat = 0 := by omega
        simp [e]
    obtain ⟨t, ht⟩ : ∃ t : Nat, (r + 1).toNat = t := ⟨_, rfl⟩
    replace htgt := htgt.trans ht
    have htp : t < p := by omega
    have hf : t + (p - t) = p := by omega
    have hplen : p < s.thyristors.length := lt_length_of_getElem? hslot
    have hL' : ∀ j, t ≤ j → j < t + (p - t) → Linked s j := by
      intro j h1 h2
      exact hL j (by omega)
    obtain ⟨s1, hrun, hframe, hthy, hobj⟩ :=
      shiftRight_spec (p - t) t s (by omega) (by omega) hL'
    rw [hf] at hrun hthy hobj
    have htlen : t < s1.thyristors.length := by
      obtain ⟨a, o, ha, _, _⟩ := hL t (by omega)
      have h1 := hthy t
      have c : ¬ (t < t ∧ t ≤ p) := by omega
      rw [if_neg c, ha] at h1
      exact lt_length_of_getElem? h1
    have hme1 : s1.objs[h]? = some me := by
      rw [hobj h, hme]
      have c : ¬ (t ≤ me.posIntoArray ∧ me.posIntoArray < p ∧
          s.thyristors[me.posIntoArray]? = some (some h)) := by
        rintro ⟨_, h1, _⟩; omega
      simp only [Option.map_some', if_neg c]
    have hhlen : h < s1.objs.length := lt_length_of_getElem? hme1
    have hmod : t % 256 = t := Nat.mod_eq_of_lt (by omega)
    refine ⟨{ s1 with thyristors := s1.thyristors.set t (some h),
                      objs := s1.objs.set h { me with posIntoArray := t } },
      t, ?_, ⟨?_, ?_, ?_⟩, by omega, ?_, ?_⟩
    · simp only [moveDown, hp, hr, Option.some_bind, if_neg hcase, htgt, hrun, place,
        writeSlot, if_pos htlen, writePos, List.getElem?_set_self, hme1, Option.map_some', hmod]
    · rw [hframe]
    · intro j
      simp only []
      by_cases hj : j = t
      · subst hj
        rw [List.getElem?_set_self htlen]
        have : src p j j = p := by unfold src; simp
        rw [this, hslot]
      · rw [List.getElem?_set_ne (Ne.symm hj), hthy j]
        unfold src
        rw [if_neg hj]
        have c0 : ¬ (p ≤ j ∧ j < t) := by omega
        rw [if_neg c0]
        split_ifs <;> rfl
    · intro a
      simp only []
      by_cases ha : a = h
      · subst ha
        rw [List.getElem?_set_self hhlen, if_pos rfl]
      · rw [List.getElem?_set_ne (Ne.symm ha), if_neg ha, hobj a]
        cases ho : s.objs[a]? with
        | none => rfl
        | some o =>
          simp only [Option.map_some']
          congr 1
          by_cases hs : s.thyristors[o.posIntoArray]? = some (some a)
          · rw [if_pos hs]
            have hne : o.posIntoArray ≠ p := by
              intro e
              rw [e, hslot] at hs
              cases hs
              exact ha rfl
            by_cases c : t ≤ o.posIntoArray ∧ o.posIntoArray < p
            · have c' : t ≤ o.posIntoArray ∧ o.posIntoArray < p ∧
                  s.thyristors[o.posIntoArray]? = some (some a) := ⟨c.1, c.2, hs⟩
              rw [if_pos c']
              have : dst p t o.posIntoArray = o.posIntoArray + 1 := by
                unfold dst
                split_ifs <;> omega
              rw [this]
            · have c' : ¬ (t ≤ o.posIntoArray ∧ o.posIntoArray < p ∧
                  s.thyristors[o.posIntoArray]? = some (some a)) := by
                rintro ⟨h1, h2, _⟩; exact c ⟨h1, h2⟩
              rw [if_neg c']
              have : dst p t o.posIntoArray = o.posIntoArray := by
                unfold dst
                split_ifs <;> omega
              rw [this]
          · rw [if_neg hs]
            have c' : ¬ (t ≤ o.posIntoArray ∧ o.posIntoArray < p ∧
                s.thyristors[o.posIntoArray]? = some (some a)) := by
              rintro ⟨_, _, h3⟩; exact hs h3
            rw [if_neg c']
    · intro j o h1 h2 ho
      exact hr4 j o (by omega) (by omega) ho
    · intro hlt o ho
      have e : r.toNat = t - 1 := by omega
      rw [← e] at ho
      exact hr5 (by omega) o ho


theorem linked_of_positioned {s : State} (hpos : Positioned s) :
    ∀ j, j < s.nThyristors → Linked s j := by
  intro j hj
  have h := hpos j hj
  unfold deref addrAt at h
  cases h1 : s.thyristors[j]? with
  | none => rw [h1] at h; simp at h
  | some q =>
    cases q with
    | none => rw [h1] at h; simp at h
    | some a =>
      rw [h1] at h
      simp only [Option.some_bind, id] at h
      cases h2 : s.objs[a]? with
      | none => rw [h2] at h; simp at h
      | some o =>
        rw [h2] at h
        simp only [Option.map_some', Option.some.injEq] at h
        exact ⟨a, o, h1, h2, h⟩

theorem length_eq_of_src {α : Type} (l1 l : List α) (p t : Nat)
    (hp : p < l.length) (ht : t < l.length)
    (h : ∀ j, l1[j]? = l[src p t j]?) : l1.length = l.length := by
  have hsome : ∀ j, j < l.length → j < l1.length := by
    intro j hj
    by_contra hc
    have h1 : l1[j]? = none := List.getElem?_eq_none (by omega)
    have h2 : src p t j < l.length := src_lt p t j l.length hp ht hj
    rw [h j] at h1
    have := List.getElem?_eq_none_iff.mp h1
    omega
  by_contra hne
  have hlt : l.length < l1.length := by
    have := hsome (l.length - 1) (by omega)
    omega
  have h1 := h l.length
  have e : src p t l.length = l.length := by
    unfold src; split_ifs <;> omega
  rw [e, List.getElem?_eq_none (le_refl _)] at h1
  have := List.getElem?_eq_none_iff.mp h1
  omega

theorem setDelay_spec (s : State) (h : Nat) (me : Thyristor) (d : Nat)
    (hlen : s.thyristors.length = N) (hpos : Positioned s)
    (hme : s.objs[h]? = some me) (hpn : me.posIntoArray < s.nThyristors)
    (hslot : s.thyristors[me.posIntoArray]? = some (some h)) :
    ∃ s' t, setDelay s h d = some s' ∧ Moved s s' me.posIntoArray t d ∧
      t < s.nThyristors ∧
      s'.objs[h]? = some { me with posIntoArray := t, delay := d } ∧
      (me.delay < d → me.posIntoArray ≤ t ∧
        (∀ j o, me.posIntoArray < j → j ≤ t → deref s j = some o → o.delay < d) ∧
        (t + 1 < s.nThyristors → ∀ o, deref s (t + 1) = some o → d ≤ o.delay)) ∧
      (d < me.delay → t ≤ me.posIntoArray ∧
        (∀ j o, t ≤ j → j < me.posIntoArray → deref s j = some o → d < o.delay) ∧
        (0 < t → ∀ o, deref s (t - 1) = some o → o.delay ≤ d)) ∧
      (d = me.delay → t = me.posIntoArray) := by
  have hL := linked_of_positioned hpos
  have hplen : me.posIntoArray < s.thyristors.length := lt_length_of_getElem? hslot
  have hnN : s.nThyristors ≤ N := by
    by_contra hc
    obtain ⟨a, o, ha, _, _⟩ := hL N (by omega)
    have := lt_length_of_getElem? ha
    omega
  have hn : s.nThyristors < 256 := by unfold N at hnN; omega
  have hdump : serialDump s s.nThyristors 0 = some () := by
    apply serialDump_ok
    intro j _ hj
    obtain ⟨o, ho, _⟩ := linked_deref (hL j (by omega))
    exact ⟨o, ho⟩
  set s0 : State := { s with updatingStruct := true } with hs0
  have hL0 : ∀ j, j < s0.nThyristors → Linked s0 j := hL
  -- the branch taken
  have hbranch : ∃ s1 t,
      (if d > me.delay then moveUp s0 h me d
       else if d < me.delay then moveDown s0 h me d else some s0) = some s1 ∧
      RawMoved s0 s1 h me me.posIntoArray t ∧ t < s.nThyristors ∧
      (me.delay < d → me.posIntoArray ≤ t ∧
        (∀ j o, me.posIntoArray < j → j ≤ t → deref s j = some o → o.delay < d) ∧
        (t + 1 < s.nThyristors → ∀ o, deref s (t + 1) = some o → d ≤ o.delay)) ∧
      (d < me.delay → t ≤ me.posIntoArray ∧
        (∀ j o, t ≤ j → j < me.posIntoArray → deref s j = some o → d < o.delay) ∧
        (0 < t → ∀ o, deref s (t - 1) = some o → o.delay ≤ d)) ∧
      (d = me.delay → t = me.posIntoArray) := by
    by_cases hup : d > me.delay
    · obtain ⟨s1, t, hrun, hraw, h1, h2, h3, h4⟩ :=
        moveUp_spec s0 h me d me.posIntoArray hL0 hn hme rfl hpn hslot
      refine ⟨s1, t, ?_, hraw, h2, fun _ => ⟨h1, h3, h4⟩, fun hc => by omega, fun hc => by omega⟩
      rw [if_pos hup]
      exact hrun
    · by_cases hdown : d < me.delay
      · obtain ⟨s1, t, hrun, hraw, h1, h3, h4⟩ :=
          moveDown_spec s0 h me d me.posIntoArray hL0 hn hme rfl hpn hslot
        refine ⟨s1, t, ?_, hraw, by omega, fun hc => by omega, fun _ => ⟨h1, h3, h4⟩,
          fun hc => by omega⟩
        rw [if_neg hup, if_pos hdown]
        exact hrun
      · refine ⟨s0, me.posIntoArray, ?_, rawMoved_self s0 h me _ hme rfl, hpn,
          fun hc => by omega, fun hc => by omega, fun _ => rfl⟩
        rw [if_neg hup, if_neg hdown]
  obtain ⟨s1, t, hrun, ⟨hframe, hthy, hobj⟩, htn, hU, hD, hE⟩ := hbranch
  have hme1 : s1.objs[h]? = some { me with posIntoArray := t } := by
    rw [hobj h, if_pos rfl]
  have hhlen : h < s1.objs.length := lt_length_of_getElem? hme1
  set s2 : State := { s1 with
    objs := s1.objs.set h { me with posIntoArray := t, delay := d }
    newDelayValues := true
    updatingStruct := false } with hs2
  have hobj2 : ∀ a, s2.objs[a]? =
      if a = h then some { me with posIntoArray := t, delay := d } else s1.objs[a]? := by
    intro a
    show (s1.objs.set h _)[a]? = _
    by_cases e : a = h
    · subst e
      rw [List.getElem?_set_self hhlen, if_pos rfl]
    · rw [List.getElem?_set_ne (Ne.symm e), if_neg e]
  have hlen1 : s1.thyristors.length = s.thyristors.length :=
    length_eq_of_src s1.thyristors s.thyristors me.posIntoArray t hplen (by omega) hthy
  have hn1 : s1.nThyristors = s.nThyristors := by rw [hframe]
  have haddr : ∀ j, j < s.nThyristors → addrAt s2 j = addrAt s (src me.posIntoArray t j) := by
    intro j _
    show (s1.thyristors[j]?).bind id = (s.thyristors[src me.posIntoArray t j]?).bind id
    rw [hthy j]
  have hderef : ∀ j, j < s.nThyristors →
      deref s2 j = (deref s (src me.posIntoArray t j)).map fun (o : Thyristor) =>
        { o with posIntoArray := j, delay := if j = t then d else o.delay } := by
    intro j hj
    have hsl := src_lt me.posIntoArray t j s.nThyristors hpn htn hj
    obtain ⟨a, o, ha, ho, hop⟩ := hL _ hsl
    have e1 : deref s (src me.posIntoArray t j) = some o := by
      simp [deref, addrAt, ha, ho]
    have e2 : addrAt s2 j = some a := by
      rw [haddr j hj]
      simp [addrAt, ha]
    rw [e1]
    unfold deref
    rw [e2]
    simp only [Option.some_bind, Option.map_some']
    by_cases hah : a = h
    · subst hah
      rw [hme] at ho
      cases ho
      have hjt : j = t := (src_eq_iff _ _ _).mp hop.symm
      subst hjt
      rw [hobj2 a, if_pos rfl]
      simp
    · have hjt : j ≠ t := by
        intro e
        have := (src_eq_iff me.posIntoArray t j).mpr e
        rw [this, hslot] at ha
        cases ha
        exact hah rfl
      rw [hobj2 a, if_neg hah, hobj a, if_neg hah]
      show Option.map _ (s.objs[a]?) = _
      rw [ho]
      simp only [Option.map_some']
      have c : s0.thyristors[o.posIntoArray]? = some (some a) := by
        rw [hop]; exact ha
      rw [if_pos c, hop, dst_src, if_neg hjt]
  have hdump2 : serialDump s2 s2.nThyristors 0 = some () := by
    apply serialDump_ok
    intro j _ hj
    have hj' : j < s.nThyristors := by
      have : s2.nThyristors = s.nThyristors := hn1
      omega
    have hsl := src_lt me.posIntoArray t j s.nThyristors hpn htn hj'
    obtain ⟨o, ho, _⟩ := linked_deref (hL _ hsl)
    rw [hderef j hj', ho]
    exact ⟨_, rfl⟩
  refine ⟨s2, t, ?_, ⟨?_, hlen1, haddr, hderef⟩, htn, ?_, hU, hD, hE⟩
  · unfold setDelay
    rw [hdump]
    simp only [Option.some_bind]
    have hme0 : s0.objs[h]? = some me := hme
    rw [← hs0, hme0]
    simp only [Option.some_bind]
    rw [hrun]
    simp only [Option.some_bind]
    rw [hme1]
    simp only [Option.some_bind]
    rw [← hs2, hdump2]
    rfl
  · rw [hs2, hframe]
  · rw [hobj2 h, if_pos rfl]


theorem src_step_le (p t i : Nat) (h1 : i ≠ t) (h2 : i + 1 ≠ t) :
    src p t i ≤ src p t (i + 1) := by
  unfold src
  split_ifs <;> omega

theorem ascending_mono {s : State} (hpos : Positioned s) (hasc : Ascending s) :
    ∀ (k i : Nat) (a b : Thyristor), i + k < s.nThyristors →
      deref s i = some a → deref s (i + k) = some b → a.delay ≤ b.delay := by
  intro k
  induction k with
  | zero =>
    intro i a b _ ha hb
    rw [Nat.add_zero, ha] at hb
    cases hb
    exact le_refl _
  | succ k ih =>
    intro i a b hlt ha hb
    obtain ⟨c, hc, _⟩ := linked_deref (linked_of_positioned hpos (i + k) (by omega))
    have h1 := ih i a c (by omega) ha hc
    have h2 := hasc (i + k) (by omega) c hc b hb
    omega

theorem ascending_le {s : State} (hpos : Positioned s) (hasc : Ascending s)
    (i j : Nat) (a b : Thyristor) (hij : i ≤ j) (hj : j < s.nThyristors)
    (ha : deref s i = some a) (hb : deref s j = some b) : a.delay ≤ b.delay := by
  obtain ⟨k, rfl⟩ : ∃ k, j = i + k := ⟨j - i, by omega⟩
  exact ascending_mono hpos hasc k i a b hj ha hb

theorem fits_of_spec (s : State) (me : Thyristor) (p t d : Nat)
    (hpos : Positioned s) (hasc : Ascending s)
    (hp : deref s p = some me) (hpn : p < s.nThyristors) (htn : t < s.nThyristors)
    (hU : me.delay < d → p ≤ t ∧
        (∀ j o, p < j → j ≤ t → deref s j = some o → o.delay < d) ∧
        (t + 1 < s.nThyristors → ∀ o, deref s (t + 1) = some o → d ≤ o.delay))
    (hD : d < me.delay → t ≤ p ∧
        (∀ j o, t ≤ j → j < p → deref s j = some o → d < o.delay) ∧
        (0 < t → ∀ o, deref s (t - 1) = some o → o.delay ≤ d))
    (hE : d = me.delay → t = p) : Fits s p t d := by
  intro j o hj ho
  have hL := linked_of_positioned hpos
  rcases Nat.lt_trichotomy me.delay d with hc | hc | hc
  · obtain ⟨hpt, h1, h2⟩ := hU hc
    constructor
    · intro hjt
      by_cases hjp : j < p
      · have e : src p t j = j := by unfold src; split_ifs <;> omega
        rw [e] at ho
        have := ascending_le hpos hasc j p o me (by omega) hpn ho hp
        omega
      · have e : src p t j = j + 1 := by unfold src; split_ifs <;> omega
        rw [e] at ho
        have := h1 (j + 1) o (by omega) (by omega) ho
        omega
    · intro hjt
      have e : src p t j = j := by unfold src; split_ifs <;> omega
      rw [e] at ho
      obtain ⟨c, hc1, _⟩ := linked_deref (hL (t + 1) (by omega))
      have h3 := h2 (by omega) c hc1
      have := ascending_le hpos hasc (t + 1) j c o (by omega) hj hc1 ho
      omega
  · have htp := hE hc.symm
    subst htp
    have e : src t t j = j := by unfold src; split_ifs <;> omega
    rw [e] at ho
    constructor
    · intro hjt
      have := ascending_le hpos hasc j t o me (by omega) hpn ho hp
      omega
    · intro hjt
      have := ascending_le hpos hasc t j me o (by omega) hj hp ho
      omega
  · obtain ⟨hpt, h1, h2⟩ := hD hc
    constructor
    · intro hjt
      have e : src p t j = j := by unfold src; split_ifs <;> omega
      rw [e] at ho
      obtain ⟨c, hc1, _⟩ := linked_deref (hL (t - 1) (by omega))
      have h3 := h2 (by omega) c hc1
      have := ascending_le hpos hasc j (t - 1) o c (by omega) (by omega) ho hc1
      omega
    · intro hjt
      by_cases hjp : j ≤ p
      · have e : src p t j = j - 1 := by unfold src; split_ifs <;> omega
        rw [e] at ho
        have := h1 (j - 1) o (by omega) (by omega) ho
        omega
      · have e : src p t j = j := by unfold src; split_ifs <;> omega
        rw [e] at ho
        have := ascending_le hpos hasc p j me o (by omega) hj hp ho
        omega

theorem valid_of_moved (s s' : State) (p t d : Nat)
    (hv : Valid s) (hm : Moved s s' p t d)
    (hpn : p < s.nThyristors) (htn : t < s.nThyristors) (hfit : Fits s p t d) :
    Valid s' ∧ s'.nThyristors = s.nThyristors := by
  obtain ⟨hlen, hpos, hasc⟩ := hv
  obtain ⟨hframe, hlen', haddr, hderef⟩ := hm
  have hL := linked_of_positioned hpos
  have hn : s'.nThyristors = s.nThyristors := by rw [hframe]
  refine ⟨⟨by rw [hlen', hlen], ?_, ?_⟩, hn⟩
  · intro i hi
    rw [hn] at hi
    obtain ⟨o, ho, _⟩ := linked_deref (hL _ (src_lt p t i _ hpn htn hi))
    rw [hderef i hi, ho]
    rfl
  · intro i hi a ha b hb
    rw [hn] at hi
    have hi0 : i < s.nThyristors := by omega
    have hi1 : i + 1 < s.nThyristors := by omega
    obtain ⟨o0, ho0, _⟩ := linked_deref (hL _ (src_lt p t i _ hpn htn hi0))
    obtain ⟨o1, ho1, _⟩ := linked_deref (hL _ (src_lt p t (i + 1) _ hpn htn hi1))
    rw [Option.mem_def, hderef i hi0, ho0] at ha
    rw [Option.mem_def, hderef (i + 1) hi1, ho1] at hb
    simp only [Option.map_some', Option.some.injEq] at ha hb
    subst ha
    subst hb
    simp only []
    have f0 := hfit i o0 hi0 ho0
    have f1 := hfit (i + 1) o1 hi1 ho1
    by_cases e0 : i = t
    · have e1 : ¬ (i + 1 = t) := by omega
      rw [if_pos e0, if_neg e1]
      exact f1.2 (by omega)
    · by_cases e1 : i + 1 = t
      · rw [if_neg e0, if_pos e1]
        exact f0.1 (by omega)
      · rw [if_neg e0, if_neg e1]
        exact ascending_le hpos hasc _ _ o0 o1 (src_step_le p t i e0 e1)
          (src_lt p t (i + 1) _ hpn htn hi1) ho0 ho1

theorem registered_elim {s : State} {h : Nat} (hr : Registered s h) :
    ∃ me, s.objs[h]? = some me ∧ me.posIntoArray < s.nThyristors ∧
      s.thyristors[me.posIntoArray]? = some (some h) ∧
      deref s me.posIntoArray = some me := by
  obtain ⟨me, hme, hp, hslot⟩ := hr
  rw [Option.mem_def] at hme
  exact ⟨me, hme, hp, hslot, by simp [deref, addrAt, hslot, hme]⟩

/-- C1: `setDelay` preserves the registry invariant and the load count. -/
theorem setDelay_preserves_invariant (s : State) (h newDelay : Nat)
    (hv : Valid s) (hr : Registered s h) (hd : newDelay < 2 ^ 16) :
    ∃ s', setDelay s h newDelay = some s' ∧ Valid s' ∧
      getThyristorNumber s' = getThyristorNumber s := by
  obtain ⟨me, hme, hpn, hslot, hderef⟩ := registered_elim hr
  obtain ⟨s', t, hrun, hm, htn, _, hU, hD, hE⟩ :=
    setDelay_spec s h me newDelay hv.1 hv.2.1 hme hpn hslot
  have hfit := fits_of_spec s me me.posIntoArray t newDelay hv.2.1 hv.2.2 hderef hpn htn hU hD hE
  exact ⟨s', hrun, valid_of_moved s s' me.posIntoArray t newDelay hv hm hpn htn hfit⟩


theorem filter_eq_eraseIdx {α : Type} (q : α → Bool) :
    ∀ (l : List α) (p : Nat) (x : α), l[p]? = some x → q x = false →
      (∀ j y, j ≠ p → l[j]? = some y → q y = true) → l.filter q = l.eraseIdx p := by
  intro l
  induction l with
  | nil => intro p x h; simp at h
  | cons a l ih =>
    intro p x hp hq hall
    cases p with
    | zero =>
      simp only [List.getElem?_cons_zero, Option.some.injEq] at hp
      subst hp
      rw [List.filter_cons_of_neg (by simp [hq]), List.eraseIdx_cons_zero]
      apply List.filter_eq_self.mpr
      intro y hy
      obtain ⟨j, hj⟩ := List.getElem?_of_mem hy
      exact hall (j + 1) y (by omega) (by simpa using hj)
    | succ p =>
      have ha : q a = true := hall 0 a (by omega) (by simp)
      rw [List.filter_cons_of_pos ha, List.eraseIdx_cons_succ]
      congr 1
      apply ih p x (by simpa using hp) hq
      intro j y hj hy
      exact hall (j + 1) y (by omega) (by simpa using hy)

theorem loads_getElem? (s : State) (j : Nat) :
    (loads s)[j]? = if j < s.nThyristors then some (entry s j) else none := by
  unfold loads
  rw [List.getElem?_map]
  by_cases h : j < s.nThyristors
  · rw [List.getElem?_range h, if_pos h]
    rfl
  · rw [if_neg h, List.getElem?_eq_none (by simpa using h)]
    rfl

theorem entry_of_linked {s : State} {i a : Nat} {o : Thyristor}
    (h1 : s.thyristors[i]? = some (some a)) (h2 : s.objs[a]? = some o) :
    entry s i = some (a, o.pin, o.delay) := by
  simp [entry, addrAt, h1, h2]

theorem entry_moved (s s' : State) (p t d : Nat) (hpos : Positioned s)
    (hm : Moved s s' p t d) (hpn : p < s.nThyristors) (htn : t < s.nThyristors)
    (j : Nat) (hj : j < s.nThyristors) :
    entry s' j = (entry s (src p t j)).map fun x =>
      (x.1, x.2.1, if j = t then d else x.2.2) := by
  obtain ⟨_, _, haddr, hderef⟩ := hm
  obtain ⟨a, o, ha, ho, _⟩ := linked_of_positioned hpos _ (src_lt p t j _ hpn htn hj)
  rw [entry_of_linked ha ho]
  have e1 : addrAt s' j = some a := by
    rw [haddr j hj]; simp [addrAt, ha]
  have e2 := hderef j hj
  have e3 : deref s (src p t j) = some o := by simp [deref, addrAt, ha, ho]
  unfold deref at e2
  rw [e1] at e2
  simp only [Option.some_bind] at e2
  rw [← deref, e3] at e2
  unfold entry
  rw [e1]
  simp only [Option.some_bind]
  rw [e2]
  rfl


theorem loads_moved (s s' : State) (p t d : Nat) (hpos : Positioned s)
    (hm : Moved s s' p t d) (hpn : p < s.nThyristors) (htn : t < s.nThyristors)
    (k : Nat) (hk : k ≠ t) : (loads s')[k]? = (loads s)[src p t k]? := by
  have hn : s'.nThyristors = s.nThyristors := by rw [hm.1]
  rw [loads_getElem?, loads_getElem?, hn]
  by_cases h : k < s.nThyristors
  · rw [if_pos h, if_pos (src_lt p t k _ hpn htn h), entry_moved s s' p t d hpos hm hpn htn k h]
    simp only [if_neg hk, Prod.mk.eta, Option.map_id']
  · have e : src p t k = k := by unfold src; split_ifs <;> omega
    rw [if_neg h, e, if_neg h]

theorem others_moved (s s' : State) (h : Nat) (me : Thyristor) (t d : Nat)
    (hpos : Positioned s) (hm : Moved s s' me.posIntoArray t d)
    (hme : s.objs[h]? = some me) (hpn : me.posIntoArray < s.nThyristors)
    (hslot : s.thyristors[me.posIntoArray]? = some (some h))
    (htn : t < s.nThyristors) : others s' h = others s h := by
  have hL := linked_of_positioned hpos
  have hn : s'.nThyristors = s.nThyristors := by rw [hm.1]
  have hne : ∀ j, j < s.nThyristors → j ≠ me.posIntoArray →
      ∃ (a : Nat) (o : Thyristor), entry s j = some (a, o.pin, o.delay) ∧ a ≠ h := by
    intro j hj hjp
    obtain ⟨a, o, ha, ho, hop⟩ := hL j hj
    refine ⟨a, o, entry_of_linked ha ho, ?_⟩
    intro e
    subst e
    rw [hme] at ho
    cases ho
    exact hjp hop.symm
  have hold : others s h = (loads s).eraseIdx me.posIntoArray := by
    unfold others
    apply filter_eq_eraseIdx _ _ _ (entry s me.posIntoArray)
    · rw [loads_getElem?, if_pos hpn]
    · rw [entry_of_linked hslot hme]
      simp
    · intro j y hj hy
      rw [loads_getElem?] at hy
      by_cases hjn : j < s.nThyristors
      · rw [if_pos hjn] at hy
        cases hy
        obtain ⟨a, o, he, hah⟩ := hne j hjn hj
        rw [he]
        simpa using hah
      · rw [if_neg hjn] at hy
        cases hy
  have hnew : others s' h = (loads s').eraseIdx t := by
    unfold others
    apply filter_eq_eraseIdx _ _ _ (entry s' t)
    · rw [loads_getElem?, hn, if_pos htn]
    · rw [entry_moved s s' _ t d hpos hm hpn htn t htn]
      have e : src me.posIntoArray t t = me.posIntoArray := (src_eq_iff _ _ _).mpr rfl
      rw [e, entry_of_linked hslot hme]
      simp
    · intro j y hj hy
      rw [loads_getElem?, hn] at hy
      by_cases hjn : j < s.nThyristors
      · rw [if_pos hjn] at hy
        cases hy
        have hs : src me.posIntoArray t j ≠ me.posIntoArray := by
          intro e
          exact hj ((src_eq_iff _ _ _).mp e)
        obtain ⟨a, o, he, hah⟩ := hne _ (src_lt _ t j _ hpn htn hjn) hs
        rw [entry_moved s s' _ t d hpos hm hpn htn j hjn, he]
        simpa using hah
      · rw [if_neg hjn] at hy
        cases hy
  rw [hold, hnew]
  apply List.ext_getElem?
  intro j
  rw [List.getElem?_eraseIdx, List.getElem?_eraseIdx]
  have key : ∀ k, k ≠ t → (loads s')[k]? = (loads s)[src me.posIntoArray t k]? :=
    loads_moved s s' _ t d hpos hm hpn htn
  by_cases h1 : j < t
  · rw [if_pos h1, key j (by omega)]
    by_cases h2 : j < me.posIntoArray
    · rw [if_pos h2]
      have e : src me.posIntoArray t j = j := by unfold src; split_ifs <;> omega
      rw [e]
    · rw [if_neg h2]
      have e : src me.posIntoArray t j = j + 1 := by unfold src; split_ifs <;> omega
      rw [e]
  · rw [if_neg h1, key (j + 1) (by omega)]
    by_cases h2 : j < me.posIntoArray
    · rw [if_pos h2]
      have e : src me.posIntoArray t (j + 1) = j := by unfold src; split_ifs <;> omega
      rw [e]
    · rw [if_neg h2]
      have e : src me.posIntoArray t (j + 1) = j + 1 := by unfold src; split_ifs <;> omega
      rw [e]

/-- C7: `setDelay` changes only the targeted load. -/
theorem setDelay_frame (s : State) (h d : Nat)
    (hv : Valid s) (hr : Registered s h) (hd : d < 2 ^ 16) :
    ∃ s', setDelay s h d = some s' ∧ getDelay s' h = some d ∧
      others s' h = others s h := by
  obtain ⟨me, hme, hpn, hslot, _⟩ := registered_elim hr
  obtain ⟨s', t, hrun, hm, htn, hobj, _, _, _⟩ :=
    setDelay_spec s h me d hv.1 hv.2.1 hme hpn hslot
  refine ⟨s', hrun, ?_, others_moved s s' h me t d hv.2.1 hm hme hpn hslot htn⟩
  unfold getDelay
  rw [hobj]
  rfl


theorem delayAt_moved (s s' : State) (p t d : Nat) (hm : Moved s s' p t d)
    (j : Nat) (hj : j < s.nThyristors) :
    delayAt s' j = (deref s (src p t j)).map fun (o : Thyristor) =>
      if j = t then d else o.delay := by
  unfold delayAt
  rw [hm.2.2.2 j hj, Option.map_map]
  rfl

/-- C8 (amended): when the delay of a registered load `h` is increased, `h`
ends up immediately before the first entry after its old position whose delay
is greater than or equal to `newDelay`, or at the last index if there is none;
every entry left before `h` has a delay strictly below `newDelay`, so `h`
precedes every other entry whose delay equals `newDelay`. -/
theorem setDelay_increase_placement (s : State) (h c newDelay : Nat)
    (hv : Valid s) (hr : Registered s h) (hc : getDelay s h = some c)
    (hgt : c < newDelay) (hd : newDelay < 2 ^ 16) :
    ∃ s' p t, setDelay s h newDelay = some s' ∧
      posOf s h = some p ∧ posOf s' h = some t ∧ addrAt s' t = some h ∧
      p ≤ t ∧ t < s.nThyristors ∧
      (∀ j, p < j → j ≤ t → ∃ x, delayAt s j = some x ∧ x < newDelay) ∧
      (t + 1 < s.nThyristors →
        ∃ x, delayAt s (t + 1) = some x ∧ newDelay ≤ x ∧ entry s' (t + 1) = entry s (t + 1)) ∧
      (¬ (t + 1 < s.nThyristors) → t = s.nThyristors - 1) ∧
      (∀ j x, j < s.nThyristors → j ≠ t → delayAt s' j = some x →
        (j < t → x < newDelay) ∧ (t < j → newDelay ≤ x)) := by
  obtain ⟨me, hme, hpn, hslot, hderef⟩ := registered_elim hr
  have hcd : me.delay = c := by
    unfold getDelay at hc
    rw [hme] at hc
    simpa using hc
  obtain ⟨s', t, hrun, hm, htn, hobj, hU, hD, hE⟩ :=
    setDelay_spec s h me newDelay hv.1 hv.2.1 hme hpn hslot
  obtain ⟨hpt, h1, h2⟩ := hU (by omega)
  have hL := linked_of_positioned hv.2.1
  have hfit := fits_of_spec s me me.posIntoArray t newDelay hv.2.1 hv.2.2 hderef hpn htn
    hU hD hE
  refine ⟨s', me.posIntoArray, t, hrun, ?_, ?_, ?_, hpt, htn, ?_, ?_, ?_, ?_⟩
  · unfold posOf; rw [hme]; rfl
  · unfold posOf; rw [hobj]; rfl
  · rw [hm.2.2.1 t htn, (src_eq_iff _ _ _).mpr rfl]
    simp [addrAt, hslot]
  · intro j hj1 hj2
    obtain ⟨o, ho, _⟩ := linked_deref (hL j (by omega))
    exact ⟨o.delay, by unfold delayAt; rw [ho]; rfl, h1 j o hj1 hj2 ho⟩
  · intro hlt
    obtain ⟨o, ho, _⟩ := linked_deref (hL (t + 1) hlt)
    refine ⟨o.delay, by unfold delayAt; rw [ho]; rfl, h2 hlt o ho, ?_⟩
    rw [entry_moved s s' _ t newDelay hv.2.1 hm hpn htn (t + 1) hlt]
    have e : src me.posIntoArray t (t + 1) = t + 1 := by unfold src; split_ifs <;> omega
    rw [e]
    have e2 : ¬ (t + 1 = t) := by omega
    simp only [if_neg e2, Prod.mk.eta, Option.map_id']
  · intro hlt
    omega
  · intro j x hj hjt hx
    rw [delayAt_moved s s' _ t newDelay hm j hj] at hx
    obtain ⟨o, ho, _⟩ := linked_deref (hL _ (src_lt me.posIntoArray t j _ hpn htn hj))
    rw [ho] at hx
    simp only [Option.map_some', if_neg hjt, Option.some.injEq] at hx
    subst hx
    constructor
    · intro hlt
      by_cases hjp : j < me.posIntoArray
      · have e : src me.posIntoArray t j = j := by unfold src; split_ifs <;> omega
        rw [e] at ho
        have := ascending_le hv.2.1 hv.2.2 j me.posIntoArray o me (by omega) hpn ho hderef
        omega
      · have e : src me.posIntoArray t j = j + 1 := by unfold src; split_ifs <;> omega
        rw [e] at ho
        exact h1 (j + 1) o (by omega) (by omega) ho
    · intro hlt
      exact (hfit j o hj ho).2 hlt

theorem set_same {α : Type} (l : List α) (i : Nat) (x : α) (h : l[i]? = some x) :
    l.set i x = l := by
  apply List.ext_getElem?
  intro j
  by_cases e : i = j
  · subst e
    rw [List.getElem?_set_self (lt_length_of_getElem? h), h]
  · rw [List.getElem?_set_ne e]

/-- C6 (amended): `setDelay` with the value the load already has leaves the
registry order, every position and every delay as they were, leaves busy
(`updatingStruct`) clear, and sets the dirty flag (`newDelayValues`). -/
theorem setDelay_same_value (s : State) (h c : Nat)
    (hv : Valid s) (hr : Registered s h) (hc : getDelay s h = some c) :
    setDelay s h c = some { s with newDelayValues := true, updatingStruct := false } := by
  obtain ⟨me, hme, hpn, hslot, hderef⟩ := registered_elim hr
  have hcd : me.delay = c := by
    unfold getDelay at hc
    rw [hme] at hc
    simpa using hc
  subst hcd
  have hL := linked_of_positioned hv.2.1
  have hdump : serialDump s s.nThyristors 0 = some () := by
    apply serialDump_ok
    intro j _ hj
    obtain ⟨o, ho, _⟩ := linked_deref (hL j (by omega))
    exact ⟨o, ho⟩
  have hset : s.objs.set h { me with delay := me.delay } = s.objs := set_same _ _ _ hme
  have hdump2 : serialDump { s with newDelayValues := true, updatingStruct := false }
      s.nThyristors 0 = some () := by
    apply serialDump_ok
    intro j _ hj
    obtain ⟨o, ho, _⟩ := linked_deref (hL j (by omega))
    exact ⟨o, ho⟩
  unfold setDelay
  rw [hdump]
  simp only [Option.some_bind, hme, gt_iff_lt, lt_self_iff_false, if_false, hset]
  rw [hdump2]
  rfl

end Thyristor

/-- C8, counterexample: load A (delay 100) of `demo3` is raised to 500, the
delay of B.  A stays at index 0, in front of B at index 1, although B's delay
equals the new delay and is not strictly greater. -/
theorem setDelay_increase_placement_counterexample :
    Valid demo3 ∧ Registered demo3 0 ∧ getDelay demo3 0 = some 100 ∧
    (setDelay demo3 0 500).map (fun s' => (posOf s' 0, delayAt s' 1, delayAt s' 2)) =
      some (some 0, some 500, some 900) := by
  decide

/-- C6, counterexample: in `demo3` the dirty flag is clear; setting load B to
the delay it already has (500) sets the flag. -/
theorem setDelay_same_value_counterexample :
    Valid demo3 ∧ Registered demo3 1 ∧ getDelay demo3 1 = some 500 ∧
    demo3.newDelayValues = false ∧
    (setDelay demo3 1 500).map (fun s' => s'.newDelayValues) = some true := by
  decide

/-! ## The zero-cross handler -/

theorem lowLoop_spec : ∀ (k i : Nat) (s : State), i + k ≤ s.pinDelay.length →
    ∃ s', lowLoop k i s = some s' ∧ s' = { s with out := s'.out } := by
  intro k
  induction k with
  | zero => intro i s _; exact ⟨s, rfl, rfl⟩
  | succ k ih =>
    intro i s hlen
    have hi : i < s.pinDelay.length := by omega
    obtain ⟨s', hrun, hframe⟩ := ih (i + 1)
      { s with out := s.out ++ [Event.digitalWrite s.pinDelay[i].pin Level.LOW] }
      (by show i + 1 + k ≤ s.pinDelay.length; omega)
    refine ⟨s', ?_, ?_⟩
    · simp only [lowLoop, List.getElem?_eq_getElem hi, Option.some_bind]
      exact hrun
    · rw [hframe]

theorem copyLoop_spec : ∀ (k i : Nat) (s : State), i + k ≤ s.pinDelay.length →
    (∀ j, i ≤ j → j < i + k → ∃ o, deref s j = some o) →
    ∃ s', copyLoop k i s = some s' ∧ s' = { s with pinDelay := s'.pinDelay } ∧
      s'.pinDelay.length = s.pinDelay.length ∧
      (∀ j, s'.pinDelay[j]? =
        if i ≤ j ∧ j < i + k then (deref s j).map fun (o : Thyristor) => PinDelay.mk o.pin o.delay
        else s.pinDelay[j]?) := by
  intro k
  induction k with
  | zero =>
    intro i s _ _
    refine ⟨s, rfl, rfl, rfl, ?_⟩
    intro j
    have c : ¬ (i ≤ j ∧ j < i + 0) := by omega
    rw [if_neg c]
  | succ k ih =>
    intro i s hlen hd
    have hi : i < s.pinDelay.length := by omega
    obtain ⟨o, ho⟩ := hd i (by omega) (by omega)
    obtain ⟨s', hrun, hframe, hlen', hpd⟩ := ih (i + 1)
      { s with pinDelay := s.pinDelay.set i ⟨o.pin, o.delay⟩ }
      (by show i + 1 + k ≤ (s.pinDelay.set i _).length; rw [List.length_set]; omega)
      (fun j h1 h2 => hd j (by omega) (by omega))
    refine ⟨s', ?_, ?_, ?_, ?_⟩
    · simp only [copyLoop, ho, Option.some_bind, if_pos hi]
      exact hrun
    · rw [hframe]
    · rw [hlen']
      show (s.pinDelay.set i _).length = _
      rw [List.length_set]
    · intro j
      rw [hpd j]
      by_cases e : j = i
      · subst e
        have c1 : ¬ (j + 1 ≤ j ∧ j < j + 1 + k) := by omega
        have c2 : j ≤ j ∧ j < j + (k + 1) := by omega
        rw [if_neg c1, if_pos c2, ho]
        show (s.pinDelay.set j _)[j]? = _
        rw [List.getElem?_set_self hi]
        rfl
      · by_cases c : i + 1 ≤ j ∧ j < i + 1 + k
        · have c2 : i ≤ j ∧ j < i + (k + 1) := by omega
          rw [if_pos c, if_pos c2]
          rfl
        · have c2 : ¬ (i ≤ j ∧ j < i + (k + 1)) := by omega
          rw [if_neg c, if_neg c2]
          show (s.pinDelay.set i _)[j]? = _
          rw [List.getElem?_set_ne (Ne.symm e)]

theorem immediateLoop_frame : ∀ (l : List PinDelay) (s s' : State),
    immediateLoop l s = some s' → s' = { s with out := s'.out } := by
  intro l
  induction l with
  | nil => intro s s' h; cases h
  | cons e rest ih =>
    intro s s' h
    unfold immediateLoop at h
    by_cases c : e.delay < 30
    · rw [if_pos c] at h
      have := ih _ s' h
      rw [this]
    · rw [if_neg c] at h
      cases h
      rfl

theorem immediateLoop_some : ∀ (l : List PinDelay) (s : State),
    (∃ e ∈ l, 30 ≤ e.delay) → ∃ s', immediateLoop l s = some s' := by
  intro l
  induction l with
  | nil => intro s h; obtain ⟨e, he, _⟩ := h; cases he
  | cons e rest ih =>
    intro s h
    unfold immediateLoop
    by_cases c : e.delay < 30
    · rw [if_pos c]
      apply ih
      obtain ⟨x, hx, hx30⟩ := h
      rcases List.mem_cons.mp hx with rfl | hmem
      · omega
      · exact ⟨x, hmem, hx30⟩
    · rw [if_neg c]
      exact ⟨s, rfl⟩

theorem armOrDisarm_frame (s s' : State) (h : armOrDisarm s = some s') :
    s' = { s with out := s'.out } := by
  unfold armOrDisarm at h
  by_cases c : s.thyristorManaged < s.nThyristors
  · rw [if_pos c] at h
    cases he : s.pinDelay[s.thyristorManaged]? with
    | none => rw [he] at h; cases h
    | some e =>
      rw [he] at h
      simp only [Option.some_bind] at h
      by_cases c2 : e.delay < 9950
      · rw [if_pos c2] at h; cases h; rfl
      · rw [if_neg c2] at h; cases h; rfl
  · rw [if_neg c] at h; cases h; rfl

theorem armOrDisarm_some (s : State) (h : s.nThyristors ≤ s.pinDelay.length) :
    ∃ s', armOrDisarm s = some s' := by
  unfold armOrDisarm
  by_cases c : s.thyristorManaged < s.nThyristors
  · rw [if_pos c, List.getElem?_eq_getElem (by omega)]
    simp only [Option.some_bind]
    split_ifs
    · exact ⟨_, rfl⟩
    · exact ⟨_, rfl⟩
  · rw [if_neg c]
    exact ⟨_, rfl⟩

theorem immediateLoop_none : ∀ (l : List PinDelay) (s : State),
    (∀ e ∈ l, e.delay < 30) → immediateLoop l s = none := by
  intro l
  induction l with
  | nil => intro s _; rfl
  | cons e rest ih =>
    intro s h
    unfold immediateLoop
    rw [if_pos (h e (List.mem_cons_self _ _))]
    exact ih _ fun x hx => h x (List.mem_cons_of_mem _ hx)

/-- C9: publish step of `zero_cross_int`.  The first two blocks of the handler,
the LOW loop and the publish block, always complete; `s2` is the state they
leave and the rest of the handler runs from it.  When dirty is set and busy is
clear, `s2.pinDelay[i]` is the (pin, delay) of registry entry `i` for every
`i < nThyristors` and dirty is clear in `s2`; in every other case the schedule
and the dirty flag of `s2` are those of the state before the call.  The
registry is the same in `s2`.  Every completed run of the handler ends with the
schedule and the dirty flag of `s2` and with the registry unchanged; the
handler completes whenever the schedule holds an entry with delay at least 30,
and it fails to complete exactly when every entry of the schedule has a delay
below 30, in which case its immediate-fire loop reads past the end of
`pinDelay`.  The registry entries only need to be readable when a copy is
made. -/
theorem zero_cross_int_publish (s : State)
    (hnN : s.nThyristors ≤ N) (hlenP : s.pinDelay.length = N)
    (hreg : s.newDelayValues = true ∧ s.updatingStruct = false →
      ∀ i, i < s.nThyristors → (deref s i).isSome = true) :
    ∃ s1 s2 : State,
      lowLoop s.nThyristors 0 s = some s1 ∧ publish s1 = some s2 ∧
      zero_cross_int s =
        (immediateLoop s2.pinDelay { s2 with thyristorManaged := 0 }).bind armOrDisarm ∧
      s2.pinDelay.length = N ∧
      (s.newDelayValues = true ∧ s.updatingStruct = false →
        s2.newDelayValues = false ∧
        (∀ i, i < s.nThyristors →
          ∃ o, deref s i = some o ∧ s2.pinDelay[i]? = some (PinDelay.mk o.pin o.delay)) ∧
        (∀ i, s.nThyristors ≤ i → s2.pinDelay[i]? = s.pinDelay[i]?)) ∧
      (¬ (s.newDelayValues = true ∧ s.updatingStruct = false) →
        s2.newDelayValues = s.newDelayValues ∧ s2.pinDelay = s.pinDelay) ∧
      (s2.thyristors = s.thyristors ∧ s2.objs = s.objs ∧
        s2.nThyristors = s.nThyristors ∧ s2.updatingStruct = s.updatingStruct) ∧
      (∀ s', zero_cross_int s = some s' →
        s'.pinDelay = s2.pinDelay ∧ s'.newDelayValues = s2.newDelayValues ∧
        s'.thyristors = s.thyristors ∧ s'.objs = s.objs ∧
        s'.nThyristors = s.nThyristors ∧ s'.updatingStruct = s.updatingStruct) ∧
      ((∃ e ∈ s2.pinDelay, 30 ≤ e.delay) → ∃ s', zero_cross_int s = some s') ∧
      (zero_cross_int s = none ↔ ∀ e ∈ s2.pinDelay, e.delay < 30) := by
  obtain ⟨s1, hlow, hf1⟩ := lowLoop_spec s.nThyristors 0 s (by omega)
  have hpub : ∃ s2, publish s1 = some s2 ∧
      s2 = { s1 with pinDelay := s2.pinDelay, newDelayValues := s2.newDelayValues } ∧
      s2.pinDelay.length = N ∧
      (s.newDelayValues = true ∧ s.updatingStruct = false →
        s2.newDelayValues = false ∧
        (∀ i, i < s.nThyristors →
          ∃ o, deref s i = some o ∧ s2.pinDelay[i]? = some (PinDelay.mk o.pin o.delay)) ∧
        (∀ i, s.nThyristors ≤ i → s2.pinDelay[i]? = s.pinDelay[i]?)) ∧
      (¬ (s.newDelayValues = true ∧ s.updatingStruct = false) →
        s2.newDelayValues = s.newDelayValues ∧ s2.pinDelay = s.pinDelay) := by
    have e1 : s1.newDelayValues = s.newDelayValues := by rw [hf1]
    have e2 : s1.updatingStruct = s.updatingStruct := by rw [hf1]
    have e3 : s1.pinDelay = s.pinDelay := by rw [hf1]
    have e4 : s1.nThyristors = s.nThyristors := by rw [hf1]
    have e5 : ∀ j, deref s1 j = deref s j := by
      intro j; rw [hf1]; rfl
    unfold publish
    by_cases c : s.newDelayValues = true ∧ s.updatingStruct = false
    · have c' : (s1.newDelayValues && !s1.updatingStruct) = true := by
        rw [e1, e2, c.1, c.2]; rfl
      rw [if_pos c']
      obtain ⟨s2, hrun, hf2, hlen2, hpd⟩ := copyLoop_spec s1.nThyristors 0
        { s1 with newDelayValues := false }
        (by show 0 + s1.nThyristors ≤ s1.pinDelay.length; rw [e3, e4]; omega)
        (by
          intro j _ hj
          obtain ⟨o, ho⟩ := Option.isSome_iff_exists.mp (hreg c j (by omega))
          exact ⟨o, by show deref s1 j = some o; rw [e5 j]; exact ho⟩)
      refine ⟨s2, hrun, by rw [hf2], ?_, ?_, ?_⟩
      · rw [hlen2]; show s1.pinDelay.length = N; rw [e3]; exact hlenP
      · intro _
        refine ⟨by rw [hf2], ?_, ?_⟩
        · intro i hi
          obtain ⟨o, ho⟩ := Option.isSome_iff_exists.mp (hreg c i hi)
          refine ⟨o, ho, ?_⟩
          rw [hpd i, if_pos ⟨by omega, by omega⟩]
          show Option.map _ (deref s1 i) = _
          rw [e5 i, ho]
          rfl
        · intro i hi
          rw [hpd i, if_neg (by omega)]
          show s1.pinDelay[i]? = _
          rw [e3]
      · intro hc
        exact absurd c hc
    · have c' : ¬ ((s1.newDelayValues && !s1.updatingStruct) = true) := by
        rw [e1, e2]
        intro h
        apply c
        simpa using h
      rw [if_neg c']
      refine ⟨s1, rfl, rfl, by rw [e3]; exact hlenP, fun hc => absurd hc c, fun _ => ⟨e1, e3⟩⟩
  obtain ⟨s2, hrun2, hf2, hlen2, hyes, hno⟩ := hpub
  have hz : zero_cross_int s =
      (immediateLoop s2.pinDelay { s2 with thyristorManaged := 0 }).bind armOrDisarm := by
    unfold zero_cross_int
    rw [hlow]
    simp only [Option.some_bind]
    rw [hrun2]
    simp only [Option.some_bind]
  have hdone : (∃ e ∈ s2.pinDelay, 30 ≤ e.delay) → ∃ s', zero_cross_int s = some s' := by
    intro hex
    obtain ⟨s4, h4⟩ := immediateLoop_some s2.pinDelay { s2 with thyristorManaged := 0 } hex
    have f4 := immediateLoop_frame _ _ _ h4
    have hn4 : s4.nThyristors ≤ s4.pinDelay.length := by
      rw [f4]
      show s2.nThyristors ≤ s2.pinDelay.length
      rw [hlen2, hf2, hf1]
      exact hnN
    obtain ⟨s5, h5⟩ := armOrDisarm_some s4 hn4
    refine ⟨s5, ?_⟩
    rw [hz, h4]
    exact h5
  refine ⟨s1, s2, hlow, hrun2, hz, hlen2, hyes, hno, ⟨?_, ?_, ?_, ?_⟩, ?_, hdone, ?_⟩
  · show s2.thyristors = _; rw [hf2, hf1]
  · show s2.objs = _; rw [hf2, hf1]
  · show s2.nThyristors = _; rw [hf2, hf1]
  · show s2.updatingStruct = _; rw [hf2, hf1]
  · intro s' hs'
    rw [hz] at hs'
    cases h4 : immediateLoop s2.pinDelay { s2 with thyristorManaged := 0 } with
    | none => rw [h4] at hs'; cases hs'
    | some s4 =>
      rw [h4] at hs'
      simp only [Option.some_bind] at hs'
      have f4 := immediateLoop_frame _ _ _ h4
      have f5 := armOrDisarm_frame _ _ hs'
      rw [f5, f4]
      refine ⟨rfl, rfl, ?_, ?_, ?_, ?_⟩
      · show s2.thyristors = _; rw [hf2, hf1]
      · show s2.objs = _; rw [hf2, hf1]
      · show s2.nThyristors = _; rw [hf2, hf1]
      · show s2.updatingStruct = _; rw [hf2, hf1]
  · constructor
    · intro hnone e he
      by_contra hge
      obtain ⟨s', hs'⟩ := hdone ⟨e, he, by omega⟩
      rw [hnone] at hs'
      cases hs'
    · intro hall
      rw [hz, immediateLoop_none _ _ hall]
      rfl

/-! ## Concrete runs -/

/-- The state `demo3` is reached from the initial state by `demo3Calls`. -/
theorem demo3_reachable : run demo3Calls init = some demo3 := by
  decide

/-- The state `demo3Dirty` is reached from `demo3` by a further `setDelay`. -/
theorem demo3Dirty_reachable :
    run (demo3Calls ++ [Op.setDelay 0 100]) init = some demo3Dirty := by
  decide

/-- C1, witness: load A of `demo3` is moved from delay 100 to delay 700. -/
theorem setDelay_preserves_invariant_witness :
    Valid demo3 ∧ Registered demo3 0 ∧ 700 < 2 ^ 16 ∧
    ∃ s', setDelay demo3 0 700 = some s' ∧ Valid s' ∧
      getThyristorNumber s' = getThyristorNumber demo3 :=
  ⟨by decide, by decide, by decide,
    Thyristor.setDelay_preserves_invariant demo3 0 700 (by decide) (by decide) (by decide)⟩

/-- C2: after `create`, `setDelay(20000)`, `create` the registry holds the
delays 20000, 10000 in this order: it is not ascending. -/
theorem reachable_not_ascending :
    (run [Op.create 4 0, Op.setDelay 0 20000, Op.create 5 0] init).map
        (fun s => (getThyristorNumber s, delayAt s 0, delayAt s 1, decide (Ascending s))) =
      some (2, some 20000, some 10000, false) := by
  decide

/-- C3: eight constructor calls from the empty registry leave seven registered
loads; the eighth call is rejected although `nThyristors = 7 < N = 8`, and
changes neither the count nor the registry array. -/
theorem ctor_rejects_eighth_load :
    (run [Op.create 0 0, Op.create 1 0, Op.create 2 0, Op.create 3 0,
          Op.create 4 0, Op.create 5 0, Op.create 6 0] init).bind
        (fun s => (ctor s 7 0).map fun s' =>
          (getThyristorNumber s, getThyristorNumber s', decide (s'.thyristors = s.thyristors),
            s'.thyristors.getLast?)) =
      some (7, 7, true, some none) := by
  decide

/-- C4: after creating A and B and destroying A, the count is 1 and the one
remaining entry of the registry is still A (address 0); B (address 1) is not
among the first `nThyristors` entries. -/
theorem dtor_does_not_compact :
    (run [Op.create 4 0, Op.create 5 0, Op.remove 0] init).map getThyristorNumber = some 1 ∧
    (run [Op.create 4 0, Op.create 5 0, Op.remove 0] init).map loads =
      some [some (0, 4, 10000)] ∧
    (run [Op.create 4 0, Op.create 5 0, Op.remove 0] init).map
        (fun s => s.thyristors.take 2) = some [some 0, some 1] := by
  decide

/-- C5: `turnOff` on a freshly created load sets its delay to 0, whereas
`setDelay(10000)` leaves it at 10000. -/
theorem turnOff_sets_zero :
    (run [Op.create 4 0, Op.turnOff 0] init).bind (fun s => getDelay s 0) = some 0 ∧
    (run [Op.create 4 0, Op.setDelay 0 10000] init).bind (fun s => getDelay s 0) = some 10000 := by
  decide

/-- C6, witness: load B of `demo3` is set to the delay 500 it already has. -/
theorem setDelay_same_value_witness :
    Valid demo3 ∧ Registered demo3 1 ∧ getDelay demo3 1 = some 500 ∧
    setDelay demo3 1 500 =
      some { demo3 with newDelayValues := true, updatingStruct := false } :=
  ⟨by decide, by decide, by decide,
    Thyristor.setDelay_same_value demo3 1 500 (by decide) (by decide) (by decide)⟩

/-- C7, witness: load C of `demo3` is moved from delay 900 to delay 50. -/
theorem setDelay_frame_witness :
    Valid demo3 ∧ Registered demo3 2 ∧ 50 < 2 ^ 16 ∧
    ∃ s', setDelay demo3 2 50 = some s' ∧ getDelay s' 2 = some 50 ∧
      others s' 2 = others demo3 2 :=
  ⟨by decide, by decide, by decide,
    Thyristor.setDelay_frame demo3 2 50 (by decide) (by decide) (by decide)⟩

/-- C8, witness: load A of `demo3` is raised from delay 100 to delay 600. -/
theorem setDelay_increase_placement_witness :
    Valid demo3 ∧ Registered demo3 0 ∧ getDelay demo3 0 = some 100 ∧ 100 < 600 ∧
    600 < 2 ^ 16 ∧
    ∃ s' p t, setDelay demo3 0 600 = some s' ∧
      posOf demo3 0 = some p ∧ posOf s' 0 = some t ∧ addrAt s' t = some 0 ∧
      p ≤ t ∧ t < demo3.nThyristors ∧
      (∀ j, p < j → j ≤ t → ∃ x, delayAt demo3 j = some x ∧ x < 600) ∧
      (t + 1 < demo3.nThyristors →
        ∃ x, delayAt demo3 (t + 1) = some x ∧ 600 ≤ x ∧
          entry s' (t + 1) = entry demo3 (t + 1)) ∧
      (¬ (t + 1 < demo3.nThyristors) → t = demo3.nThyristors - 1) ∧
      (∀ j x, j < demo3.nThyristors → j ≠ t → delayAt s' j = some x →
        (j < t → x < 600) ∧ (t < j → 600 ≤ x)) :=
  ⟨by decide, by decide, by decide, by decide, by decide,
    Thyristor.setDelay_increase_placement demo3 0 100 600 (by decide) (by decide)
      (by decide) (by decide) (by decide)⟩

/-- C9, witness: the handler runs on `demo3Dirty`, whose dirty flag is set and
whose busy flag is clear. -/
theorem zero_cross_int_publish_witness :
    demo3Dirty.nThyristors ≤ N ∧ demo3Dirty.pinDelay.length = N ∧
    (demo3Dirty.newDelayValues = true ∧ demo3Dirty.updatingStruct = false →
      ∀ i, i < demo3Dirty.nThyristors → (deref demo3Dirty i).isSome = true) ∧
    ∃ s1 s2 : State,
      lowLoop demo3Dirty.nThyristors 0 demo3Dirty = some s1 ∧ publish s1 = some s2 ∧
      zero_cross_int demo3Dirty =
        (immediateLoop s2.pinDelay { s2 with thyristorManaged := 0 }).bind armOrDisarm ∧
      s2.pinDelay.length = N ∧
      (demo3Dirty.newDelayValues = true ∧ demo3Dirty.updatingStruct = false →
        s2.newDelayValues = false ∧
        (∀ i, i < demo3Dirty.nThyristors →
          ∃ o, deref demo3Dirty i = some o ∧
            s2.pinDelay[i]? = some (PinDelay.mk o.pin o.delay)) ∧
        (∀ i, demo3Dirty.nThyristors ≤ i → s2.pinDelay[i]? = demo3Dirty.pinDelay[i]?)) ∧
      (¬ (demo3Dirty.newDelayValues = true ∧ demo3Dirty.updatingStruct = false) →
        s2.newDelayValues = demo3Dirty.newDelayValues ∧ s2.pinDelay = demo3Dirty.pinDelay) ∧
      (s2.thyristors = demo3Dirty.thyristors ∧ s2.objs = demo3Dirty.objs ∧
        s2.nThyristors = demo3Dirty.nThyristors ∧
        s2.updatingStruct = demo3Dirty.updatingStruct) ∧
      (∀ s', zero_cross_int demo3Dirty = some s' →
        s'.pinDelay = s2.pinDelay ∧ s'.newDelayValues = s2.newDelayValues ∧
        s'.thyristors = demo3Dirty.thyristors ∧ s'.objs = demo3Dirty.objs ∧
        s'.nThyristors = demo3Dirty.nThyristors ∧
        s'.updatingStruct = demo3Dirty.updatingStruct) ∧
      ((∃ e ∈ s2.pinDelay, 30 ≤ e.delay) → ∃ s', zero_cross_int demo3Dirty = some s') ∧
      (zero_cross_int demo3Dirty = none ↔ ∀ e ∈ s2.pinDelay, e.delay < 30) :=
  ⟨by decide, by decide, by decide,
    zero_cross_int_publish demo3Dirty (by decide) (by decide) (by decide)⟩

/-- A single load set to delay 0 after its first publication: the LOW loop and
the publish block leave the schedule (4, 0), (0, 0), ..., in which every delay
is below 30, and the handler does not complete. -/
theorem publish_before_overrun :
    (run [Op.create 4 0, Op.zeroCross, Op.setDelay 0 0] init).bind
        (fun s => (lowLoop s.nThyristors 0 s).bind fun s1 =>
          (publish s1).map fun s2 => (s2.pinDelay.take 2, s2.newDelayValues)) =
      some ([⟨4, 0⟩, ⟨0, 0⟩], false) ∧
    (run [Op.create 4 0, Op.zeroCross, Op.setDelay 0 0] init).bind zero_cross_int = none := by
  decide

/-- C10: two loads with delays 20 and 10000.  The handler drives pin 4 high
itself, but the static `thyristorManaged` is still 0 afterwards and the timer
is armed with the delay 20 of the entry that was just fired.  With a single
load of delay 20 and the rest of `pinDelay` still zero, the loop reads past
the end of `pinDelay`. -/
theorem zero_cross_int_arms_timer_below_threshold :
    (run [Op.create 4 0, Op.create 5 0, Op.setDelay 0 20, Op.zeroCross] init).map
        (fun s => (s.pinDelay.take 2, s.thyristorManaged, s.out.drop 2)) =
      some ([⟨4, 20⟩, ⟨5, 10000⟩], 0,
        [Event.digitalWrite 0 Level.LOW, Event.digitalWrite 0 Level.LOW,
         Event.digitalWrite 4 Level.HIGH,
         Event.hw_timer_set_func (some Callback.activateThyristors),
         Event.hw_timer_arm 20]) ∧
    run [Op.create 4 0, Op.setDelay 0 20, Op.zeroCross] init = none := by
  decide


/-! ## The timer routine -/

theorem delayOf_eq {pd : List PinDelay} {i : Nat} {e : PinDelay} (h : pd[i]? = some e) :
    delayOf pd i = e.delay := by
  simp [delayOf, h]

theorem firesN_zero (pd : List PinDelay) (c : Nat) : firesN pd c 0 = [] := by
  simp [firesN]

theorem firesN_cons (pd : List PinDelay) (c m : Nat) (e : PinDelay) (h : pd[c]? = some e) :
    firesN pd c (m + 1) = Event.digitalWrite e.pin Level.HIGH :: firesN pd (c + 1) m := by
  have hc : c < pd.length := Thyristor.lt_length_of_getElem? h
  have he : pd[c] = e := by
    rw [List.getElem?_eq_getElem hc] at h
    exact Option.some.inj h
  unfold firesN
  rw [List.drop_eq_getElem_cons hc, List.take_succ_cons, List.map_cons, he]

theorem firesN_snoc (pd : List PinDelay) : ∀ (m c : Nat) (e : PinDelay),
    pd[c + m]? = some e →
    firesN pd c (m + 1) = firesN pd c m ++ [Event.digitalWrite e.pin Level.HIGH] := by
  intro m
  induction m with
  | zero =>
    intro c e h
    rw [firesN_cons pd c 0 e (by simpa using h), firesN_zero, firesN_zero]
    rfl
  | succ m ih =>
    intro c e h
    have hc : c < pd.length := by
      have := Thyristor.lt_length_of_getElem? h
      omega
    have h0 : pd[c]? = some pd[c] := List.getElem?_eq_getElem hc
    rw [firesN_cons pd c (m + 1) _ h0, firesN_cons pd c m _ h0,
      ih (c + 1) e (by rw [← h]; congr 1; omega)]
    rfl

theorem coalesceLoop_spec : ∀ (k : Nat) (s : State) (c : Nat),
    s.thyristorManaged = c → c + k + 1 = s.nThyristors →
    s.nThyristors ≤ s.pinDelay.length → s.nThyristors ≤ 256 →
    ∃ e, c ≤ e ∧ e ≤ c + k ∧
      (∀ j, c ≤ j → j < e → gapI s.pinDelay j < 150) ∧
      (e < c + k → 150 ≤ gapI s.pinDelay e) ∧
      coalesceLoop k s = some { s with
        thyristorManaged := e
        out := s.out ++ firesN s.pinDelay c (e - c) } := by
  intro k
  induction k with
  | zero =>
    intro s c hc _ _ _
    refine ⟨c, le_refl _, by omega, fun j h1 h2 => by omega, fun h => by omega, ?_⟩
    simp only [coalesceLoop, Nat.sub_self, firesN_zero, List.append_nil]
    rw [← hc]
  | succ k ih =>
    intro s c hc hk hlen h256
    have h1 : c + 1 < s.pinDelay.length := by omega
    have h0 : c < s.pinDelay.length := by omega
    have ea : s.pinDelay[c + 1]? = some s.pinDelay[c + 1] := List.getElem?_eq_getElem h1
    have eb : s.pinDelay[c]? = some s.pinDelay[c] := List.getElem?_eq_getElem h0
    have hg : gapI s.pinDelay c =
        (s.pinDelay[c + 1].delay : Int) - (s.pinDelay[c].delay : Int) := by
      unfold gapI
      rw [delayOf_eq ea, delayOf_eq eb]
    by_cases hlt : (s.pinDelay[c + 1].delay : Int) - (s.pinDelay[c].delay : Int) < 150
    · have hmod : (c + 1) % 256 = c + 1 := Nat.mod_eq_of_lt (by omega)
      obtain ⟨e, he1, he2, he3, he4, hrun⟩ := ih
        { s with out := s.out ++ [Event.digitalWrite s.pinDelay[c].pin Level.HIGH]
                 thyristorManaged := c + 1 } (c + 1) rfl (by show c + 1 + k + 1 = s.nThyristors; omega)
        hlen h256
      refine ⟨e, by omega, by omega, ?_, ?_, ?_⟩
      · intro j hj1 hj2
        by_cases ej : j = c
        · subst ej; rw [hg]; exact hlt
        · exact he3 j (by omega) hj2
      · intro h
        exact he4 (by omega)
      · simp only [coalesceLoop, hc, ea, eb, Option.some_bind, if_pos hlt, hmod]
        rw [hrun]
        have hm : e - c = (e - (c + 1)) + 1 := by omega
        rw [hm, firesN_cons s.pinDelay c _ _ eb]
        simp only [List.append_assoc, List.singleton_append]
    · refine ⟨c, le_refl _, by omega, fun j h1 h2 => by omega, ?_, ?_⟩
      · intro _
        rw [hg]
        omega
      · simp only [coalesceLoop, hc, ea, eb, Option.some_bind, if_neg hlt, Nat.sub_self,
          firesN_zero, List.append_nil]
        rw [← hc]

theorem toU32_of_nonneg (x : Int) (h0 : 0 ≤ x) (h1 : x < 4294967296) : toU32 x = x.toNat := by
  unfold toU32
  rw [Int.emod_eq_of_lt h0 h1]

theorem delayOf_lt (pd : List PinDelay) (h16 : ∀ x ∈ pd, x.delay < 65536) (i : Nat) :
    delayOf pd i < 65536 := by
  unfold delayOf
  cases h : pd[i]? with
  | none => simp
  | some e =>
    simp only [Option.map_some', Option.getD_some]
    exact h16 e (List.getElem?_mem h)

/-- Closed form of one run of the timer routine from Cursor `c < nThyristors`. -/
theorem activateThyristors_spec (s : State) (c : Nat)
    (hc : s.thyristorManaged = c) (hcn : c < s.nThyristors)
    (hnN : s.nThyristors ≤ N) (hlen : s.pinDelay.length = N) :
    ∃ e, c ≤ e ∧ e < s.nThyristors ∧
      (∀ j, c ≤ j → j < e → gapI s.pinDelay j < 150) ∧
      (e + 1 < s.nThyristors → 150 ≤ gapI s.pinDelay e) ∧
      activateThyristors s = some { s with
        thyristorManaged := e + 1
        out := s.out ++ fires s.pinDelay c e ++
          (if e + 1 < s.nThyristors then [Event.hw_timer_arm (toU32 (gapI s.pinDelay e))]
           else []) } := by
  have hN : N = 8 := rfl
  obtain ⟨e, he1, he2, he3, he4, hrun⟩ := coalesceLoop_spec (s.nThyristors - 1 - c) s c hc
    (by omega) (by omega) (by omega)
  have hen : e < s.nThyristors := by omega
  have hel : e < s.pinDelay.length := by omega
  have ee : s.pinDelay[e]? = some s.pinDelay[e] := List.getElem?_eq_getElem hel
  have hmod : (e + 1) % 256 = e + 1 := Nat.mod_eq_of_lt (by omega)
  have hfire : firesN s.pinDelay c (e - c) ++ [Event.digitalWrite s.pinDelay[e].pin Level.HIGH] =
      fires s.pinDelay c e := by
    have h1 : e + 1 - c = (e - c) + 1 := by omega
    show _ = firesN s.pinDelay c (e + 1 - c)
    rw [h1, firesN_snoc s.pinDelay (e - c) c s.pinDelay[e] (by rw [← ee]; congr 1; omega)]
  refine ⟨e, he1, hen, he3, fun h => he4 (by omega), ?_⟩
  unfold activateThyristors
  rw [hc, hrun]
  simp only [Option.some_bind, ee, hmod]
  by_cases harm : e + 1 < s.nThyristors
  · have h1 : e + 1 < s.pinDelay.length := by omega
    have ea : s.pinDelay[e + 1]? = some s.pinDelay[e + 1] := List.getElem?_eq_getElem h1
    have hg : gapI s.pinDelay e =
        (s.pinDelay[e + 1].delay : Int) - (s.pinDelay[e].delay : Int) := by
      unfold gapI
      rw [delayOf_eq ea, delayOf_eq ee]
    have hne : ¬ (e + 1 = 0) := by omega
    simp only [if_pos harm, ea, Option.some_bind, if_neg hne, Nat.add_sub_cancel, ee, hg,
      List.append_assoc, ← hfire]
  · simp only [if_neg harm, List.append_nil, ← hfire, List.append_assoc]


theorem specCoalesce_spec : ∀ (k : Nat) (s : State) (c : Nat),
    s.thyristorManaged = c + 1 → c + 1 + k = s.nThyristors →
    s.nThyristors ≤ s.pinDelay.length →
    ∃ e, c ≤ e ∧ e ≤ c + k ∧
      (∀ j, c ≤ j → j < e → gapI s.pinDelay j < 150) ∧
      (e < c + k → 150 ≤ gapI s.pinDelay e) ∧
      specCoalesce k s = some { s with
        thyristorManaged := e + 1
        out := s.out ++ firesN s.pinDelay (c + 1) (e - c) } := by
  intro k
  induction k with
  | zero =>
    intro s c hc _ _
    refine ⟨c, le_refl _, by omega, fun j h1 h2 => by omega, fun h => by omega, ?_⟩
    simp only [specCoalesce, Nat.sub_self, firesN_zero, List.append_nil]
    rw [← hc]
  | succ k ih =>
    intro s c hc hk hlen
    have h1 : c + 1 < s.pinDelay.length := by omega
    have h0 : c < s.pinDelay.length := by omega
    have ea : s.pinDelay[c + 1]? = some s.pinDelay[c + 1] := List.getElem?_eq_getElem h1
    have eb : s.pinDelay[c]? = some s.pinDelay[c] := List.getElem?_eq_getElem h0
    have hg : gapI s.pinDelay c =
        (s.pinDelay[c + 1].delay : Int) - (s.pinDelay[c].delay : Int) := by
      unfold gapI
      rw [delayOf_eq ea, delayOf_eq eb]
    by_cases hlt : (s.pinDelay[c + 1].delay : Int) - (s.pinDelay[c].delay : Int) < 150
    · obtain ⟨e, he1, he2, he3, he4, hrun⟩ := ih
        { s with out := s.out ++ [Event.digitalWrite s.pinDelay[c + 1].pin Level.HIGH]
                 thyristorManaged := c + 1 + 1 } (c + 1) rfl
        (by show c + 1 + 1 + k = s.nThyristors; omega) hlen
      refine ⟨e, by omega, by omega, ?_, ?_, ?_⟩
      · intro j hj1 hj2
        by_cases ej : j = c
        · subst ej; rw [hg]; exact hlt
        · exact he3 j (by omega) hj2
      · intro h
        exact he4 (by omega)
      · simp only [specCoalesce, hc, ea, Nat.add_sub_cancel, eb, Option.some_bind, if_pos hlt]
        rw [hrun]
        have hm : e - c = (e - (c + 1)) + 1 := by omega
        rw [hm, firesN_cons s.pinDelay (c + 1) _ _ ea]
        simp only [List.append_assoc, List.singleton_append]
    · refine ⟨c, le_refl _, by omega, fun j h1 h2 => by omega, ?_, ?_⟩
      · intro _
        rw [hg]
        omega
      · simp only [specCoalesce, hc, ea, Nat.add_sub_cancel, eb, Option.some_bind, if_neg hlt,
          Nat.sub_self, firesN_zero, List.append_nil]
        rw [← hc]

theorem specCascade_spec (s : State) (c : Nat)
    (hc : s.thyristorManaged = c) (hcn : c < s.nThyristors)
    (hnN : s.nThyristors ≤ N) (hlen : s.pinDelay.length = N) :
    ∃ e, c ≤ e ∧ e < s.nThyristors ∧
      (∀ j, c ≤ j → j < e → gapI s.pinDelay j < 150) ∧
      (e + 1 < s.nThyristors → 150 ≤ gapI s.pinDelay e) ∧
      specCascade s = some { s with
        thyristorManaged := e + 1
        out := s.out ++ fires s.pinDelay c e ++
          (if e + 1 < s.nThyristors then [Event.hw_timer_arm (gapI s.pinDelay e).toNat]
           else []) } := by
  have hN : N = 8 := rfl
  have hcl : c < s.pinDelay.length := by omega
  have ec : s.pinDelay[c]? = some s.pinDelay[c] := List.getElem?_eq_getElem hcl
  obtain ⟨e, he1, he2, he3, he4, hrun⟩ := specCoalesce_spec (s.nThyristors - (c + 1))
    { s with out := s.out ++ [Event.digitalWrite s.pinDelay[c].pin Level.HIGH]
             thyristorManaged := c + 1 } c rfl
    (by show c + 1 + (s.nThyristors - (c + 1)) = s.nThyristors; omega)
    (by show s.nThyristors ≤ s.pinDelay.length; omega)
  have hen : e < s.nThyristors := by omega
  have hel : e < s.pinDelay.length := by omega
  have ee : s.pinDelay[e]? = some s.pinDelay[e] := List.getElem?_eq_getElem hel
  have hfire : Event.digitalWrite s.pinDelay[c].pin Level.HIGH :: firesN s.pinDelay (c + 1) (e - c) =
      fires s.pinDelay c e := by
    have h1 : e + 1 - c = (e - c) + 1 := by omega
    show _ = firesN s.pinDelay c (e + 1 - c)
    rw [h1, firesN_cons s.pinDelay c _ _ ec]
  refine ⟨e, he1, hen, he3, fun h => he4 (by omega), ?_⟩
  unfold specCascade
  rw [hc]
  simp only [ec, Option.some_bind]
  rw [hrun]
  simp only [Option.some_bind]
  by_cases harm : e + 1 < s.nThyristors
  · have h1 : e + 1 < s.pinDelay.length := by omega
    have ea : s.pinDelay[e + 1]? = some s.pinDelay[e + 1] := List.getElem?_eq_getElem h1
    have hg : gapI s.pinDelay e =
        (s.pinDelay[e + 1].delay : Int) - (s.pinDelay[e].delay : Int) := by
      unfold gapI
      rw [delayOf_eq ea, delayOf_eq ee]
    simp only [if_pos harm, ea, Option.some_bind, Nat.add_sub_cancel, ee, hg,
      List.append_assoc, ← hfire, List.singleton_append]
  · simp only [if_neg harm, List.append_nil, ← hfire, List.append_assoc, List.singleton_append]

theorem coalesce_end_unique (pd : List PinDelay) (n c e1 e2 : Nat)
    (h1 : ∀ j, c ≤ j → j < e1 → gapI pd j < 150) (h1' : e1 + 1 < n → 150 ≤ gapI pd e1)
    (h2 : ∀ j, c ≤ j → j < e2 → gapI pd j < 150) (h2' : e2 + 1 < n → 150 ≤ gapI pd e2)
    (hc1 : c ≤ e1) (hc2 : c ≤ e2) (hn1 : e1 < n) (hn2 : e2 < n) : e1 = e2 := by
  rcases Nat.lt_trichotomy e1 e2 with h | h | h
  · have a := h2 e1 hc1 h
    have b := h1' (by omega)
    omega
  · exact h
  · have a := h1 e2 hc2 h
    have b := h2' (by omega)
    omega

theorem toU32_gap (pd : List PinDelay) (h16 : ∀ x ∈ pd, x.delay < 65536) (e : Nat)
    (hg : 150 ≤ gapI pd e) :
    toU32 (gapI pd e) = delayOf pd (e + 1) - delayOf pd e ∧
    (gapI pd e).toNat = delayOf pd (e + 1) - delayOf pd e ∧
    150 ≤ delayOf pd (e + 1) - delayOf pd e := by
  have a := delayOf_lt pd h16 (e + 1)
  have b := delayOf_lt pd h16 e
  unfold gapI at hg ⊢
  rw [toU32_of_nonneg _ (by omega) (by omega)]
  omega

/-- C12: from a Cursor `c` below the count, `activateThyristors` drives high,
in index order, exactly the pins of the entries `c..e`, where `e` is the least
index from `c` on with `e = count-1` or `delay[e+1] - delay[e] >= 150`; it
leaves the Cursor at `e+1` and re-arms the timer with `delay[e+1] - delay[e]`
if `e+1 < count`, and does not arm it otherwise.  The specification's
algorithm `specCascade` gives the same result. -/
theorem activateThyristors_refines_spec (s : State) (c : Nat)
    (hc : s.thyristorManaged = c) (hcn : c < s.nThyristors)
    (hnN : s.nThyristors ≤ N) (hlen : s.pinDelay.length = N)
    (h16 : Word16 s.pinDelay) (hasc : Ascends s.pinDelay s.nThyristors) :
    ∃ e, c ≤ e ∧ e < s.nThyristors ∧
      (e = s.nThyristors - 1 ∨ 150 ≤ gapI s.pinDelay e) ∧
      (∀ j, c ≤ j → j < e → ¬ (j = s.nThyristors - 1 ∨ 150 ≤ gapI s.pinDelay j)) ∧
      activateThyristors s = some { s with
        thyristorManaged := e + 1
        out := s.out ++ fires s.pinDelay c e ++
          (if e + 1 < s.nThyristors then
            [Event.hw_timer_arm (delayOf s.pinDelay (e + 1) - delayOf s.pinDelay e)]
           else []) } ∧
      specCascade s = activateThyristors s := by
  obtain ⟨e, he1, he2, he3, he4, hrun⟩ := activateThyristors_spec s c hc hcn hnN hlen
  obtain ⟨e', he1', he2', he3', he4', hrun'⟩ := specCascade_spec s c hc hcn hnN hlen
  have hee : e' = e := coalesce_end_unique s.pinDelay s.nThyristors c e' e he3' he4' he3 he4
    he1' he1 he2' he2
  subst hee
  have harmeq : (if e' + 1 < s.nThyristors then [Event.hw_timer_arm (toU32 (gapI s.pinDelay e'))]
      else []) = (if e' + 1 < s.nThyristors then
        [Event.hw_timer_arm (delayOf s.pinDelay (e' + 1) - delayOf s.pinDelay e')] else []) := by
    by_cases h : e' + 1 < s.nThyristors
    · rw [if_pos h, if_pos h, (toU32_gap s.pinDelay h16 e' (he4 h)).1]
    · rw [if_neg h, if_neg h]
  have harmeq' : (if e' + 1 < s.nThyristors then
      [Event.hw_timer_arm (gapI s.pinDelay e').toNat] else []) =
      (if e' + 1 < s.nThyristors then
        [Event.hw_timer_arm (delayOf s.pinDelay (e' + 1) - delayOf s.pinDelay e')] else []) := by
    by_cases h : e' + 1 < s.nThyristors
    · rw [if_pos h, if_pos h, (toU32_gap s.pinDelay h16 e' (he4 h)).2.1]
    · rw [if_neg h, if_neg h]
  refine ⟨e', he1, he2, ?_, ?_, ?_, ?_⟩
  · by_cases h : e' + 1 < s.nThyristors
    · exact Or.inr (he4 h)
    · exact Or.inl (by omega)
  · intro j hj1 hj2 hcon
    rcases hcon with h | h
    · omega
    · have := he3 j hj1 hj2
      omega
  · rw [hrun, harmeq]
  · rw [hrun, hrun', harmeq, harmeq']

theorem coalesceLoop_partial : ∀ (k : Nat) (s s1 : State),
    coalesceLoop k s = some s1 → s.thyristorManaged + k < 256 →
    ∃ evs, s1 = { s with thyristorManaged := s1.thyristorManaged, out := s.out ++ evs } ∧
      (∀ v, Event.hw_timer_arm v ∉ evs) ∧
      s.thyristorManaged ≤ s1.thyristorManaged ∧ s1.thyristorManaged ≤ s.thyristorManaged + k ∧
      (s1.thyristorManaged < s.thyristorManaged + k → 150 ≤ gapI s.pinDelay s1.thyristorManaged) := by
  intro k
  induction k with
  | zero =>
    intro s s1 h _
    simp only [coalesceLoop, Option.some.injEq] at h
    subst h
    exact ⟨[], by simp, by simp, le_refl _, by omega, fun h => by omega⟩
  | succ k ih =>
    intro s s1 h hb
    unfold coalesceLoop at h
    cases ha : s.pinDelay[s.thyristorManaged + 1]? with
    | none => rw [ha] at h; cases h
    | some a =>
      cases hb' : s.pinDelay[s.thyristorManaged]? with
      | none => rw [ha, hb'] at h; cases h
      | some b =>
        rw [ha, hb'] at h
        simp only [Option.some_bind] at h
        have hg : gapI s.pinDelay s.thyristorManaged = (a.delay : Int) - (b.delay : Int) := by
          unfold gapI
          rw [delayOf_eq ha, delayOf_eq hb']
        by_cases hlt : (a.delay : Int) - (b.delay : Int) < 150
        · rw [if_pos hlt] at h
          have hmod : (s.thyristorManaged + 1) % 256 = s.thyristorManaged + 1 :=
            Nat.mod_eq_of_lt (by omega)
          rw [hmod] at h
          obtain ⟨evs, hf, hno, h1, h2, h3⟩ := ih _ s1 h (by show s.thyristorManaged + 1 + k < 256; omega)
          refine ⟨Event.digitalWrite b.pin Level.HIGH :: evs, ?_, ?_, ?_, ?_, ?_⟩
          · rw [hf]
            simp only [List.append_assoc, List.singleton_append]
          · intro v hv
            rcases List.mem_cons.mp hv with e | e
            · cases e
            · exact hno v e
          · have : s.thyristorManaged + 1 ≤ s1.thyristorManaged := h1
            omega
          · have : s1.thyristorManaged ≤ s.thyristorManaged + 1 + k := h2
            omega
          · intro hh
            exact h3 (by show s1.thyristorManaged < s.thyristorManaged + 1 + k; omega)
        · rw [if_neg hlt] at h
          cases h
          refine ⟨[], by simp, by simp, le_refl _, by omega, ?_⟩
          intro _
          rw [hg]
          omega

/-- C20: whenever `activateThyristors` re-arms the timer, the interval it
passes to `hw_timer_arm` is `delay[Cursor] - delay[Cursor-1]` on the final
Cursor and is at least 150; and the routine completes from every Cursor and
count inside the schedule array. -/
theorem activateThyristors_rearm_at_least_150 (s : State)
    (h8n : s.nThyristors < 256) (h8c : s.thyristorManaged < 256)
    (h16 : Word16 s.pinDelay) :
    (∀ s', activateThyristors s = some s' →
      ∃ evs, s'.out = s.out ++ evs ∧
        ∀ v, Event.hw_timer_arm v ∈ evs →
          150 ≤ v ∧ 1 ≤ s'.thyristorManaged ∧
          v = delayOf s.pinDelay s'.thyristorManaged -
              delayOf s.pinDelay (s'.thyristorManaged - 1)) ∧
    (s.pinDelay.length = N → s.nThyristors ≤ N → s.thyristorManaged < N →
      ∃ s', activateThyristors s = some s') := by
  constructor
  · intro s' hrun
    unfold activateThyristors at hrun
    cases h1 : coalesceLoop (s.nThyristors - 1 - s.thyristorManaged) s with
    | none => rw [h1] at hrun; cases hrun
    | some s1 =>
      rw [h1] at hrun
      simp only [Option.some_bind] at hrun
      obtain ⟨evs, hf, hno, hle1, hle2, hexit⟩ := coalesceLoop_partial _ s s1 h1 (by omega)
      have hpd : s1.pinDelay = s.pinDelay := by rw [hf]
      have hn : s1.nThyristors = s.nThyristors := by rw [hf]
      have hout : s1.out = s.out ++ evs := by rw [hf]
      cases he : s1.pinDelay[s1.thyristorManaged]? with
      | none => rw [he] at hrun; cases hrun
      | some x =>
        rw [he] at hrun
        simp only [Option.some_bind] at hrun
        by_cases harm : (s1.thyristorManaged + 1) % 256 < s1.nThyristors
        · rw [if_pos harm] at hrun
          cases ha : s1.pinDelay[(s1.thyristorManaged + 1) % 256]? with
          | none => rw [ha] at hrun; cases hrun
          | some a =>
            rw [ha] at hrun
            simp only [Option.some_bind] at hrun
            by_cases hz : (s1.thyristorManaged + 1) % 256 = 0
            · rw [if_pos hz] at hrun; cases hrun
            · rw [if_neg hz] at hrun
              cases hb : s1.pinDelay[(s1.thyristorManaged + 1) % 256 - 1]? with
              | none => rw [hb] at hrun; cases hrun
              | some b =>
                rw [hb] at hrun
                simp only [Option.some_bind, Option.some.injEq] at hrun
                have hmod : (s1.thyristorManaged + 1) % 256 = s1.thyristorManaged + 1 := by
                  omega
                rw [hmod] at harm ha hb
                simp only [Nat.add_sub_cancel] at hb
                rw [hpd] at ha hb
                have hg : gapI s.pinDelay s1.thyristorManaged =
                    (a.delay : Int) - (b.delay : Int) := by
                  unfold gapI
                  rw [delayOf_eq ha, delayOf_eq hb]
                have hge : 150 ≤ gapI s.pinDelay s1.thyristorManaged :=
                  hexit (by omega)
                have hu := toU32_gap s.pinDelay h16 s1.thyristorManaged hge
                refine ⟨evs ++ [Event.digitalWrite x.pin Level.HIGH,
                  Event.hw_timer_arm (toU32 ((a.delay : Int) - (b.delay : Int)))], ?_, ?_⟩
                · rw [← hrun]
                  simp only [hout, List.append_assoc, List.singleton_append]
                · intro v hv
                  have hv' : v = toU32 ((a.delay : Int) - (b.delay : Int)) := by
                    rcases List.mem_append.mp hv with h | h
                    · exact absurd h (hno v)
                    · rcases List.mem_cons.mp h with e | e
                      · cases e
                      · rcases List.mem_cons.mp e with e2 | e2
                        · exact Event.hw_timer_arm.inj e2
                        · cases e2
                  have htm : s'.thyristorManaged = s1.thyristorManaged + 1 := by
                    rw [← hrun]
                    exact hmod
                  rw [hv', ← hg, hu.1, htm, Nat.add_sub_cancel]
                  exact ⟨hu.2.2, by omega, rfl⟩
        · rw [if_neg harm] at hrun
          simp only [Option.some.injEq] at hrun
          refine ⟨evs ++ [Event.digitalWrite x.pin Level.HIGH], ?_, ?_⟩
          · rw [← hrun]
            simp only [hout, List.append_assoc]
          · intro v hv
            rcases List.mem_append.mp hv with h | h
            · exact absurd h (hno v)
            · simp at h
  · intro hlen hnN hcN
    have hN : N = 8 := rfl
    by_cases hcn : s.thyristorManaged < s.nThyristors
    · obtain ⟨e, _, _, _, _, hrun⟩ := activateThyristors_spec s _ rfl hcn hnN hlen
      exact ⟨_, hrun⟩
    · have hk : s.nThyristors - 1 - s.thyristorManaged = 0 := by omega
      have hx : s.pinDelay[s.thyristorManaged]? = some s.pinDelay[s.thyristorManaged] :=
        List.getElem?_eq_getElem (by omega)
      have hmod : (s.thyristorManaged + 1) % 256 = s.thyristorManaged + 1 :=
        Nat.mod_eq_of_lt (by omega)
      have hna : ¬ (s.thyristorManaged + 1 < s.nThyristors) := by omega
      unfold activateThyristors
      rw [hk]
      simp only [coalesceLoop, Option.some_bind, hx, hmod, if_neg hna]
      exact ⟨_, rfl⟩


/-! ## One half-cycle -/

theorem lowLoop_out : ∀ (k i : Nat) (s : State), i + k ≤ s.pinDelay.length →
    lowLoop k i s = some { s with
      out := s.out ++ ((s.pinDelay.drop i).take k).map
        fun x => Event.digitalWrite x.pin Level.LOW } := by
  intro k
  induction k with
  | zero => intro i s _; simp [lowLoop]
  | succ k ih =>
    intro i s hlen
    have hi : i < s.pinDelay.length := by omega
    simp only [lowLoop, List.getElem?_eq_getElem hi, Option.some_bind]
    rw [ih (i + 1) _ (by show i + 1 + k ≤ s.pinDelay.length; omega)]
    simp only [List.drop_eq_getElem_cons hi, List.take_succ_cons, List.map_cons,
      List.append_assoc, List.singleton_append]

theorem copyLoop_out : ∀ (k i : Nat) (s : State) (o : List Event),
    copyLoop k i { s with out := o } =
      (copyLoop k i s).map fun s2 => { s2 with out := o } := by
  intro k
  induction k with
  | zero => intro i s o; rfl
  | succ k ih =>
    intro i s o
    have hd : deref { s with out := o } i = deref s i := rfl
    simp only [copyLoop, hd]
    cases h : deref s i with
    | none => rfl
    | some t =>
      simp only [Option.some_bind]
      by_cases hi : i < s.pinDelay.length
      · rw [if_pos hi, if_pos hi]
        exact ih (i + 1) { s with pinDelay := s.pinDelay.set i ⟨t.pin, t.delay⟩ } o
      · rw [if_neg hi, if_neg hi]
        rfl

theorem publish_out (s : State) (o : List Event) :
    publish { s with out := o } = (publish s).map fun s2 => { s2 with out := o } := by
  unfold publish
  by_cases c : (s.newDelayValues && !s.updatingStruct) = true
  · rw [if_pos c, if_pos c]
    exact copyLoop_out s.nThyristors 0 { s with newDelayValues := false } o
  · rw [if_neg c, if_neg c]
    rfl

theorem copyLoop_frame : ∀ (k i : Nat) (s s' : State), copyLoop k i s = some s' →
    s' = { s with pinDelay := s'.pinDelay } ∧ s'.pinDelay.length = s.pinDelay.length := by
  intro k
  induction k with
  | zero =>
    intro i s s' h
    simp only [copyLoop, Option.some.injEq] at h
    subst h
    exact ⟨rfl, rfl⟩
  | succ k ih =>
    intro i s s' h
    unfold copyLoop at h
    cases hd : deref s i with
    | none => rw [hd] at h; cases h
    | some t =>
      rw [hd] at h
      simp only [Option.some_bind] at h
      by_cases hi : i < s.pinDelay.length
      · rw [if_pos hi] at h
        obtain ⟨h1, h2⟩ := ih _ _ _ h
        refine ⟨by rw [h1], ?_⟩
        rw [h2]
        show (s.pinDelay.set i _).length = _
        rw [List.length_set]
      · rw [if_neg hi] at h
        cases h

theorem publish_frame (s s2 : State) (h : publish s = some s2) :
    s2 = { s with pinDelay := s2.pinDelay, newDelayValues := s2.newDelayValues } ∧
    s2.pinDelay.length = s.pinDelay.length ∧
    (¬ (s.newDelayValues = true ∧ s.updatingStruct = false) → s2 = s) := by
  unfold publish at h
  by_cases c : (s.newDelayValues && !s.updatingStruct) = true
  · rw [if_pos c] at h
    obtain ⟨h1, h2⟩ := copyLoop_frame _ _ _ _ h
    refine ⟨by rw [h1], h2, ?_⟩
    intro hc
    exact absurd (by simpa using c) hc
  · rw [if_neg c] at h
    cases h
    exact ⟨rfl, rfl, fun _ => rfl⟩

/-- The handler as its first loop and publish block followed by the
immediate-fire loop and the arming decision. -/
theorem zero_cross_int_eq (s s2 : State) (hn : s.nThyristors ≤ s.pinDelay.length)
    (hpub : publish s = some s2) :
    zero_cross_int s =
      (immediateLoop s2.pinDelay { s2 with
        thyristorManaged := 0
        out := s.out ++ (s.pinDelay.take s.nThyristors).map
          fun x => Event.digitalWrite x.pin Level.LOW }).bind armOrDisarm := by
  unfold zero_cross_int
  rw [lowLoop_out s.nThyristors 0 s (by omega)]
  simp only [Option.some_bind, List.drop_zero]
  rw [publish_out, hpub]
  rfl

theorem immediateLoop_stop (l : List PinDelay) (s : State) (e : PinDelay)
    (h0 : l[0]? = some e) (h30 : 30 ≤ e.delay) : immediateLoop l s = some s := by
  cases l with
  | nil => simp at h0
  | cons x rest =>
    simp only [List.getElem?_cons_zero, Option.some.injEq] at h0
    subst h0
    unfold immediateLoop
    rw [if_neg (by omega)]

theorem pinStep_lows (pin : Nat) : ∀ (pd : List PinDelay),
    (pd.map fun x => Event.digitalWrite x.pin Level.LOW).foldl (pinStep pin) (some Level.LOW) =
      some Level.LOW := by
  intro pd
  induction pd with
  | nil => rfl
  | cons x rest ih =>
    rw [List.map_cons, List.foldl_cons]
    have e : pinStep pin (some Level.LOW) (Event.digitalWrite x.pin Level.LOW) =
        some Level.LOW := by
      show (if x.pin = pin then some Level.LOW else some Level.LOW) = some Level.LOW
      split_ifs <;> rfl
    rw [e]
    exact ih

theorem pinLevel_lows (l : List Event) (f : Option Callback) (pin : Nat) :
    ∀ (pd : List PinDelay), (∃ x ∈ pd, x.pin = pin) →
    pinLevel (l ++ (pd.map fun x => Event.digitalWrite x.pin Level.LOW) ++
      [Event.hw_timer_set_func f]) pin = some Level.LOW := by
  intro pd h
  unfold pinLevel
  rw [List.foldl_append, List.foldl_append]
  generalize List.foldl (pinStep pin) none l = acc
  have key : (pd.map fun x => Event.digitalWrite x.pin Level.LOW).foldl (pinStep pin) acc =
      some Level.LOW := by
    induction pd generalizing acc with
    | nil => obtain ⟨x, hx, _⟩ := h; cases hx
    | cons x rest ih =>
      rw [List.map_cons, List.foldl_cons]
      by_cases c : x.pin = pin
      · have e : pinStep pin acc (Event.digitalWrite x.pin Level.LOW) = some Level.LOW := by
          show (if x.pin = pin then some Level.LOW else acc) = some Level.LOW
          rw [if_pos c]
        rw [e]
        exact pinStep_lows pin rest
      · have e : pinStep pin acc (Event.digitalWrite x.pin Level.LOW) = acc := by
          show (if x.pin = pin then some Level.LOW else acc) = acc
          rw [if_neg c]
        rw [e]
        apply ih
        obtain ⟨y, hy, hyp⟩ := h
        rcases List.mem_cons.mp hy with rfl | hm
        · exact absurd hyp c
        · exact ⟨y, hm, hyp⟩
  rw [key]
  rfl

/-- C11 (amended): when the first entry of the schedule the handler works on
(`pinDelay` after the publish block, state `s2`) has a delay of at least 9950,
`zero_cross_int` drives low the pins of the first `nThyristors` entries of
`pinDelay` as it was on entry, drives no pin high, does not arm the timer and
deregisters the timer callback; no timer expiry follows in the half-cycle, and
each of the pins that were driven low is low at its end.  When no copy is made
in the call, the schedule is the one held on entry, so these are the scheduled
pins. -/
theorem zero_cross_int_safety_margin (s s2 : State) (e : PinDelay)
    (hn1 : 1 ≤ s.nThyristors) (hnN : s.nThyristors ≤ N) (hlenP : s.pinDelay.length = N)
    (hpub : publish s = some s2) (h0 : s2.pinDelay[0]? = some e) (hge : 9950 ≤ e.delay) :
    zero_cross_int s = some { s2 with
      thyristorManaged := 0
      out := s.out ++ ((s.pinDelay.take s.nThyristors).map
        fun x => Event.digitalWrite x.pin Level.LOW) ++ [Event.hw_timer_set_func none] } ∧
    (¬ (s.newDelayValues = true ∧ s.updatingStruct = false) → s2.pinDelay = s.pinDelay) ∧
    (∀ k, halfCycle k s = some ([], { s2 with
      thyristorManaged := 0
      out := s.out ++ ((s.pinDelay.take s.nThyristors).map
        fun x => Event.digitalWrite x.pin Level.LOW) ++ [Event.hw_timer_set_func none] })) ∧
    (∀ k r, halfCycle k s = some r →
      ∀ x ∈ s.pinDelay.take s.nThyristors, pinLevel r.2.out x.pin = some Level.LOW) := by
  obtain ⟨hf, _, hsame⟩ := publish_frame s s2 hpub
  have hn2 : s2.nThyristors = s.nThyristors := by rw [hf]
  have hz : zero_cross_int s = some { s2 with
      thyristorManaged := 0
      out := s.out ++ ((s.pinDelay.take s.nThyristors).map
        fun x => Event.digitalWrite x.pin Level.LOW) ++ [Event.hw_timer_set_func none] } := by
    rw [zero_cross_int_eq s s2 (by omega) hpub, immediateLoop_stop _ _ e h0 (by omega)]
    simp only [Option.some_bind]
    unfold armOrDisarm
    have hlt : (0 : Nat) < s2.nThyristors := by omega
    have hnot : ¬ (e.delay < 9950) := by omega
    simp only [hlt, if_true, h0, Option.some_bind, if_neg hnot]
  have hhc : ∀ k, halfCycle k s = some ([], { s2 with
      thyristorManaged := 0
      out := s.out ++ ((s.pinDelay.take s.nThyristors).map
        fun x => Event.digitalWrite x.pin Level.LOW) ++ [Event.hw_timer_set_func none] }) := by
    intro k
    unfold halfCycle
    rw [hz, Option.some_bind]
    cases k with
    | zero => rfl
    | succ k =>
      unfold timerSteps
      have hp : pendingArm (s.out ++ ((s.pinDelay.take s.nThyristors).map
          fun x => Event.digitalWrite x.pin Level.LOW) ++ [Event.hw_timer_set_func none]) =
          none := by
        unfold pendingArm
        rw [List.getLast?_concat]
      simp only [hp]
  refine ⟨hz, fun h => by rw [hsame h], hhc, ?_⟩
  intro k r hr x hx
  rw [hhc k] at hr
  cases hr
  exact pinLevel_lows s.out none x.pin _ ⟨x, hx, rfl⟩


theorem installed_append (l1 l2 : List Event)
    (h : ∀ ev ∈ l2, ∀ f, ev ≠ Event.hw_timer_set_func f) :
    installed (l1 ++ l2) = installed l1 := by
  unfold installed
  rw [List.foldl_append]
  generalize List.foldl _ none l1 = cb
  induction l2 generalizing cb with
  | nil => rfl
  | cons ev rest ih =>
    rw [List.foldl_cons]
    have hrest : ∀ ev' ∈ rest, ∀ f, ev' ≠ Event.hw_timer_set_func f :=
      fun ev' hm => h ev' (List.mem_cons_of_mem _ hm)
    cases ev with
    | hw_timer_set_func f => exact absurd rfl (h _ (List.mem_cons_self _ _) f)
    | pinMode _ => exact ih hrest cb
    | digitalWrite _ _ => exact ih hrest cb
    | hw_timer_arm _ => exact ih hrest cb

theorem installed_set (l : List Event) (f : Option Callback) (v : Nat) :
    installed (l ++ [Event.hw_timer_set_func f, Event.hw_timer_arm v]) = f := by
  unfold installed
  rw [List.foldl_append]
  rfl

theorem fires_no_set (pd : List PinDelay) (c e : Nat) :
    ∀ ev ∈ fires pd c e, ∀ f, ev ≠ Event.hw_timer_set_func f := by
  intro ev hev f
  unfold fires at hev
  obtain ⟨x, _, hx⟩ := List.mem_map.mp hev
  rw [← hx]
  intro h
  cases h

theorem pendingArm_arm (l : List Event) (v : Nat) :
    pendingArm (l ++ [Event.hw_timer_arm v]) = some v := by
  unfold pendingArm
  rw [List.getLast?_concat]

theorem pendingArm_fires (l : List Event) (pd : List PinDelay) (c e : Nat)
    (hce : c ≤ e) (he : e < pd.length) : pendingArm (l ++ fires pd c e) = none := by
  have ee : pd[c + (e - c)]? = some pd[e] := by
    rw [← List.getElem?_eq_getElem he]
    congr 1
    omega
  have h1 : e + 1 - c = (e - c) + 1 := by omega
  have hf : fires pd c e = firesN pd c (e - c) ++ [Event.digitalWrite pd[e].pin Level.HIGH] := by
    show firesN pd c (e + 1 - c) = _
    rw [h1, firesN_snoc pd (e - c) c pd[e] ee]
  unfold pendingArm
  rw [hf, ← List.append_assoc, List.getLast?_concat]

theorem delayOf_mono (pd : List PinDelay) (n : Nat)
    (hasc : ∀ j, j + 1 < n → delayOf pd j ≤ delayOf pd (j + 1)) :
    ∀ (k i : Nat), i + k < n → delayOf pd i ≤ delayOf pd (i + k) := by
  intro k
  induction k with
  | zero => intro i _; exact le_refl _
  | succ k ih =>
    intro i h
    have h1 := ih i (by omega)
    have h2 := hasc (i + k) (by omega)
    exact le_trans h1 h2

theorem timerSteps_drift (pd : List PinDelay) (n : Nat)
    (h16 : ∀ x ∈ pd, x.delay < 65536)
    (hasc : ∀ j, j + 1 < n → delayOf pd j ≤ delayOf pd (j + 1)) :
    ∀ (k : Nat) (s : State) (t D : Nat),
      s.pinDelay = pd → s.nThyristors = n → n ≤ N → pd.length = N →
      installed s.out = some Callback.activateThyristors →
      (∀ v, pendingArm s.out = some v →
        s.thyristorManaged < n ∧ t + v + D = delayOf pd s.thyristorManaged) →
      ∃ log s', timerSteps k s t = some (log, s') ∧
        ∀ i r, log[i]? = some r →
          r.time + D + ((log.take i).map (advance pd)).sum = delayOf pd r.cursor := by
  intro k
  induction k with
  | zero =>
    intro s t D _ _ _ _ _ _
    refine ⟨[], s, rfl, ?_⟩
    intro i r h
    simp at h
  | succ k ih =>
    intro s t D hpd hn hnN hlen hinst hpend
    cases hp : pendingArm s.out with
    | none =>
      refine ⟨[], s, ?_, ?_⟩
      · simp only [timerSteps, hp]
      · intro i r h
        simp at h
    | some v =>
      obtain ⟨hcn, hsum⟩ := hpend v hp
      obtain ⟨e, he1, he2, he3, he4, hrun⟩ := activateThyristors_spec s s.thyristorManaged rfl
        (by rw [hn]; exact hcn) (by rw [hn]; exact hnN) (by rw [hpd]; exact hlen)
      rw [hn] at he2
      rw [hpd] at he3
      rw [hpd, hn] at he4 hrun
      set c := s.thyristorManaged with hcdef
      set s' : State :=
        { objs := s.objs, thyristors := s.thyristors, nThyristors := n,
          newDelayValues := s.newDelayValues, updatingStruct := s.updatingStruct,
          pinDelay := pd, thyristorManaged := e + 1,
          out := s.out ++ fires pd c e ++
            (if e + 1 < n then [Event.hw_timer_arm (toU32 (gapI pd e))] else []) } with hs'
      have hN : N = 8 := rfl
      have hmono1 : delayOf pd c ≤ delayOf pd e := by
        have := delayOf_mono pd n hasc (e - c) c (by omega)
        rwa [show c + (e - c) = e by omega] at this
      have hinst' : installed s'.out = some Callback.activateThyristors := by
        show installed (s.out ++ fires pd c e ++ _) = _
        rw [installed_append, installed_append _ _ (fires_no_set pd c e), hinst]
        intro ev hev f
        split_ifs at hev with h
        · rw [List.mem_singleton.mp hev]
          intro hh
          cases hh
        · cases hev
      have hpend' : ∀ v', pendingArm s'.out = some v' →
          s'.thyristorManaged < n ∧
            t + v + v' + (D + (delayOf pd e - delayOf pd c)) = delayOf pd s'.thyristorManaged := by
        intro v' hv'
        by_cases harm : e + 1 < n
        · have hout : s'.out = (s.out ++ fires pd c e) ++ [Event.hw_timer_arm (toU32 (gapI pd e))] := by
            show s.out ++ fires pd c e ++ _ = _
            rw [if_pos harm]
          rw [hout, pendingArm_arm] at hv'
          have hu := toU32_gap pd h16 e (he4 harm)
          rw [hu.1] at hv'
          have hv'' : delayOf pd (e + 1) - delayOf pd e = v' := Option.some.inj hv'
          have hmono2 := hasc e harm
          refine ⟨harm, ?_⟩
          show t + v + v' + (D + (delayOf pd e - delayOf pd c)) = delayOf pd (e + 1)
          omega
        · have hout : s'.out = s.out ++ fires pd c e := by
            show s.out ++ fires pd c e ++ _ = _
            rw [if_neg harm, List.append_nil]
          rw [hout, pendingArm_fires _ pd c e he1 (by omega)] at hv'
          cases hv'
      obtain ⟨rest, sf, hrest, hlog⟩ := ih s' (t + v) (D + (delayOf pd e - delayOf pd c))
        rfl rfl hnN hlen hinst' hpend'
      refine ⟨⟨t + v, c, e + 1⟩ :: rest, sf, ?_, ?_⟩
      · simp only [timerSteps, hp, hinst, hrun, Option.some_bind, hrest, Option.map_some']
      · intro i r hr
        cases i with
        | zero =>
          simp only [List.getElem?_cons_zero, Option.some.injEq] at hr
          subst hr
          simp only [List.take_zero, List.map_nil, List.sum_nil]
          show t + v + D + 0 = delayOf pd c
          omega
        | succ i =>
          simp only [List.getElem?_cons_succ] at hr
          have := hlog i r hr
          simp only [List.take_succ_cons, List.map_cons, List.sum_cons]
          have hadv : advance pd ⟨t + v, c, e + 1⟩ = delayOf pd e - delayOf pd c := by
            simp [advance]
          rw [hadv]
          omega

/-- C14 (amended): in a half-cycle whose first delay lies in [30, 9950), at
every timer expiry the time elapsed since the zero-cross edge plus the
coalescing advance of the earlier timer steps (for each, the delay of the last
entry it fired minus the delay of the first) equals the published delay of the
entry at the Cursor.  The first timer step is therefore exact, and a later one
is early by the advance accumulated before it. -/
theorem halfCycle_expiry_offsets (s s2 : State) (k : Nat)
    (hnN : s.nThyristors ≤ N) (hlenP : s.pinDelay.length = N)
    (hpub : publish s = some s2)
    (h16 : Word16 s2.pinDelay) (hasc : Ascends s2.pinDelay s.nThyristors)
    (hn1 : 1 ≤ s.nThyristors)
    (h30 : 30 ≤ delayOf s2.pinDelay 0) (h9950 : delayOf s2.pinDelay 0 < 9950) :
    ∃ log s', halfCycle k s = some (log, s') ∧
      ∀ i r, log[i]? = some r →
        r.time + ((log.take i).map (advance s2.pinDelay)).sum =
          delayOf s2.pinDelay r.cursor := by
  obtain ⟨hf, hlen2, _⟩ := publish_frame s s2 hpub
  have hn2 : s2.nThyristors = s.nThyristors := by rw [hf]
  have hN : N = 8 := rfl
  have h0 : s2.pinDelay[0]? = some s2.pinDelay[0] := List.getElem?_eq_getElem (by omega)
  have hd0 : delayOf s2.pinDelay 0 = s2.pinDelay[0].delay := delayOf_eq h0
  have hzc : zero_cross_int s = some { s2 with
      thyristorManaged := 0
      out := (s.out ++ (s.pinDelay.take s.nThyristors).map
        fun x => Event.digitalWrite x.pin Level.LOW) ++
        [Event.hw_timer_set_func (some Callback.activateThyristors),
         Event.hw_timer_arm s2.pinDelay[0].delay] } := by
    rw [zero_cross_int_eq s s2 (by omega) hpub,
      immediateLoop_stop _ _ s2.pinDelay[0] h0 (by omega)]
    simp only [Option.some_bind]
    unfold armOrDisarm
    have hlt : (0 : Nat) < s2.nThyristors := by omega
    have hlt2 : s2.pinDelay[0].delay < 9950 := by omega
    simp only [hlt, if_true, h0, Option.some_bind, if_pos hlt2]
  obtain ⟨log, s', hrun, hlog⟩ := timerSteps_drift s2.pinDelay s.nThyristors h16
    (fun j hj => hasc j (by omega)) k
    { s2 with
      thyristorManaged := 0
      out := (s.out ++ (s.pinDelay.take s.nThyristors).map
        fun x => Event.digitalWrite x.pin Level.LOW) ++
        [Event.hw_timer_set_func (some Callback.activateThyristors),
         Event.hw_timer_arm s2.pinDelay[0].delay] } 0 0 rfl hn2 hnN (by omega)
    (installed_set _ _ _)
    (by
      intro v hv
      have e1 : ((s.out ++ (s.pinDelay.take s.nThyristors).map
          fun x => Event.digitalWrite x.pin Level.LOW) ++
          [Event.hw_timer_set_func (some Callback.activateThyristors),
           Event.hw_timer_arm s2.pinDelay[0].delay]) =
          ((s.out ++ (s.pinDelay.take s.nThyristors).map
          fun x => Event.digitalWrite x.pin Level.LOW) ++
          [Event.hw_timer_set_func (some Callback.activateThyristors)]) ++
           [Event.hw_timer_arm s2.pinDelay[0].delay] := by
        simp only [List.append_assoc, List.singleton_append]
      have hv' : pendingArm (((s.out ++ (s.pinDelay.take s.nThyristors).map
          fun x => Event.digitalWrite x.pin Level.LOW) ++
          [Event.hw_timer_set_func (some Callback.activateThyristors)]) ++
           [Event.hw_timer_arm s2.pinDelay[0].delay]) = some v := by
        rw [← e1]; exact hv
      rw [pendingArm_arm] at hv'
      have := Option.some.inj hv'
      refine ⟨by show 0 < s.nThyristors; omega, ?_⟩
      show 0 + v + 0 = delayOf s2.pinDelay 0
      omega)
  refine ⟨log, s', ?_, ?_⟩
  · unfold halfCycle
    rw [hzc]
    exact hrun
  · intro i r hr
    have := hlog i r hr
    omega


/-! ## Index of the moved load -/

namespace Thyristor

theorem countP_range_lt (t : Nat) : ∀ n, t ≤ n →
    (List.range n).countP (fun j => decide (j < t)) = t := by
  have key : ∀ n, (List.range n).countP (fun j => decide (j < t)) = min n t := by
    intro n
    induction n with
    | zero => simp
    | succ n ih =>
      rw [List.range_succ, List.countP_append, ih]
      by_cases h : n < t
      · rw [List.countP_cons_of_pos _ _ (by simpa using h)]
        simp only [List.countP_nil]
        omega
      · rw [List.countP_cons_of_neg _ _ (by simpa using h)]
        simp only [List.countP_nil]
        omega
  intro n h
  rw [key n]
  omega

theorem countP_range_le_ne (p t : Nat) (hpt : p ≤ t) : ∀ n, t < n →
    (List.range n).countP (fun j => decide (j ≠ p ∧ j ≤ t)) = t := by
  have key : ∀ n, (List.range n).countP (fun j => decide (j ≠ p ∧ j ≤ t)) =
      min n (t + 1) - (if p < n then 1 else 0) := by
    intro n
    induction n with
    | zero => simp
    | succ n ih =>
      rw [List.range_succ, List.countP_append, ih]
      by_cases h : n ≠ p ∧ n ≤ t
      · rw [List.countP_cons_of_pos _ _ (by simpa using h)]
        simp only [List.countP_nil]
        split_ifs <;> omega
      · rw [List.countP_cons_of_neg _ _ (by simpa using h)]
        simp only [List.countP_nil]
        split_ifs <;> omega
  intro n h
  rw [key n, if_pos (by omega)]
  omega

theorem countOthers_eq (s : State) (h : Nat) (P : Nat → Bool) (Q : Nat → Bool)
    (me : Thyristor) (hpos : Positioned s) (hme : s.objs[h]? = some me)
    (hslot : s.thyristors[me.posIntoArray]? = some (some h))
    (hQ : ∀ j o, j < s.nThyristors → deref s j = some o →
      (Q j = true ↔ (j ≠ me.posIntoArray ∧ P o.delay = true))) :
    countOthers s h P = (List.range s.nThyristors).countP Q := by
  unfold countOthers others loads
  rw [List.countP_filter, List.countP_map]
  apply List.countP_congr
  intro j hj
  have hjn : j < s.nThyristors := List.mem_range.mp hj
  obtain ⟨a, o, ha, ho, hop⟩ := linked_of_positioned hpos j hjn
  have hd : deref s j = some o := by simp [deref, addrAt, ha, ho]
  have he : entry s j = some (a, o.pin, o.delay) := entry_of_linked ha ho
  have hah : a = h ↔ j = me.posIntoArray := by
    constructor
    · intro e
      subst e
      rw [hme] at ho
      cases ho
      exact hop.symm
    · intro e
      rw [e, hslot] at ha
      cases ha
      rfl
  simp only [Function.comp, he, Option.map_some', Option.getD_some]
  rw [hQ j o hjn hd]
  have hdec : decide (some a ≠ some h) = true ↔ j ≠ me.posIntoArray := by
    rw [decide_eq_true_eq]
    constructor
    · intro h1 e
      exact h1 (by rw [hah.mpr e])
    · intro h1 e
      exact h1 (hah.mp (Option.some.inj e))
  rw [Bool.and_eq_true, hdec]
  exact And.comm

end Thyristor

namespace Thyristor

/-- C19: index of the load `h` after `h.setDelay(d)`, `c` being its delay
before the call.  The index `k` is the value of `posIntoArray` of `h` and the
one index below `nThyristors` at which the registry array holds `h`; the
registry is valid afterwards, with the same count and the other loads as they
were.  `k` is the number of other registered loads with a delay strictly below
`d` when `d > c`, the number of other registered loads with a delay at most `d`
when `d < c`, and the old index when `d = c`. -/
theorem setDelay_index (s : State) (h c d : Nat)
    (hv : Valid s) (hr : Registered s h) (hc : getDelay s h = some c) (hd : d < 2 ^ 16) :
    ∃ s' k, setDelay s h d = some s' ∧
      posOf s' h = some k ∧ k < s'.nThyristors ∧
      (∀ i, i < s'.nThyristors → (addrAt s' i = some h ↔ i = k)) ∧
      Valid s' ∧ s'.nThyristors = s.nThyristors ∧ others s' h = others s h ∧
      (c < d → k = countOthers s h fun x => decide (x < d)) ∧
      (d < c → k = countOthers s h fun x => decide (x ≤ d)) ∧
      (d = c → posOf s h = some k ∧ addrAt s k = some h) := by
  obtain ⟨me, hme, hpn, hslot, hderef⟩ := registered_elim hr
  have hcd : me.delay = c := by
    unfold getDelay at hc
    rw [hme] at hc
    simpa using hc
  obtain ⟨s', t, hrun, hm, htn, hobj, hU, hD, hE⟩ :=
    setDelay_spec s h me d hv.1 hv.2.1 hme hpn hslot
  have hL := linked_of_positioned hv.2.1
  have hfit := fits_of_spec s me me.posIntoArray t d hv.2.1 hv.2.2 hderef hpn htn hU hD hE
  obtain ⟨hv', hn'⟩ := valid_of_moved s s' me.posIntoArray t d hv hm hpn htn hfit
  have hpos' : posOf s' h = some t := by
    unfold posOf; rw [hobj]; rfl
  have hold : ∀ j, j < s.nThyristors → (addrAt s j = some h ↔ j = me.posIntoArray) := by
    intro j hj
    obtain ⟨a, o, ha, ho, hop⟩ := hL j hj
    have hja : addrAt s j = some a := by simp [addrAt, ha]
    rw [hja]
    constructor
    · intro e
      have e' : a = h := Option.some.inj e
      subst e'
      rw [hme] at ho
      cases ho
      exact hop.symm
    · intro e
      rw [e, hslot] at ha
      cases ha
      rfl
  refine ⟨s', t, hrun, hpos', by rw [hn']; exact htn, ?_, hv', hn',
    others_moved s s' h me t d hv.2.1 hm hme hpn hslot htn, ?_, ?_, ?_⟩
  · intro i hi
    rw [hn'] at hi
    rw [hm.2.2.1 i hi, hold _ (src_lt _ _ i _ hpn htn hi)]
    exact src_eq_iff _ _ _
  · intro hlt
    obtain ⟨hpt, h1, h2⟩ := hU (by omega)
    rw [countOthers_eq s h _ (fun j => decide (j ≠ me.posIntoArray ∧ j ≤ t)) me hv.2.1
      hme hslot, countP_range_le_ne _ _ hpt _ htn]
    intro j o hj ho
    rw [decide_eq_true_eq, decide_eq_true_eq]
    constructor
    · rintro ⟨hne, hle⟩
      refine ⟨hne, ?_⟩
      by_cases hjp : j < me.posIntoArray
      · have := ascending_le hv.2.1 hv.2.2 j me.posIntoArray o me (by omega) hpn ho hderef
        omega
      · exact h1 j o (by omega) hle ho
    · rintro ⟨hne, hlt'⟩
      refine ⟨hne, ?_⟩
      by_contra hgt
      obtain ⟨o1, ho1, _⟩ := linked_deref (hL (t + 1) (by omega))
      have a1 := h2 (by omega) o1 ho1
      have a2 := ascending_le hv.2.1 hv.2.2 (t + 1) j o1 o (by omega) hj ho1 ho
      omega
  · intro hlt
    obtain ⟨hpt, h1, h2⟩ := hD (by omega)
    rw [countOthers_eq s h _ (fun j => decide (j < t)) me hv.2.1 hme hslot,
      countP_range_lt _ _ (by omega)]
    intro j o hj ho
    rw [decide_eq_true_eq, decide_eq_true_eq]
    constructor
    · intro hjt
      refine ⟨by omega, ?_⟩
      obtain ⟨o1, ho1, _⟩ := linked_deref (hL (t - 1) (by omega))
      have a1 := h2 (by omega) o1 ho1
      have a2 := ascending_le hv.2.1 hv.2.2 j (t - 1) o o1 (by omega) (by omega) ho ho1
      omega
    · rintro ⟨hne, hle⟩
      by_contra hge
      by_cases hjp : j < me.posIntoArray
      · have := h1 j o (by omega) hjp ho
        omega
      · have := ascending_le hv.2.1 hv.2.2 me.posIntoArray j me o (by omega) hj hderef ho
        omega
  · intro heq
    rw [hE (by omega)]
    refine ⟨?_, (hold _ hpn).mpr rfl⟩
    unfold posOf
    rw [hme]
    rfl

end Thyristor


/-! ## The constructor -/

namespace Thyristor

theorem swap_perm {α : Type} [DecidableEq α] (l : List α) (i j : Nat) (a b : α)
    (hi : l[i]? = some a) (hj : l[j]? = some b) (hne : i ≠ j) :
    ((l.set i b).set j a).Perm l := by
  have hil : i < l.length := lt_length_of_getElem? hi
  have hjl : j < l.length := lt_length_of_getElem? hj
  have hia : l[i] = a := by
    rw [List.getElem?_eq_getElem hil] at hi; exact Option.some.inj hi
  have hjb : l[j] = b := by
    rw [List.getElem?_eq_getElem hjl] at hj; exact Option.some.inj hj
  rw [List.perm_iff_count]
  intro x
  have hjl' : j < (l.set i b).length := by rw [List.length_set]; exact hjl
  rw [List.count_set a x (l.set i b) j hjl', List.count_set b x l i hil]
  have e1 : (l.set i b)[j] = b := by
    rw [List.getElem_set_ne hne]; exact hjb
  rw [e1, hia]
  have ha : a = x → 0 < l.count x := by
    intro e
    rw [List.count_pos_iff, ← e]
    exact List.getElem?_mem hi
  by_cases h1 : a = x
  · have hp := ha h1
    by_cases h2 : b = x
    · simp only [h1, h2, beq_self_eq_true, if_true]
      omega
    · have h2' : ¬ ((b == x) = true) := by simpa using h2
      simp only [h1, beq_self_eq_true, if_true, if_neg h2']
      omega
  · have h1' : ¬ ((a == x) = true) := by simpa using h1
    by_cases h2 : b = x
    · simp only [h2, beq_self_eq_true, if_true, if_neg h1']
      omega
    · have h2' : ¬ ((b == x) = true) := by simpa using h2
      simp only [if_neg h1', if_neg h2']
      omega

theorem swapSlots_eq (s : State) (i j : Nat) (a b : Option Nat)
    (hi : s.thyristors[i]? = some a) (hj : s.thyristors[j]? = some b) :
    swapSlots s i j = some { s with thyristors := (s.thyristors.set i b).set j a } := by
  have hil : i < s.thyristors.length := lt_length_of_getElem? hi
  have hjl : j < s.thyristors.length := lt_length_of_getElem? hj
  simp [swapSlots, slot, writeSlot, hi, hj, hil, hjl]

theorem deref_congr (s s' : State) (k k' : Nat) (ho : s'.objs = s.objs)
    (ht : s'.thyristors[k]? = s.thyristors[k']?) : deref s' k = deref s k' := by
  unfold deref addrAt
  rw [ht, ho]

theorem delayD_congr (s s' : State) (k k' : Nat) (ho : s'.objs = s.objs)
    (ht : s'.thyristors[k]? = s.thyristors[k']?) : delayD s' k = delayD s k' := by
  unfold delayD
  rw [deref_congr s s' k k' ho ht]

theorem slot_of_deref {s : State} {k : Nat} {o : Thyristor} (h : deref s k = some o) :
    ∃ p, s.thyristors[k]? = some p := by
  unfold deref addrAt at h
  cases hp : s.thyristors[k]? with
  | none => rw [hp] at h; simp at h
  | some p => exact ⟨p, rfl⟩

theorem sortInner_spec (i m : Nat) : ∀ (f j : Nat) (s : State),
    i < j → j + f = m →
    (∀ k, k < m → ∃ o, deref s k = some o) →
    ∃ s', sortInner i f j s = some s' ∧ InnerPost s s' i j m := by
  intro f
  induction f with
  | zero =>
    intro j s hij hjm hV
    refine ⟨s, rfl, rfl, List.Perm.refl _, fun _ _ _ => rfl, ?_, fun k h1 h2 => by omega,
      le_refl _⟩
    intro k hk
    exact ⟨k, hk, rfl⟩
  | succ f ih =>
    intro j s hij hjm hV
    obtain ⟨a, ha⟩ := hV i (by omega)
    obtain ⟨b, hb⟩ := hV j (by omega)
    obtain ⟨pa, hpa⟩ := slot_of_deref ha
    obtain ⟨pb, hpb⟩ := slot_of_deref hb
    -- the state after the body of the loop
    have hstep : ∃ s1, (if a.delay > b.delay then swapSlots s i j else some s) = some s1 ∧
        s1 = { s with thyristors := s1.thyristors } ∧
        s1.thyristors.Perm s.thyristors ∧
        (∀ k, k ≠ i → k ≠ j → s1.thyristors[k]? = s.thyristors[k]?) ∧
        (∀ k, (k = i ∨ k = j) →
          ∃ k', (k' = i ∨ k' = j) ∧ s1.thyristors[k]? = s.thyristors[k']?) ∧
        delayD s1 i ≤ delayD s1 j ∧ delayD s1 i ≤ delayD s i := by
      have hda : delayD s i = a.delay := by simp [delayD, ha]
      have hdb : delayD s j = b.delay := by simp [delayD, hb]
      have hil : i < s.thyristors.length := lt_length_of_getElem? hpa
      have hjl : j < s.thyristors.length := lt_length_of_getElem? hpb
      by_cases hgt : a.delay > b.delay
      · rw [if_pos hgt, swapSlots_eq s i j pa pb hpa hpb]
        have e_i : ((s.thyristors.set i pb).set j pa)[i]? = s.thyristors[j]? := by
          rw [List.getElem?_set_ne (by omega), List.getElem?_set_self hil, hpb]
        have e_j : ((s.thyristors.set i pb).set j pa)[j]? = s.thyristors[i]? := by
          rw [List.getElem?_set_self (by rw [List.length_set]; exact hjl), hpa]
        have d_i : delayD { s with thyristors := (s.thyristors.set i pb).set j pa } i =
            delayD s j := delayD_congr s { s with thyristors := (s.thyristors.set i pb).set j pa }
              i j rfl e_i
        have d_j : delayD { s with thyristors := (s.thyristors.set i pb).set j pa } j =
            delayD s i := delayD_congr s { s with thyristors := (s.thyristors.set i pb).set j pa }
              j i rfl e_j
        refine ⟨_, rfl, rfl, swap_perm _ i j pa pb hpa hpb (by omega), ?_, ?_, ?_, ?_⟩
        · intro k h1 h2
          show ((s.thyristors.set i pb).set j pa)[k]? = _
          rw [List.getElem?_set_ne (Ne.symm h2), List.getElem?_set_ne (Ne.symm h1)]
        · intro k hk
          rcases hk with rfl | rfl
          · exact ⟨j, Or.inr rfl, e_i⟩
          · exact ⟨i, Or.inl rfl, e_j⟩
        · rw [d_i, d_j, hda, hdb]
          omega
        · rw [d_i, hda, hdb]
          omega
      · rw [if_neg hgt]
        refine ⟨s, rfl, rfl, List.Perm.refl _, fun _ _ _ => rfl, ?_, ?_, le_refl _⟩
        · intro k hk
          exact ⟨k, hk, rfl⟩
        · rw [hda, hdb]
          omega
    obtain ⟨s1, hs1, hf1, hperm1, hsame1, hclos1, hmin1, hdec1⟩ := hstep
    have ho1 : s1.objs = s.objs := by rw [hf1]
    have hV1 : ∀ k, k < m → ∃ o, deref s1 k = some o := by
      intro k hk
      by_cases hki : k = i ∨ k = j
      · obtain ⟨k', hk', he⟩ := hclos1 k hki
        rw [deref_congr s s1 k k' ho1 he]
        exact hV k' (by omega)
      · rw [deref_congr s s1 k k ho1 (hsame1 k (by omega) (by omega))]
        exact hV k hk
    obtain ⟨s', hrun, hf, hperm, hsame, hclos, hmin, hdec⟩ :=
      ih (j + 1) s1 (by omega) (by omega) hV1
    have ho' : s'.objs = s1.objs := by rw [hf]
    refine ⟨s', ?_, ?_, hperm.trans hperm1, ?_, ?_, ?_, le_trans hdec hdec1⟩
    · simp only [sortInner, ha, hb, Option.some_bind, hs1]
      exact hrun
    · rw [hf, hf1]
    · intro k h1 h2
      rw [hsame k h1 (by omega), hsame1 k h1 (by omega)]
    · intro k hk
      by_cases hk' : k = i ∨ (j + 1 ≤ k ∧ k < m)
      · obtain ⟨k1, hk1, he1⟩ := hclos k hk'
        by_cases hk1' : k1 = i ∨ k1 = j
        · obtain ⟨k2, hk2, he2⟩ := hclos1 k1 hk1'
          exact ⟨k2, by omega, he1.trans he2⟩
        · exact ⟨k1, by omega, he1.trans (hsame1 k1 (by omega) (by omega))⟩
      · have hkj : k = j := by omega
        subst hkj
        obtain ⟨k2, hk2, he2⟩ := hclos1 k (Or.inr rfl)
        exact ⟨k2, by omega, (hsame k (by omega) (by omega)).trans he2⟩
    · intro k hk1 hk2
      by_cases hkj : k = j
      · subst hkj
        have e1 : delayD s' k = delayD s1 k :=
          delayD_congr s1 s' k k ho' (hsame k (by omega) (by omega))
        rw [e1]
        exact le_trans hdec hmin1
      · exact hmin k (by omega) hk2

end Thyristor


namespace Thyristor

theorem sortOuter_spec (m n : Nat) (hnm : n = m + 1) : ∀ (f i : Nat) (s : State),
    i + f = n → s.nThyristors = n →
    (∀ k, k < m → ∃ o, deref s k = some o) →
    (∀ a b, a < b → b < m → a < i → delayD s a ≤ delayD s b) →
    ∃ s', sortOuter f i s = some s' ∧ OuterPost s s' m := by
  intro f
  induction f with
  | zero =>
    intro i s hif hn hV hP
    refine ⟨s, rfl, rfl, List.Perm.refl _, fun _ _ => rfl, fun k hk => ⟨k, hk, rfl⟩, ?_⟩
    intro a b hab hb
    exact hP a b hab hb (by omega)
  | succ f ih =>
    intro i s hif hn hV hP
    have hinner : ∃ s1, sortInner i (s.nThyristors - 1 - (i + 1)) (i + 1) s = some s1 ∧
        InnerPost s s1 i (i + 1) m := by
      by_cases him : i + 1 ≤ m
      · exact sortInner_spec i m (s.nThyristors - 1 - (i + 1)) (i + 1) s (by omega)
          (by omega) hV
      · have h0 : s.nThyristors - 1 - (i + 1) = 0 := by omega
        rw [h0]
        refine ⟨s, rfl, rfl, List.Perm.refl _, fun _ _ _ => rfl, fun k hk => ⟨k, hk, rfl⟩,
          fun k h1 h2 => by omega, le_refl _⟩
    obtain ⟨s1, hrun1, hf1, hperm1, hsame1, hclos1, hmin1, _⟩ := hinner
    have ho1 : s1.objs = s.objs := by rw [hf1]
    have hn1 : s1.nThyristors = n := by rw [hf1]; exact hn
    have hV1 : ∀ k, k < m → ∃ o, deref s1 k = some o := by
      intro k hk
      by_cases hki : k = i ∨ (i + 1 ≤ k ∧ k < m)
      · obtain ⟨k', hk', he⟩ := hclos1 k hki
        rw [deref_congr s s1 k k' ho1 he]
        exact hV k' (by omega)
      · rw [deref_congr s s1 k k ho1 (hsame1 k (by omega) (by omega))]
        exact hV k hk
    have hP1 : ∀ a b, a < b → b < m → a < i + 1 → delayD s1 a ≤ delayD s1 b := by
      intro a b hab hb hai
      by_cases hai' : a = i
      · subst hai'
        exact hmin1 b (by omega) hb
      · have ea : delayD s1 a = delayD s a :=
          delayD_congr s s1 a a ho1 (hsame1 a hai' (by omega))
        rw [ea]
        by_cases hbi : b = i ∨ (i + 1 ≤ b ∧ b < m)
        · obtain ⟨k', hk', he⟩ := hclos1 b hbi
          rw [delayD_congr s s1 b k' ho1 he]
          exact hP a k' (by omega) (by omega) (by omega)
        · rw [delayD_congr s s1 b b ho1 (hsame1 b (by omega) (by omega))]
          exact hP a b hab hb (by omega)
    obtain ⟨s', hrun, hf, hperm, hhigh, hclos, hsorted⟩ :=
      ih (i + 1) s1 (by omega) hn1 hV1 hP1
    refine ⟨s', ?_, ?_, hperm.trans hperm1, ?_, ?_, hsorted⟩
    · simp only [sortOuter, hrun1, Option.some_bind]
      exact hrun
    · rw [hf, hf1]
    · intro k hk
      rw [hhigh k hk]
      by_cases him : i + 1 ≤ m
      · exact hsame1 k (by omega) (by omega)
      · by_cases hki : k = i
        · subst hki
          obtain ⟨k', hk', he⟩ := hclos1 k (Or.inl rfl)
          have : k' = k := by omega
          rw [he, this]
        · exact hsame1 k hki (by omega)
    · intro k hk
      obtain ⟨k1, hk1, he1⟩ := hclos k hk
      by_cases hki : k1 = i ∨ (i + 1 ≤ k1 ∧ k1 < m)
      · obtain ⟨k2, hk2, he2⟩ := hclos1 k1 hki
        exact ⟨k2, by omega, he1.trans he2⟩
      · exact ⟨k1, hk1, he1.trans (hsame1 k1 (by omega) (by omega))⟩

end Thyristor


namespace Thyristor

theorem renumber_spec : ∀ (k i : Nat) (s : State), i + k ≤ 256 →
    (∀ j, i ≤ j → j < i + k → ∃ a o, s.thyristors[j]? = some (some a) ∧ s.objs[a]? = some o) →
    (∀ j1 j2, i ≤ j1 → j1 < i + k → i ≤ j2 → j2 < i + k →
      s.thyristors[j1]? = s.thyristors[j2]? → j1 = j2) →
    ∃ s', renumber k i s = some s' ∧ s' = { s with objs := s'.objs } ∧
      s'.objs.length = s.objs.length ∧
      (∀ (a : Nat) (o : Thyristor), s.objs[a]? = some o →
        ∃ o' : Thyristor, s'.objs[a]? = some o' ∧ o'.pin = o.pin ∧ o'.delay = o.delay) ∧
      (∀ (j a : Nat), i ≤ j → j < i + k → s.thyristors[j]? = some (some a) →
        ∃ o' : Thyristor, s'.objs[a]? = some o' ∧ o'.posIntoArray = j) ∧
      (∀ a : Nat, (∀ j, i ≤ j → j < i + k → s.thyristors[j]? ≠ some (some a)) →
        s'.objs[a]? = s.objs[a]?) := by
  intro k
  induction k with
  | zero =>
    intro i s _ _ _
    refine ⟨s, rfl, rfl, rfl, fun a o h => ⟨o, h, rfl, rfl⟩, fun j a h1 h2 => by omega,
      fun _ _ => rfl⟩
  | succ k ih =>
    intro i s hb hV hinj
    obtain ⟨a0, o0, ha0, ho0⟩ := hV i (by omega) (by omega)
    have ha0len : a0 < s.objs.length := lt_length_of_getElem? ho0
    have hmod : i % 256 = i := Nat.mod_eq_of_lt (by omega)
    set s1 : State := { s with objs := s.objs.set a0 { o0 with posIntoArray := i } } with hs1
    have hstep : (addrAt s i).bind (fun a => writePos s a i) = some s1 := by
      simp [addrAt, ha0, writePos, ho0, hmod, hs1]
    have hobj1 : ∀ a, s1.objs[a]? =
        if a = a0 then some { o0 with posIntoArray := i } else s.objs[a]? := by
      intro a
      show (s.objs.set a0 _)[a]? = _
      by_cases e : a = a0
      · subst e
        rw [List.getElem?_set_self ha0len, if_pos rfl]
      · rw [List.getElem?_set_ne (Ne.symm e), if_neg e]
    have hV1 : ∀ j, i + 1 ≤ j → j < i + 1 + k →
        ∃ a o, s1.thyristors[j]? = some (some a) ∧ s1.objs[a]? = some o := by
      intro j h1 h2
      obtain ⟨a, o, ha, ho⟩ := hV j (by omega) (by omega)
      by_cases e : a = a0
      · exact ⟨a, _, ha, by rw [hobj1 a, if_pos e]⟩
      · exact ⟨a, o, ha, by rw [hobj1 a, if_neg e]; exact ho⟩
    obtain ⟨s', hrun, hf, hlen, hkeep, hposn, hsame⟩ := ih (i + 1) s1 (by omega) hV1
      (fun j1 j2 a1 a2 b1 b2 e => hinj j1 j2 (by omega) (by omega) (by omega) (by omega) e)
    refine ⟨s', ?_, ?_, ?_, ?_, ?_, ?_⟩
    · unfold renumber
      cases hA : addrAt s i with
      | none => rw [hA] at hstep; cases hstep
      | some a =>
        rw [hA] at hstep
        simp only [Option.some_bind] at hstep ⊢
        rw [hstep]
        exact hrun
    · rw [hf]
    · rw [hlen]
      show (s.objs.set a0 _).length = _
      rw [List.length_set]
    · intro a o ho
      by_cases e : a = a0
      · subst e
        rw [ho0] at ho
        cases ho
        obtain ⟨o', ho', hp, hd⟩ := hkeep a _ (by rw [hobj1 a, if_pos rfl])
        exact ⟨o', ho', hp, hd⟩
      · exact hkeep a o (by rw [hobj1 a, if_neg e]; exact ho)
    · intro j a h1 h2 ha
      by_cases e : j = i
      · subst e
        rw [ha0] at ha
        cases ha
        have hnot : ∀ j', j + 1 ≤ j' → j' < j + 1 + k → s1.thyristors[j']? ≠ some (some a0) := by
          intro j' b1 b2 hc
          have := hinj j' j (by omega) (by omega) (by omega) (by omega) (hc.trans ha0.symm)
          omega
        rw [hsame a0 hnot, hobj1 a0, if_pos rfl]
        exact ⟨_, rfl, rfl⟩
      · exact hposn j a (by omega) (by omega) ha
    · intro a hnot
      have hne : a ≠ a0 := by
        intro e
        subst e
        exact hnot i (by omega) (by omega) ha0
      rw [hsame a (fun j b1 b2 => hnot j (by omega) (by omega)), hobj1 a, if_neg hne]

theorem set_length_append {α : Type} (l : List α) (x y : α) :
    (l ++ [x]).set l.length y = l ++ [y] := by
  induction l with
  | nil => rfl
  | cons a l ih => simp [ih]

theorem take_set_length {α : Type} (l : List α) (n : Nat) (x : α) (h : n < l.length) :
    (l.set n x).take (n + 1) = l.take n ++ [x] := by
  rw [List.take_succ, List.getElem?_set_self h]
  congr 1
  apply List.ext_getElem?
  intro i
  rw [List.getElem?_take, List.getElem?_take]
  split
  · next h' => rw [List.getElem?_set_ne (by omega)]
  · rfl

end Thyristor


namespace Thyristor

theorem deref_elim {s : State} {k : Nat} {o : Thyristor} (h : deref s k = some o) :
    ∃ a, s.thyristors[k]? = some (some a) ∧ s.objs[a]? = some o := by
  unfold deref addrAt at h
  cases hp : s.thyristors[k]? with
  | none => rw [hp] at h; simp at h
  | some p =>
    cases p with
    | none => rw [hp] at h; simp at h
    | some a =>
      rw [hp] at h
      exact ⟨a, rfl, by simpa using h⟩

theorem deref_intro {s : State} {k a : Nat} {o : Thyristor}
    (h1 : s.thyristors[k]? = some (some a)) (h2 : s.objs[a]? = some o) :
    deref s k = some o := by
  simp [deref, addrAt, h1, h2]

theorem perm_take_of_perm {α : Type} (l l' : List α) (m : Nat) (hp : l'.Perm l)
    (hd : ∀ k, m ≤ k → l'[k]? = l[k]?) : (l'.take m).Perm (l.take m) := by
  have hdrop : l'.drop m = l.drop m := by
    apply List.ext_getElem?
    intro i
    rw [List.getElem?_drop, List.getElem?_drop]
    exact hd (m + i) (by omega)
  have h1 : (l'.take m ++ l.drop m).Perm (l.take m ++ l.drop m) := by
    rw [← hdrop, List.take_append_drop, hdrop, List.take_append_drop]
    exact hp
  exact (List.perm_append_right_iff _).mp h1

theorem nodup_take_inj {α : Type} (l : List α) (m : Nat) (hnd : (l.take m).Nodup)
    (hm : m ≤ l.length) (j1 j2 : Nat) (h1 : j1 < m) (h2 : j2 < m)
    (he : l[j1]? = l[j2]?) : j1 = j2 := by
  have hlen : (l.take m).length = m := by
    rw [List.length_take]; omega
  have key := List.nodup_iff_getElem?_ne_getElem?.mp hnd
  rcases Nat.lt_trichotomy j1 j2 with h | h | h
  · exfalso
    apply key j1 j2 h (by omega)
    rw [List.getElem?_take_of_lt h1, List.getElem?_take_of_lt h2]
    exact he
  · exact h
  · exfalso
    apply key j2 j1 h (by omega)
    rw [List.getElem?_take_of_lt h1, List.getElem?_take_of_lt h2]
    exact he.symm

end Thyristor


namespace Thyristor

/-- State of the constructor just before its sort loop. -/
theorem ctor_unfold (s : State) (pin : Int) (junk : Nat)
    (hlen : s.thyristors.length = N) (hcap : s.nThyristors < N - 1) :
    ctor s pin junk =
      (sortOuter (s.nThyristors + 1) 0
        { objs := s.objs ++ [⟨(pin % 256).toNat, s.nThyristors, 10000⟩]
          thyristors := s.thyristors.set s.nThyristors (some s.objs.length)
          nThyristors := s.nThyristors + 1
          newDelayValues := s.newDelayValues
          updatingStruct := true
          pinDelay := s.pinDelay
          thyristorManaged := s.thyristorManaged
          out := s.out ++ [Event.pinMode (pin % 256).toNat] }).bind fun s5 =>
      (renumber s5.nThyristors 0 s5).bind fun s6 =>
      some { s6 with newDelayValues := true, updatingStruct := false } := by
  have hN : N = 8 := rfl
  have hm1 : s.nThyristors % 256 = s.nThyristors := Nat.mod_eq_of_lt (by omega)
  have hm2 : (s.nThyristors + 1) % 256 = s.nThyristors + 1 := Nat.mod_eq_of_lt (by omega)
  have hlt : s.nThyristors < s.thyristors.length := by omega
  unfold ctor
  simp only [if_pos hcap, writePos, List.getElem?_concat_length, Option.map_some',
    Option.some_bind, set_length_append, hm1, hm2, writeSlot, if_pos hlt]

end Thyristor


namespace Thyristor

theorem ctor_spec (s : State) (pin : Int) (junk : Nat)
    (hl : Loaded s) (hcap : s.nThyristors < N - 1) :
    ∃ s', ctor s pin junk = some s' ∧
      s'.nThyristors = s.nThyristors + 1 ∧
      s'.thyristors.length = N ∧
      s'.objs.length = s.objs.length + 1 ∧
      (registry s').Perm (registry s ++ [some s.objs.length]) ∧
      (registry s').Nodup ∧
      Ascending s' ∧ Positioned s' ∧
      (∀ i, i < s'.nThyristors → ∃ o ∈ deref s' i, o.delay ≤ 10000) ∧
      (∀ (a : Nat) (o : Thyristor), s.objs[a]? = some o →
        ∃ o' : Thyristor, s'.objs[a]? = some o' ∧ o'.pin = o.pin ∧ o'.delay = o.delay) ∧
      (∃ o' : Thyristor, s'.objs[s.objs.length]? = some o' ∧ o'.delay = 10000 ∧
        o'.pin = (pin % 256).toNat) ∧
      s'.newDelayValues = true ∧ s'.updatingStruct = false ∧
      s'.pinDelay = s.pinDelay ∧ s'.thyristorManaged = s.thyristorManaged ∧
      s'.out = s.out ++ [Event.pinMode (pin % 256).toNat] := by
  obtain ⟨hlen, hnd, hdel⟩ := hl
  have hN : N = 8 := rfl
  set n := s.nThyristors with hn
  set L := s.objs.length with hL
  set me : Thyristor := ⟨(pin % 256).toNat, n, 10000⟩ with hme
  have hnlen : n < s.thyristors.length := by omega
  -- registered entries of the old state
  have hold : ∀ i, i < n → ∃ a o, s.thyristors[i]? = some (some a) ∧ s.objs[a]? = some o ∧
      a < L ∧ o.delay ≤ 10000 := by
    intro i hi
    obtain ⟨o, ho, hd⟩ := hdel i hi
    obtain ⟨a, ha, hoa⟩ := deref_elim (Option.mem_def.mp ho)
    exact ⟨a, o, ha, hoa, lt_length_of_getElem? hoa, hd⟩
  set s4 : State :=
    { objs := s.objs ++ [me]
      thyristors := s.thyristors.set n (some L)
      nThyristors := n + 1
      newDelayValues := s.newDelayValues
      updatingStruct := true
      pinDelay := s.pinDelay
      thyristorManaged := s.thyristorManaged
      out := s.out ++ [Event.pinMode (pin % 256).toNat] } with hs4
  have hctor := ctor_unfold s pin junk hlen hcap
  rw [← hn, ← hL, ← hme, ← hs4] at hctor
  have hthy4 : ∀ k, k ≠ n → s4.thyristors[k]? = s.thyristors[k]? := by
    intro k hk
    show (s.thyristors.set n (some L))[k]? = _
    rw [List.getElem?_set_ne (Ne.symm hk)]
  have hthy4n : s4.thyristors[n]? = some (some L) := by
    show (s.thyristors.set n (some L))[n]? = _
    rw [List.getElem?_set_self hnlen]
  have hobj4 : ∀ a, a < L → s4.objs[a]? = s.objs[a]? := by
    intro a ha
    show (s.objs ++ [me])[a]? = _
    rw [List.getElem?_append_left ha]
  have hobj4L : s4.objs[L]? = some me := List.getElem?_concat_length _ _
  have hderef4 : ∀ k, k < n → deref s4 k = deref s k := by
    intro k hk
    obtain ⟨a, o, ha, hoa, haL, _⟩ := hold k hk
    rw [deref_intro ha hoa]
    exact deref_intro ((hthy4 k (by omega)).trans ha) ((hobj4 a haL).trans hoa)
  have hderef4n : deref s4 n = some me := deref_intro hthy4n hobj4L
  -- the sort
  obtain ⟨s5, hrun5, hf5, hperm5, hhigh5, hclos5, hsorted5⟩ :=
    sortOuter_spec n (n + 1) rfl (n + 1) 0 s4 (by omega) rfl
      (by
        intro k hk
        obtain ⟨a, o, ha, hoa, _, _⟩ := hold k hk
        exact ⟨o, by rw [hderef4 k hk]; exact deref_intro ha hoa⟩)
      (fun a b _ _ h => by omega)
  have ho5 : s5.objs = s4.objs := by rw [hf5]
  have hn5 : s5.nThyristors = n + 1 := by rw [hf5]
  have hthy5n : s5.thyristors[n]? = some (some L) := by
    rw [hhigh5 n (le_refl _)]; exact hthy4n
  have hlen5 : s5.thyristors.length = N := by
    rw [hperm5.length_eq]
    show (s.thyristors.set n (some L)).length = N
    rw [List.length_set]; exact hlen
  -- every entry below n of the sorted array is an old entry
  have hent5 : ∀ k, k < n → ∃ k' a o, k' < n ∧ s5.thyristors[k]? = some (some a) ∧
      s.thyristors[k']? = some (some a) ∧
      s.objs[a]? = some o ∧ s5.objs[a]? = some o ∧ a < L ∧ o.delay ≤ 10000 := by
    intro k hk
    obtain ⟨k', hk', he⟩ := hclos5 k hk
    obtain ⟨a, o, ha, hoa, haL, hd⟩ := hold k' hk'
    refine ⟨k', a, o, hk', ?_, ha, hoa, ?_, haL, hd⟩
    · rw [he, hthy4 k' (by omega)]; exact ha
    · rw [ho5, hobj4 a haL]; exact hoa
  have hreg5 : (s5.thyristors.take (n + 1)).Perm (registry s ++ [some L]) := by
    have h1 := perm_take_of_perm s4.thyristors s5.thyristors (n + 1) hperm5
      (fun k hk => hhigh5 k (by omega))
    have h2 : s4.thyristors.take (n + 1) = registry s ++ [some L] :=
      take_set_length s.thyristors n (some L) hnlen
    rw [h2] at h1
    exact h1
  have hnotin : some L ∉ registry s := by
    intro hmem
    obtain ⟨i, hi⟩ := List.mem_iff_getElem?.mp hmem
    unfold registry at hi
    rw [List.getElem?_take] at hi
    split at hi
    · next hlt =>
      obtain ⟨a, o, ha, hoa, haL, _⟩ := hold i hlt
      rw [ha] at hi
      have : a = L := by
        have := Option.some.inj hi
        exact Option.some.inj this
      omega
    · cases hi
  have hnd5 : (s5.thyristors.take (n + 1)).Nodup := by
    apply (List.Perm.nodup_iff hreg5).mpr
    rw [List.nodup_append]
    refine ⟨hnd, List.nodup_singleton _, ?_⟩
    intro x hx hx'
    rw [List.mem_singleton.mp hx'] at hx
    exact hnotin hx
  -- the renumbering
  obtain ⟨s6, hrun6, hf6, hlen6, hkeep6, hposn6, _⟩ :=
    renumber_spec (n + 1) 0 s5 (by omega)
      (by
        intro j _ hj
        by_cases hjn : j < n
        · obtain ⟨_, a, o, _, ha5, _, _, ho5a, _, _⟩ := hent5 j hjn
          exact ⟨a, o, ha5, ho5a⟩
        · have : j = n := by omega
          subst this
          exact ⟨L, me, hthy5n, by rw [ho5]; exact hobj4L⟩)
      (by
        intro j1 j2 _ h1 _ h2 he
        exact nodup_take_inj s5.thyristors (n + 1) hnd5 (by omega) j1 j2 (by omega)
          (by omega) he)
  -- entries of the final state
  set sF : State := { s6 with newDelayValues := true, updatingStruct := false } with hsF
  have hfinal : ∀ k, k < n + 1 → ∃ o' : Thyristor, deref sF k = some o' ∧
      o'.posIntoArray = k ∧ o'.delay = delayD s5 k ∧ o'.delay ≤ 10000 := by
    intro k hk
    have hent : ∃ a o, s5.thyristors[k]? = some (some a) ∧ s5.objs[a]? = some o ∧
        o.delay ≤ 10000 := by
      by_cases hkn : k < n
      · obtain ⟨_, a, o, _, ha5, _, _, ho5a, _, hd⟩ := hent5 k hkn
        exact ⟨a, o, ha5, ho5a, hd⟩
      · have : k = n := by omega
        subst this
        exact ⟨L, me, hthy5n, by rw [ho5]; exact hobj4L, le_refl _⟩
    obtain ⟨a, o, ha, hoa, hd⟩ := hent
    obtain ⟨o1, ho1, hp1⟩ := hposn6 k a (by omega) (by omega) ha
    obtain ⟨o2, ho2, _, hd2⟩ := hkeep6 a o hoa
    rw [ho1] at ho2
    cases ho2
    have ht6 : s6.thyristors = s5.thyristors := by rw [hf6]
    refine ⟨o1, ?_, hp1, ?_, by omega⟩
    · exact deref_intro (s := sF)
        (by show s6.thyristors[k]? = _; rw [ht6]; exact ha) ho1
    · rw [hd2]
      simp [delayD, deref_intro ha hoa]
  have hd5n : delayD s5 n = 10000 := by
    have : deref s5 n = some me := deref_intro hthy5n (by rw [ho5]; exact hobj4L)
    simp [delayD, this, hme]
  refine ⟨sF, ?_, ?_, ?_, ?_, ?_, ?_, ?_, ?_, ?_, ?_, ?_, rfl, rfl, ?_, ?_, ?_⟩
  · rw [hctor, hrun5]
    simp only [Option.some_bind]
    rw [hn5, hrun6]
    rfl
  · show s6.nThyristors = n + 1
    rw [hf6]; exact hn5
  · show s6.thyristors.length = N
    rw [hf6]; exact hlen5
  · show s6.objs.length = L + 1
    rw [hlen6, ho5]
    show (s.objs ++ [me]).length = L + 1
    rw [List.length_append]; rfl
  · show (s6.thyristors.take s6.nThyristors).Perm _
    rw [hf6]
    show (s5.thyristors.take s5.nThyristors).Perm _
    rw [hn5]
    exact hreg5
  · show (s6.thyristors.take s6.nThyristors).Nodup
    rw [hf6]
    show (s5.thyristors.take s5.nThyristors).Nodup
    rw [hn5]
    exact hnd5
  · intro i hi a ha b hb
    have hi' : i < n := by
      have : s6.nThyristors = n + 1 := by rw [hf6]; exact hn5
      have hi2 : i < s6.nThyristors - 1 := hi
      omega
    obtain ⟨oa, hoa, _, hda, _⟩ := hfinal i (by omega)
    obtain ⟨ob, hob, _, hdb, _⟩ := hfinal (i + 1) (by omega)
    rw [Option.mem_def, hoa] at ha
    rw [Option.mem_def, hob] at hb
    cases ha
    cases hb
    rw [hda, hdb]
    by_cases hlast : i + 1 < n
    · exact hsorted5 i (i + 1) (by omega) hlast
    · have e : i + 1 = n := by omega
      rw [e, hd5n, ← hda]
      obtain ⟨_, _, _, _, h10⟩ := hfinal i (by omega)
      obtain ⟨oa', hoa', _, _, h10'⟩ := hfinal i (by omega)
      rw [hoa] at hoa'
      cases hoa'
      exact h10'
  · intro i hi
    have hi' : i < n + 1 := by
      have : s6.nThyristors = n + 1 := by rw [hf6]; exact hn5
      have hi2 : i < s6.nThyristors := hi
      omega
    obtain ⟨o, ho, hp, _, _⟩ := hfinal i hi'
    rw [ho]
    simp [hp]
  · intro i hi
    have hi' : i < n + 1 := by
      have : s6.nThyristors = n + 1 := by rw [hf6]; exact hn5
      have hi2 : i < s6.nThyristors := hi
      omega
    obtain ⟨o, ho, _, _, h10⟩ := hfinal i hi'
    exact ⟨o, Option.mem_def.mpr ho, h10⟩
  · intro a o hoa
    have haL : a < L := lt_length_of_getElem? hoa
    obtain ⟨o', ho', hp, hd⟩ := hkeep6 a o (by rw [ho5, hobj4 a haL]; exact hoa)
    exact ⟨o', ho', hp, hd⟩
  · obtain ⟨o', ho', hp, hd⟩ := hkeep6 L me (by rw [ho5]; exact hobj4L)
    exact ⟨o', ho', hd, hp⟩
  · show s6.pinDelay = s.pinDelay
    rw [hf6, hf5]
  · show s6.thyristorManaged = s.thyristorManaged
    rw [hf6, hf5]
  · show s6.out = _
    rw [hf6, hf5]

end Thyristor



namespace Thyristor

/-- C16: a constructor call that is accepted re-sorts the whole registry.  For
every arrangement of pairwise different registered loads with delays in
`[0, 10000]`, ascending or not, the first `nThyristors` entries afterwards are
a permutation of the previous entries plus the new load, each once, ascending
by delay, every entry records its own index, the other loads keep pin and
delay, the new load has delay 10000, dirty is set and busy is clear. -/
theorem ctor_resorts (s : State) (pin : Int) (junk : Nat)
    (hl : Loaded s) (hcap : s.nThyristors < N - 1) :
    ∃ s', ctor s pin junk = some s' ∧
      getThyristorNumber s' = getThyristorNumber s + 1 ∧
      (registry s').Perm (registry s ++ [some s.objs.length]) ∧
      (registry s').Nodup ∧
      Ascending s' ∧ Positioned s' ∧
      (∀ (a : Nat) (o : Thyristor), s.objs[a]? = some o →
        ∃ o' : Thyristor, s'.objs[a]? = some o' ∧ o'.pin = o.pin ∧ o'.delay = o.delay) ∧
      getDelay s' s.objs.length = some 10000 ∧
      s'.newDelayValues = true ∧ s'.updatingStruct = false := by
  obtain ⟨s', hrun, hn, _, _, hperm, hnd, hasc, hpos, _, hkeep, ⟨o', ho', hd, _⟩, hdirty, hbusy,
    _, _, _⟩ := ctor_spec s pin junk hl hcap
  refine ⟨s', hrun, hn, hperm, hnd, hasc, hpos, hkeep, ?_, hdirty, hbusy⟩
  unfold getDelay
  rw [ho']
  simp [hd]

end Thyristor

theorem run_append (l1 l2 : List Op) (s : State) :
    run (l1 ++ l2) s = (run l1 s).bind (run l2) := by
  induction l1 generalizing s with
  | nil => rfl
  | cons op rest ih =>
    simp only [List.cons_append, run]
    cases h : step s op with
    | none => rfl
    | some s1 =>
      simp only [Option.some_bind]
      exact ih s1

namespace Thyristor

theorem fresh_invariant : ∀ (calls : List (Int × Nat)), calls.length ≤ N - 1 →
    ∃ s, run (calls.map fun c => Op.create c.1 c.2) init = some s ∧
      Loaded s ∧ s.nThyristors = calls.length ∧ s.objs.length = calls.length ∧
      (∀ a, a < calls.length → getDelay s a = some 10000) ∧
      (registry s).Perm ((List.range calls.length).map some) ∧ Positioned s := by
  intro calls
  induction calls using List.reverseRecOn with
  | nil =>
    intro _
    refine ⟨init, rfl, by decide, rfl, rfl, fun a h => by simp at h, ?_, ?_⟩
    · exact List.Perm.refl _
    · intro i hi
      exact absurd hi (Nat.not_lt_zero i)
  | append_singleton calls c ih =>
    intro hk
    rw [List.length_append, List.length_singleton] at hk
    obtain ⟨s, hrun, hl, hn, hL, hdel, hperm, _⟩ := ih (by omega)
    obtain ⟨s', hrun', hn', hlen', hL', hperm', hnd', hasc', hpos', hdel', hkeep',
      ⟨o', ho', hd', _⟩, _⟩ := ctor_spec s c.1 c.2 hl (by omega)
    refine ⟨s', ?_, ⟨hlen', hnd', hdel'⟩, ?_, ?_, ?_, ?_, hpos'⟩
    · rw [List.map_append, run_append, hrun]
      simp only [Option.some_bind, List.map_cons, List.map_nil, run, step, hrun']
    · rw [hn', hn, List.length_append, List.length_singleton]
    · rw [hL', hL, List.length_append, List.length_singleton]
    · intro a ha
      rw [List.length_append, List.length_singleton] at ha
      by_cases hal : a < calls.length
      · have h1 := hdel a hal
        unfold getDelay at h1 ⊢
        cases ho : s.objs[a]? with
        | none => rw [ho] at h1; cases h1
        | some o =>
          rw [ho] at h1
          obtain ⟨o2, ho2, _, hd2⟩ := hkeep' a o ho
          rw [ho2]
          simp only [Option.map_some', Option.some.injEq] at h1 ⊢
          omega
      · have e : a = s.objs.length := by omega
        unfold getDelay
        rw [e, ho']
        simp [hd']
    · rw [List.length_append, List.length_singleton, List.range_succ, List.map_append]
      refine hperm'.trans ?_
      rw [hL]
      exact (List.perm_append_right_iff _).mpr hperm

/-- C17: `k` consecutive constructor calls from the empty registry that are all
accepted (at most `N - 1` of them, with any pins) leave a count of `k`, give
every created load (addresses `0..k-1`) the delay 10000, and leave each of
them exactly once among the first `k` entries of the registry, with
`posIntoArray` equal to its index. -/
theorem fresh_loads (calls : List (Int × Nat)) (hk : calls.length ≤ N - 1) :
    ∃ s, run (calls.map fun c => Op.create c.1 c.2) init = some s ∧
      getThyristorNumber s = calls.length ∧
      (∀ a, a < calls.length → getDelay s a = some 10000) ∧
      (registry s).Perm ((List.range calls.length).map some) ∧
      Positioned s := by
  obtain ⟨s, hrun, _, hn, _, hdel, hperm, hpos⟩ := fresh_invariant calls hk
  exact ⟨s, hrun, hn, hdel, hperm, hpos⟩

end Thyristor


/-! ## Concrete runs of the interrupt routines and of the constructor -/

/-- The state `demoPair` is reached from the initial state. -/
theorem demoPair_reachable : run demoPairCalls init = some demoPair := by
  decide

/-- The state `demoDrift` is reached from the initial state. -/
theorem demoDrift_reachable : run demoDriftCalls init = some demoDrift := by
  decide

/-- The state `demoSafe` is reached from the initial state. -/
theorem demoSafe_reachable : run demoSafeCalls init = some demoSafe := by
  decide

/-- C11, counterexample: after `Thyristor A(4); A.setDelay(9980)` the schedule
the handler publishes has the single entry (4, 9980), and the handler writes
LOW to pin 0 of the stale entry only: pin 4 is not driven low.  In `stuckHigh`
pin 5 is high and the handler publishes the single entry (5, 9990); it drives
pin 4 low, so pin 5 is still high at the end of the half-cycle. -/
theorem zero_cross_int_safety_margin_counterexample :
    (run [Op.create 4 0, Op.setDelay 0 9980] init).bind
        (fun s => (publish s).map fun s2 => s2.pinDelay.take s2.nThyristors) =
      some [⟨4, 9980⟩] ∧
    (run [Op.create 4 0, Op.setDelay 0 9980] init).bind
        (fun s => (zero_cross_int s).map fun r => r.out.drop s.out.length) =
      some [Event.digitalWrite 0 Level.LOW, Event.hw_timer_set_func none] ∧
    stuckHigh.map (fun s => pinLevel s.out 5) = some (some Level.HIGH) ∧
    stuckHigh.bind (fun s => (publish s).map fun s2 => s2.pinDelay.take s2.nThyristors) =
      some [⟨5, 9990⟩] ∧
    stuckHigh.bind (fun s => (halfCycle 3 s).map fun r => r.1) = some [] ∧
    stuckHigh.bind (fun s => (halfCycle 3 s).map fun r => r.2.out.drop s.out.length) =
      some [Event.digitalWrite 4 Level.LOW, Event.hw_timer_set_func none] ∧
    stuckHigh.bind (fun s => (halfCycle 3 s).map fun r => pinLevel r.2.out 5) =
      some (some Level.HIGH) := by
  decide

/-- C11, witness: a single load with delay 9980. -/
theorem zero_cross_int_safety_margin_witness :
    1 ≤ demoSafe.nThyristors ∧ demoSafe.nThyristors ≤ N ∧ demoSafe.pinDelay.length = N ∧
    publish demoSafe = some demoSafe ∧ demoSafe.pinDelay[0]? = some ⟨4, 9980⟩ ∧
    9950 ≤ (PinDelay.mk 4 9980).delay ∧
    (zero_cross_int demoSafe = some { demoSafe with
      thyristorManaged := 0
      out := demoSafe.out ++ ((demoSafe.pinDelay.take demoSafe.nThyristors).map
        fun x => Event.digitalWrite x.pin Level.LOW) ++ [Event.hw_timer_set_func none] } ∧
     (¬ (demoSafe.newDelayValues = true ∧ demoSafe.updatingStruct = false) →
       demoSafe.pinDelay = demoSafe.pinDelay) ∧
     (∀ k, halfCycle k demoSafe = some ([], { demoSafe with
      thyristorManaged := 0
      out := demoSafe.out ++ ((demoSafe.pinDelay.take demoSafe.nThyristors).map
        fun x => Event.digitalWrite x.pin Level.LOW) ++ [Event.hw_timer_set_func none] })) ∧
     (∀ k r, halfCycle k demoSafe = some r →
       ∀ x ∈ demoSafe.pinDelay.take demoSafe.nThyristors,
         pinLevel r.2.out x.pin = some Level.LOW)) :=
  ⟨by decide, by decide, by decide, by decide, by decide, by decide,
    zero_cross_int_safety_margin demoSafe demoSafe ⟨4, 9980⟩ (by decide) (by decide)
      (by decide) (by decide) (by decide) (by decide)⟩

/-- C12, witness: with delays 1000 and 1100 the timer routine started at
Cursor 0 fires both loads in the one step. -/
theorem activateThyristors_refines_spec_witness :
    demoPair.thyristorManaged = 0 ∧ 0 < demoPair.nThyristors ∧ demoPair.nThyristors ≤ N ∧
    demoPair.pinDelay.length = N ∧ Word16 demoPair.pinDelay ∧
    Ascends demoPair.pinDelay demoPair.nThyristors ∧
    (activateThyristors demoPair).map (fun s => s.out.drop demoPair.out.length) =
      some [Event.digitalWrite 4 Level.HIGH, Event.digitalWrite 5 Level.HIGH] ∧
    ∃ e, 0 ≤ e ∧ e < demoPair.nThyristors ∧
      (e = demoPair.nThyristors - 1 ∨ 150 ≤ gapI demoPair.pinDelay e) ∧
      (∀ j, 0 ≤ j → j < e →
        ¬ (j = demoPair.nThyristors - 1 ∨ 150 ≤ gapI demoPair.pinDelay j)) ∧
      activateThyristors demoPair = some { demoPair with
        thyristorManaged := e + 1
        out := demoPair.out ++ fires demoPair.pinDelay 0 e ++
          (if e + 1 < demoPair.nThyristors then
            [Event.hw_timer_arm (delayOf demoPair.pinDelay (e + 1) - delayOf demoPair.pinDelay e)]
           else []) } ∧
      specCascade demoPair = activateThyristors demoPair :=
  ⟨by decide, by decide, by decide, by decide, by decide, by decide, by decide,
    activateThyristors_refines_spec demoPair 0 (by decide) (by decide) (by decide) (by decide)
      (by decide) (by decide)⟩

/-- C13: two loads with delays 9900 and 10000.  The handler arms the timer with
9900; at its expiry the timer routine fires pin 4 and, the gap being below 150,
pin 5 of the load whose delay is the off-value 10000. -/
theorem timer_routine_fires_off_load :
    (run [Op.create 4 0, Op.create 5 0, Op.setDelay 0 9900] init).bind
        (fun s => (halfCycle 3 s).map fun r => r.2.pinDelay.take 2) =
      some [⟨4, 9900⟩, ⟨5, 10000⟩] ∧
    (run [Op.create 4 0, Op.create 5 0, Op.setDelay 0 9900] init).bind
        (fun s => (halfCycle 3 s).map fun r => r.1) = some [⟨9900, 0, 2⟩] ∧
    (run [Op.create 4 0, Op.create 5 0, Op.setDelay 0 9900] init).bind
        (fun s => (halfCycle 3 s).map fun r => r.2.out.drop s.out.length) =
      some [Event.digitalWrite 0 Level.LOW, Event.digitalWrite 0 Level.LOW,
        Event.hw_timer_set_func (some Callback.activateThyristors), Event.hw_timer_arm 9900,
        Event.digitalWrite 4 Level.HIGH, Event.digitalWrite 5 Level.HIGH] := by
  decide

/-- C14, counterexample: with delays 1000, 1100 and 2000 the first timer step
fires the first two loads at time 1000 and re-arms the timer with
2000 - 1100 = 900, so the second step runs at time 1900 with the Cursor on the
entry whose delay is 2000. -/
theorem halfCycle_expiry_offsets_counterexample :
    Ascends demoDrift.pinDelay demoDrift.nThyristors ∧
    30 ≤ delayOf demoDrift.pinDelay 0 ∧ delayOf demoDrift.pinDelay 0 < 9950 ∧
    (halfCycle 3 demoDrift).map (fun r => r.1) = some [⟨1000, 0, 2⟩, ⟨1900, 2, 3⟩] ∧
    delayOf demoDrift.pinDelay 2 = 2000 := by
  decide

/-- C14, witness: the half-cycle of `demoDrift`, up to three timer expiries. -/
theorem halfCycle_expiry_offsets_witness :
    demoDrift.nThyristors ≤ N ∧ demoDrift.pinDelay.length = N ∧
    publish demoDrift = some demoDrift ∧ Word16 demoDrift.pinDelay ∧
    Ascends demoDrift.pinDelay demoDrift.nThyristors ∧ 1 ≤ demoDrift.nThyristors ∧
    30 ≤ delayOf demoDrift.pinDelay 0 ∧ delayOf demoDrift.pinDelay 0 < 9950 ∧
    ∃ log s', halfCycle 3 demoDrift = some (log, s') ∧
      ∀ i r, log[i]? = some r →
        r.time + ((log.take i).map (advance demoDrift.pinDelay)).sum =
          delayOf demoDrift.pinDelay r.cursor :=
  ⟨by decide, by decide, by decide, by decide, by decide, by decide, by decide, by decide,
    halfCycle_expiry_offsets demoDrift demoDrift 3 (by decide) (by decide) (by decide)
      (by decide) (by decide) (by decide) (by decide) (by decide)⟩

/-- C15: after eight constructor calls (the eighth is rejected) and the
destruction of the rejected object, the count is 6 although the seven accepted
loads are all still in the registry array and none of them was destroyed; after
the destruction of all eight objects the count is 255. -/
theorem dtor_count_mismatch :
    (run (eightCreates ++ [Op.remove 7]) init).map getThyristorNumber = some 6 ∧
    (run (eightCreates ++ [Op.remove 7]) init).map (fun s => s.thyristors.take 7) =
      some [some 0, some 1, some 2, some 3, some 4, some 5, some 6] ∧
    (run (eightCreates ++ [Op.remove 7, Op.remove 6, Op.remove 5, Op.remove 4,
        Op.remove 3, Op.remove 2, Op.remove 1, Op.remove 0]) init).map getThyristorNumber =
      some 255 := by
  decide

/-- C16, witness: a fourth load is created in `demo3`. -/
theorem ctor_resorts_witness :
    Loaded demo3 ∧ demo3.nThyristors < N - 1 ∧
    ∃ s', ctor demo3 7 0 = some s' ∧
      getThyristorNumber s' = getThyristorNumber demo3 + 1 ∧
      (registry s').Perm (registry demo3 ++ [some demo3.objs.length]) ∧
      (registry s').Nodup ∧
      Ascending s' ∧ Positioned s' ∧
      (∀ (a : Nat) (o : Thyristor), demo3.objs[a]? = some o →
        ∃ o' : Thyristor, s'.objs[a]? = some o' ∧ o'.pin = o.pin ∧ o'.delay = o.delay) ∧
      getDelay s' demo3.objs.length = some 10000 ∧
      s'.newDelayValues = true ∧ s'.updatingStruct = false :=
  ⟨by decide, by decide, Thyristor.ctor_resorts demo3 7 0 (by decide) (by decide)⟩

/-- C17, witness: creating A, B, C on pins 4, 5, 6 gives count 3 and all
delays 10000. -/
theorem fresh_loads_witness :
    [((4 : Int), 0), (5, 0), (6, 0)].length ≤ N - 1 ∧
    ∃ s, run ([((4 : Int), 0), (5, 0), (6, 0)].map fun c => Op.create c.1 c.2) init = some s ∧
      getThyristorNumber s = [((4 : Int), 0), (5, 0), (6, 0)].length ∧
      (∀ a, a < [((4 : Int), 0), (5, 0), (6, 0)].length → getDelay s a = some 10000) ∧
      (registry s).Perm ((List.range [((4 : Int), 0), (5, 0), (6, 0)].length).map some) ∧
      Positioned s :=
  ⟨by decide, Thyristor.fresh_loads [((4 : Int), 0), (5, 0), (6, 0)] (by decide)⟩

/-- C18: with the empty registry and the all-zero initial schedule the
immediate-fire loop runs through all `N` entries and reads past the end of
`pinDelay`.  With one registered load left and the stale entries
(5, 20), (6, 10000) behind it, the handler drives pin 5 high, which belongs to
index 1, not below the count 1. -/
theorem zero_cross_int_fires_beyond_count :
    zero_cross_int init = none ∧
    (run [Op.create 4 0, Op.create 5 0, Op.create 6 0, Op.setDelay 1 20, Op.setDelay 0 10,
          Op.zeroCross, Op.remove 2, Op.remove 1] init).map
        (fun s => (getThyristorNumber s, s.pinDelay.take 3)) =
      some (1, [⟨4, 10⟩, ⟨5, 20⟩, ⟨6, 10000⟩]) ∧
    (run [Op.create 4 0, Op.create 5 0, Op.create 6 0, Op.setDelay 1 20, Op.setDelay 0 10,
          Op.zeroCross, Op.remove 2, Op.remove 1] init).bind
        (fun s => (zero_cross_int s).map fun r => r.out.drop s.out.length) =
      some [Event.digitalWrite 4 Level.LOW, Event.digitalWrite 4 Level.HIGH,
        Event.digitalWrite 5 Level.HIGH,
        Event.hw_timer_set_func (some Callback.activateThyristors), Event.hw_timer_arm 10] := by
  decide

/-- C19, witness: load A of `demo3` is moved from delay 100 to delay 600. -/
theorem setDelay_index_witness :
    Valid demo3 ∧ Registered demo3 0 ∧ getDelay demo3 0 = some 100 ∧ 600 < 2 ^ 16 ∧
    ∃ s' k, setDelay demo3 0 600 = some s' ∧
      posOf s' 0 = some k ∧ k < s'.nThyristors ∧
      (∀ i, i < s'.nThyristors → (addrAt s' i = some 0 ↔ i = k)) ∧
      Valid s' ∧ s'.nThyristors = demo3.nThyristors ∧ others s' 0 = others demo3 0 ∧
      (100 < 600 → k = countOthers demo3 0 fun x => decide (x < 600)) ∧
      (600 < 100 → k = countOthers demo3 0 fun x => decide (x ≤ 600)) ∧
      (600 = 100 → posOf demo3 0 = some k ∧ addrAt demo3 k = some 0) :=
  ⟨by decide, by decide, by decide, by decide,
    Thyristor.setDelay_index demo3 0 100 600 (by decide) (by decide) (by decide) (by decide)⟩

/-- C20, witness: the timer routine run on `demoDrift` from Cursor 0. -/
theorem activateThyristors_rearm_at_least_150_witness :
    demoDrift.nThyristors < 256 ∧ demoDrift.thyristorManaged < 256 ∧
    Word16 demoDrift.pinDelay ∧
    (activateThyristors demoDrift).map (fun s => s.out.drop demoDrift.out.length) =
      some [Event.digitalWrite 4 Level.HIGH, Event.digitalWrite 5 Level.HIGH,
        Event.hw_timer_arm 900] ∧
    ((∀ s', activateThyristors demoDrift = some s' →
      ∃ evs, s'.out = demoDrift.out ++ evs ∧
        ∀ v, Event.hw_timer_arm v ∈ evs →
          150 ≤ v ∧ 1 ≤ s'.thyristorManaged ∧
          v = delayOf demoDrift.pinDelay s'.thyristorManaged -
              delayOf demoDrift.pinDelay (s'.thyristorManaged - 1)) ∧
    (demoDrift.pinDelay.length = N → demoDrift.nThyristors ≤ N →
      demoDrift.thyristorManaged < N → ∃ s', activateThyristors demoDrift = some s')) :=
  ⟨by decide, by decide, by decide, by decide,
    activateThyristors_rearm_at_least_150 demoDrift (by decide) (by decide) (by decide)⟩
